import Mathlib

/-!
# Verification of the go-zfs nvlist codec, control dispatcher and stream adapters

This file embeds, as executable Lean definitions, the parts of the `go-zfs`
repository that the checked claims are about:

* the nvlist encoder `Marshal` / `nvlistWriter.writeNvPairs` (file `part_006`,
  second — current — writer);
* the nvlist decoder `Unmarshal` / `nvlistReader.readPairs` in its two versions:
  the struct-target decoder of `part_008` and the generic decoder of
  `nvlist/nvlist.go` + `nvlist/consts.go`;
* a spec-modelled control dispatcher retry loop (the 7-argument `NvlistIoctl`
  is called throughout the repository but its definition is not part of the
  sources; it is modelled from the specification, §4.3);
* the send-stream reader (`sendStream.Read`) and the receive-stream writer
  (`ReceiveStream.Write`) of `part_003`.

Go byte slices are `List Byte` with `Byte := Fin 256`; machine integers are
natural-number bit patterns with explicit bounds; Go `error` results are
`Option`/`Except` values.  Where Go code would panic (out-of-bounds access,
`reflect` type mismatch), the model returns a distinguished `panicked` result so
that panic-freedom is provable.  Loops whose termination is data-dependent use
explicit fuel, with a distinguished `outOfFuel` result and theorems showing that
the fuel chosen by the top-level entry points is always sufficient.
-/

namespace GoZfs

/-- A byte, i.e. Go `byte` / `uint8`. -/
abbrev Byte := Fin 256

/-- `n` zero bytes (the writer's `skipN`, which appends `0x00` bytes). -/
def zeros (n : Nat) : List Byte := List.replicate n 0

/-- Little-endian byte encoding of the `k`-byte pattern of `n`
(`binary.Write` with `binary.LittleEndian` of a `k`-byte integer). -/
def leN : Nat → Nat → List Byte
  | 0, _ => []
  | k + 1, n => ⟨n % 256, Nat.mod_lt _ (by norm_num)⟩ :: leN k (n / 256)

/-- The value of a little-endian byte string (`binary.LittleEndian` read). -/
def leVal (bs : List Byte) : Nat := bs.foldr (fun b acc => b.val + 256 * acc) 0

/-- The value of a big-endian byte string (`binary.BigEndian` read). -/
def beVal (bs : List Byte) : Nat := bs.foldl (fun acc b => acc * 256 + b.val) 0

@[simp] theorem leN_length (k n : Nat) : (leN k n).length = k := by
  induction k generalizing n with
  | zero => rfl
  | succ k ih => simp [leN, ih]

@[simp] theorem zeros_length (n : Nat) : (zeros n).length = n := by
  simp [zeros]

theorem leVal_leN (k n : Nat) : leVal (leN k n) = n % 2 ^ (8 * k) := by
  induction k generalizing n with
  | zero => simp [leN, leVal, Nat.mod_one]
  | succ k ih =>
    have h := ih (n / 256)
    simp only [leN, leVal, List.foldr_cons] at *
    rw [h]
    have hpow : (2 : Nat) ^ (8 * (k + 1)) = 256 * 2 ^ (8 * k) := by ring
    rw [hpow, Nat.mod_mul]

theorem leVal_leN_of_lt {k n : Nat} (h : n < 2 ^ (8 * k)) : leVal (leN k n) = n := by
  rw [leVal_leN, Nat.mod_eq_of_lt h]

/-- The value that a `w`-byte pattern `p` denotes as a signed (two's complement)
integer; this is how Go compares e.g. `nvp.Size < 0` after `binary.Read` into an
`int32`. -/
def asSigned (w : Nat) (p : Nat) : Int :=
  if p < 2 ^ (8 * w - 1) then (p : Int) else (p : Int) - 2 ^ (8 * w)

/-! ## The nvlist value universe

`NvVal` is the universe of dynamic values the codec moves around
(`interface{}` values produced by reflection in Go).  Integer values are kept
as bit patterns tagged with their Go width in bytes and signedness; `vDouble`
keeps the 8-byte IEEE-754 bit pattern of a Go `float64` (the codec only copies
those bits).  Go's `byte` *is* `uint8`, so both `typeByte` and `typeUint8`
payloads materialize as `vInt 1 false`.  A record / nested nvlist is an ordered
association list of (wire name, value); Go struct fields are encoded in
declaration order.  `vOther` stands for a value of any Go kind outside the
encoder's switch (e.g. a plain `int`), which the writer rejects with
`ErrInvalidValue` in its `default` case (line 740). -/

mutual

inductive NvVal where
  | vBool (b : Bool)
  | vInt (w : Nat) (sgn : Bool) (p : Nat)
  | vDouble (bits : Nat)
  | vStr (s : List Byte)
  | vIntArr (w : Nat) (sgn : Bool) (ps : List Nat)
  | vBoolArr (bs : List Bool)
  | vStrArr (ss : List (List Byte))
  | vList (fs : Entries)
  | vListArr (ls : EntriesList)
  | vOther

/-- An ordered record: wire names with their values (a Go struct's fields in
declaration order).  A dedicated mutual inductive rather than a nested
`List (name × NvVal)` so that all recursions stay structural and computable. -/
inductive Entries where
  | nil
  | cons (name : List Byte) (v : NvVal) (rest : Entries)

/-- The elements of an nvlist array. -/
inductive EntriesList where
  | nil
  | cons (fs : Entries) (rest : EntriesList)

end

deriving instance DecidableEq for NvVal

deriving instance DecidableEq for Entries

/-- Append two records. -/
def Entries.app : Entries → Entries → Entries
  | .nil, e => e
  | .cons n v rest, e => .cons n v (rest.app e)

/-- Number of fields. -/
def Entries.length : Entries → Nat
  | .nil => 0
  | .cons _ _ rest => rest.length + 1

/-- Number of array elements. -/
def EntriesList.length : EntriesList → Nat
  | .nil => 0
  | .cons _ rest => rest.length + 1

/-! ## nvtype tags (`nvlist/consts.go`) -/

def typeBoolean : Nat := 1
def typeByte : Nat := 2
def typeString : Nat := 9
def typeByteArray : Nat := 10
def typeStringArray : Nat := 17
def typeHrtime : Nat := 18
def typeNvlist : Nat := 19
def typeNvlistArray : Nat := 20
def typeBooleanValue : Nat := 21
def typeBooleanArray : Nat := 24
def typeDouble : Nat := 27

/-- `nvtypeFromKind` restricted to the integer kinds: Go reflect kind
(width in bytes, signedness) to scalar tag.  `uint8` maps to `typeByte`
(the "special case" in `consts.go`). -/
def intTag : Nat → Bool → Nat
  | 1, true => 22
  | 1, false => typeByte
  | 2, true => 3
  | 2, false => 4
  | 4, true => 5
  | 4, false => 6
  | 8, true => 7
  | 8, false => 8
  | _, _ => 0

/-- `nvtypeFromArrayKind` restricted to the integer kinds;
`[]uint8` maps to `typeByteArray`. -/
def intArrTag : Nat → Bool → Nat
  | 1, true => 25
  | 1, false => typeByteArray
  | 2, true => 11
  | 2, false => 12
  | 4, true => 13
  | 4, false => 14
  | 8, true => 15
  | 8, false => 16
  | _, _ => 0

/-! ## Encoder (`Marshal` / `nvlistWriter`, part_006 second chunk) -/

/-- Encoder outcomes: `invalidValue` is `ErrInvalidValue`; `panicked` marks the
writer's `panic` calls (`endNvPair` on an unknown type). -/
inductive EncErr where
  | invalidValue
  | panicked
deriving DecidableEq, Repr

/-- `nvlistWriter.writeString`: appends the string bytes one at a time and then
a null terminator; a null byte in the string aborts with `ErrInvalidValue`
*after* the preceding bytes have already been appended and *without* the
terminator. -/
def writeString (buf : List Byte) : List Byte → List Byte × Option EncErr
  | [] => (buf ++ [0], none)
  | c :: cs => if c = 0 then (buf, some .invalidValue) else writeString (buf ++ [c]) cs

/-- Padding needed to align `n` to a multiple of 8
(`nvlistWriter.skipToAlign`). -/
def padLen (n : Nat) : Nat := if n % 8 = 0 then 0 else 8 - n % 8

/-- `nvlistWriter.skipToAlign`: pad with zero bytes until the offset from the
current pair's start (`nvpairStartByte`) is 8-byte aligned. -/
def skipToAlign (buf : List Byte) (start : Nat) : List Byte :=
  buf ++ zeros (padLen (buf.length - start))

/-- `nvlistWriter.Write` in `modeWriteFromStartByte`: overwrite the bytes at
offset `start` (used by `endNvPair` to backfill the reserved pair header). -/
def backfill (buf : List Byte) (start : Nat) (hdr : List Byte) : List Byte :=
  buf.take start ++ hdr ++ buf.drop (start + hdr.length)

/-- The 16-byte nvpair header in its on-wire little-endian layout:
size (int32), name size (int16), reserve (int16), element count (int32),
type tag (uint32).  This is the layout `endNvPair` backfills. -/
def pairHeader (size nameSz elem tag : Nat) : List Byte :=
  leN 4 size ++ leN 2 nameSz ++ leN 2 0 ++ leN 4 elem ++ leN 4 tag

/-- `nvlistWriter.startNvPair`: remember the pair start and reserve
`nvlistHeaderSize = 16` zero bytes for the header. -/
def startNvPair (buf : List Byte) : Nat × List Byte :=
  (buf.length, buf ++ zeros 16)

/-- `nvlistWriter.endNvPair`: 8-align the pair, compute its total size, and
backfill the header at the pair start.  The Go code panics when the type tag is
still `typeUnknown`; the model returns `panicked` (unreachable for the values
the writer actually produces). -/
def endNvPair (buf : List Byte) (start : Nat) (nameSz elem tag : Nat) :
    List Byte × Option EncErr :=
  if tag = 0 then (buf, some .panicked)
  else
    let buf := skipToAlign buf start
    (backfill buf start (pairHeader (buf.length - start) nameSz elem tag), none)

/-- `nvlistWriter.writeNvlistHeader`: the embedded 24-byte `nvlist_t` block
(version int32 = 0, nvflag uint32 = `uniqueNameFlag` = 1, priv uint64 = 0,
flag uint32 = 0, pad int32 = 0). -/
def writeNvlistHeader (buf : List Byte) : List Byte :=
  buf ++ leN 4 0 ++ leN 4 1 ++ leN 8 0 ++ leN 4 0 ++ leN 4 0

/-- Sequencing on the writer's (buffer, error) state: stop on error. -/
def andThen (r : List Byte × Option EncErr)
    (k : List Byte → List Byte × Option EncErr) : List Byte × Option EncErr :=
  match r with
  | (buf, some e) => (buf, some e)
  | (buf, none) => k buf

mutual

/-- `nvlistWriter.writeNvPairs` (part_006, lines 592-745) on an ordered record.
Mirrors the source exactly, including:

* the name-length check `nameLen >= math.MaxInt16` *before* the
  boolean-false skip (lines 646-648 / 659-661);
* the *ignored* return value of `writeString` for names (line 665) and for
  string values (line 688) and string-array elements (line 721);
* `Value_elem = 1` for scalars, `0` for presence booleans, the length for
  arrays;
* the nested-nvlist error being swallowed: `return nil` on line 684;
* the nvlist-array error being propagated (`return err`, line 733);
* the trailing 4 zero bytes (line 743). -/
def writeNvPairs (buf : List Byte) : Entries → List Byte × Option EncErr
  | .nil => (buf ++ zeros 4, none)
  | .cons name v rest =>
    -- nameLen := len(names[i]) + 1; if nameLen >= math.MaxInt16 → ErrInvalidValue
    if 32767 ≤ name.length + 1 then (buf, some .invalidValue)
    else
      match v with
      | .vBool false => writeNvPairs buf rest  -- presence convention: skip
      | .vBool true =>
        let (st, buf) := startNvPair buf
        let buf := (writeString buf name).1    -- error ignored (line 665)
        let buf := skipToAlign buf st
        andThen (endNvPair buf st (name.length + 1) 0 typeBoolean) fun buf =>
          writeNvPairs buf rest
      | .vOther =>
        -- default case (line 740): the pair was started and the name written,
        -- then the unsupported kind aborts with ErrInvalidValue
        let (st, buf) := startNvPair buf
        let buf := (writeString buf name).1
        let buf := skipToAlign buf st
        (buf, some .invalidValue)
      | .vInt w sgn p =>
        let (st, buf) := startNvPair buf
        let buf := (writeString buf name).1
        let buf := skipToAlign buf st
        let buf := buf ++ leN w p              -- binary.Write, little endian
        andThen (endNvPair buf st (name.length + 1) 1 (intTag w sgn)) fun buf =>
          writeNvPairs buf rest
      | .vDouble bits =>
        let (st, buf) := startNvPair buf
        let buf := (writeString buf name).1
        let buf := skipToAlign buf st
        let buf := buf ++ leN 8 bits
        andThen (endNvPair buf st (name.length + 1) 1 typeDouble) fun buf =>
          writeNvPairs buf rest
      | .vStr s =>
        let (st, buf) := startNvPair buf
        let buf := (writeString buf name).1
        let buf := skipToAlign buf st
        let buf := (writeString buf s).1       -- error ignored (line 688)
        andThen (endNvPair buf st (name.length + 1) 1 typeString) fun buf =>
          writeNvPairs buf rest
      | .vList fs =>
        let (st, buf) := startNvPair buf
        let buf := (writeString buf name).1
        let buf := skipToAlign buf st
        let buf := writeNvlistHeader buf
        andThen (endNvPair buf st (name.length + 1) 1 typeNvlist) fun buf =>
          match writeNvPairs buf fs with
          | (buf, some _) => (buf, none)       -- BUG (line 684): `return nil`
          | (buf, none) => writeNvPairs buf rest
      | .vIntArr w sgn ps =>
        if 2147483647 ≤ ps.length then (buf, some .invalidValue)
        else
          let (st, buf) := startNvPair buf
          let buf := (writeString buf name).1
          let buf := skipToAlign buf st
          let buf := buf ++ (ps.map (leN w)).flatten
          andThen (endNvPair buf st (name.length + 1) ps.length (intArrTag w sgn))
            fun buf => writeNvPairs buf rest
      | .vBoolArr bs =>
        if 2147483647 ≤ bs.length then (buf, some .invalidValue)
        else
          let (st, buf) := startNvPair buf
          let buf := (writeString buf name).1
          let buf := skipToAlign buf st
          let buf := buf ++ (bs.map (fun b => leN 4 (if b then 1 else 0))).flatten
          andThen (endNvPair buf st (name.length + 1) bs.length typeBooleanArray)
            fun buf => writeNvPairs buf rest
      | .vStrArr ss =>
        if 2147483647 ≤ ss.length then (buf, some .invalidValue)
        else
          let (st, buf) := startNvPair buf
          let buf := (writeString buf name).1
          let buf := skipToAlign buf st
          let buf := buf ++ zeros (8 * ss.length)  -- zeroed pointer block
          let buf := ss.foldl (fun b s => (writeString b s).1) buf  -- errors ignored
          andThen (endNvPair buf st (name.length + 1) ss.length typeStringArray)
            fun buf => writeNvPairs buf rest
      | .vListArr ls =>
        if 2147483647 ≤ ls.length then (buf, some .invalidValue)
        else
          let (st, buf) := startNvPair buf
          let buf := (writeString buf name).1
          let buf := skipToAlign buf st
          let buf := buf ++ zeros (8 * ls.length)  -- zeroed pointer block
          let buf := Nat.rec (motive := fun _ => List Byte) buf
            (fun _ b => writeNvlistHeader b) ls.length  -- n embedded list headers
          andThen (endNvPair buf st (name.length + 1) ls.length typeNvlistArray)
            fun buf =>
              andThen (writeListElems buf ls) fun buf => writeNvPairs buf rest

/-- The nvlist-array element loop (lines 731-735): recursively write each inner
record's pairs after the array pair itself, propagating errors. -/
def writeListElems (buf : List Byte) : EntriesList → List Byte × Option EncErr
  | .nil => (buf, none)
  | .cons fs more =>
    andThen (writeNvPairs buf fs) fun buf => writeListElems buf more

end

/-- `writeNvHeader` (writer): stream header `[native, little-endian, 0, 0]`,
then version int32 = 0 and flags uint32 = `uniqueNameFlag` (Marshal sets the
unique-name flag). -/
def writeNvHeader : List Byte := 0 :: 1 :: zeros 2 ++ leN 4 0 ++ leN 4 1

/-- `Marshal` (part_006, lines 439-450): stream header then the root record's
pairs.  Returns the full buffer and the error, mirroring Go's
`([]byte, error)` (on error Go returns a nil slice; the buffer component is
dead in that case). -/
def Marshal (entries : Entries) : List Byte × Option EncErr :=
  writeNvPairs writeNvHeader entries

/-! ## Reader core (shared by `nvlist/nvlist.go` and part_008)

The two decoder versions share their primitive readers verbatim:
`nvlistReader.ReadByte/Read/skipN/readInt/readNvHeader` and
`nvPairReader.ReadByte/ReadBytes/readN/Read/readInt/skipToAlign`. -/

/-- Decoder outcomes.  The first five are the package's error values;
`eofData` stands for the `io.EOF` / `io.ErrUnexpectedEOF` failures that
`binary.Read` produces on a short read; `panicked` marks a Go runtime panic
(out-of-bounds index or a `reflect.Set` type mismatch); `outOfFuel` marks
exhaustion of the termination fuel. -/
inductive DecErr where
  | invalidEncoding
  | invalidEndianess
  | invalidData
  | invalidValue
  | unsupportedType
  | eofData
  | panicked
  | outOfFuel
deriving DecidableEq, Repr

/-- `nvlistReader`: the underlying buffer, the read position, and the stream
header fields that matter (endianness and encoding; version and flags are
read and discarded). -/
structure RState where
  data : List Byte
  pos : Nat
  bigE : Bool := false
  xdr : Bool := false

/-- `nvPairReader`: a bounded view of one pair inside the outer reader. -/
structure PairR where
  startByte : Nat
  sizeBytes : Nat
  cur : Nat

/-- Integer value of a byte string in the stream's declared endianness. -/
def intVal (bigE : Bool) (bs : List Byte) : Nat :=
  if bigE then beVal bs else leVal bs

/-- `nvlistReader.ReadByte`: in-bounds single byte or `ErrInvalidData`. -/
def RState.readByteO (st : RState) : Except DecErr (Byte × RState) :=
  if h : st.pos < st.data.length then
    .ok (st.data.get ⟨st.pos, h⟩, { st with pos := st.pos + 1 })
  else .error .invalidData

/-- `binary.Read` through `nvlistReader.Read`: the full `k` bytes when
`pos + k ≤ len` (Go's strict `<` full-read branch plus the exact-fit partial
read, which `io.ReadFull` still accepts), otherwise a short read that makes
`binary.Read` fail.  The copy loop indexes only below `len`, so the outer
reader can never access out of bounds. -/
def RState.readIntO (st : RState) (k : Nat) : Except DecErr (Nat × RState) :=
  if st.pos + k ≤ st.data.length then
    .ok (intVal st.bigE ((st.data.drop st.pos).take k), { st with pos := st.pos + k })
  else .error .eofData

/-- `nvlistReader.readNvHeader`: stream encoding byte (native/xdr), endianness
byte (big/little), 2 reserved bytes, version (int32), flags (uint32). -/
def readNvHeader (data : List Byte) : Except DecErr RState := do
  let st : RState := { data := data, pos := 0 }
  let (enc, st) ← st.readByteO
  let st ←
    match enc.val with
    | 0 => pure { st with xdr := false }
    | 1 => pure { st with xdr := true }
    | _ => throw .invalidEncoding
  let (endi, st) ← st.readByteO
  let st ←
    match endi.val with
    | 0 => pure { st with bigE := true }
    | 1 => pure { st with bigE := false }
    | _ => throw .invalidEndianess
  let st := { st with pos := st.pos + 2 }  -- skipN(2), reserved
  let (_, st) ← st.readIntO 4              -- version
  let (_, st) ← st.readIntO 4              -- flags
  .ok st

/-- `nvPairReader.ReadByte`.  Note the **inclusive** bound
`currentByte <= startByte+sizeBytes`: the pair reader may read one byte sitting
exactly at the end of its declared pair; the `readPairs` size check
(`size + currentByte > len` with `currentByte = startByte+4`) guarantees
`startByte + sizeBytes ≤ len - 4`, keeping even that access in bounds. -/
def PairR.readByteP (st : RState) (r : PairR) : Except DecErr (Byte × PairR) :=
  if r.cur ≤ r.startByte + r.sizeBytes then
    if h : r.cur < st.data.length then
      .ok (st.data.get ⟨r.cur, h⟩, { r with cur := r.cur + 1 })
    else .error .panicked
  else .error .invalidData

/-- `binary.Read` through `nvPairReader.Read`: full `k` bytes within the pair
bound, else a short (possibly negative-length) read that makes `binary.Read`
fail with an EOF-style error; the copy loop would only panic if the pair bound
itself exceeded the buffer. -/
def PairR.readFullP (st : RState) (r : PairR) (k : Nat) :
    Except DecErr (List Byte × PairR) :=
  let bound := r.startByte + r.sizeBytes
  if r.cur + k ≤ bound then
    if r.cur + k ≤ st.data.length then
      .ok ((st.data.drop r.cur).take k, { r with cur := r.cur + k })
    else .error .panicked
  else if r.cur < bound ∧ st.data.length < bound then .error .panicked
  else .error .eofData

/-- `nvPairReader.readInt` of a `k`-byte integer. -/
def PairR.readIntP (st : RState) (r : PairR) (k : Nat) :
    Except DecErr (Nat × PairR) := do
  let (bs, r) ← r.readFullP st k
  .ok (intVal st.bigE bs, r)

/-- `nvPairReader.readN`: a checked slice of `n` bytes, `ErrInvalidData` when
it would cross the pair bound. -/
def PairR.readN (st : RState) (r : PairR) (n : Nat) :
    Except DecErr (List Byte × PairR) :=
  if r.cur + n ≤ r.startByte + r.sizeBytes then
    if r.cur + n ≤ st.data.length then
      .ok ((st.data.drop r.cur).take n, { r with cur := r.cur + n })
    else .error .panicked
  else .error .invalidData

/-- The scan loop of `nvPairReader.ReadBytes`: find the index of the delimiter,
scanning while `currentByte <= startByte+sizeBytes` (inclusive, as in the
source); running off the bound is `ErrInvalidData`. -/
def scanDelim (data : List Byte) (bound : Nat) (delim : Byte) (cur : Nat) :
    Except DecErr Nat :=
  if cur ≤ bound then
    if h : cur < data.length then
      if data.get ⟨cur, h⟩ = delim then .ok cur
      else scanDelim data bound delim (cur + 1)
    else .error .panicked
  else .error .invalidData
termination_by bound + 1 - cur

/-- `nvPairReader.ReadBytes(delim)`: the bytes up to and including the
delimiter; the delimiter is consumed. -/
def PairR.readBytesDelim (st : RState) (r : PairR) (delim : Byte) :
    Except DecErr (List Byte × PairR) := do
  let i ← scanDelim st.data (r.startByte + r.sizeBytes) delim r.cur
  .ok ((st.data.drop r.cur).take (i + 1 - r.cur), { r with cur := i + 1 })

/-- `nvPairReader.skipToAlign`: align the offset inside the pair to 8 bytes
(native) or 4 bytes (XDR). -/
def PairR.skipToAlignP (st : RState) (r : PairR) : PairR :=
  let a := if st.xdr then 4 else 8
  if (r.cur - r.startByte) % a = 0 then r
  else { r with cur := r.cur + (a - (r.cur - r.startByte) % a) }

/-! ## part_008 decoder: `Unmarshal` into a statically typed record

part_008's `readPairs` takes the target by `reflect.Value`; for a struct
target it dispatches each pair into the field with the matching `nvlist` tag
name via `structFieldByName`/`setPrimitive`.  The model represents the target
struct as an ordered record (`Entries`), each field carrying its kind through
its current `NvVal`. -/

/-- `structFieldByName` lookup (wire names of the record are assumed distinct,
as in a well-formed Go struct). -/
def lookupField : Entries → List Byte → Option NvVal
  | .nil, _ => none
  | .cons n v rest, name => if n = name then some v else lookupField rest name

/-- Overwrite the value of field `name`. -/
def setField : Entries → List Byte → NvVal → Entries
  | .nil, _, _ => .nil
  | .cons n w rest, name, v =>
    if n = name then .cons n v rest else .cons n w (setField rest name v)

/-- Whether two values have the same Go dynamic type (kind, width and
signedness); `reflect.Value.Set` panics when they differ. -/
def NvVal.kindMatches : NvVal → NvVal → Bool
  | .vBool _, .vBool _ => true
  | .vInt w s _, .vInt w' s' _ => w = w' && s = s'
  | .vDouble _, .vDouble _ => true
  | .vStr _, .vStr _ => true
  | .vIntArr w s _, .vIntArr w' s' _ => w = w' && s = s'
  | .vBoolArr _, .vBoolArr _ => true
  | .vStrArr _, .vStrArr _ => true
  | .vList _, .vList _ => true
  | .vListArr _, .vListArr _ => true
  | _, _ => false

/-- part_008 `setPrimitive` for a struct target: an unknown name yields a
non-settable zero `reflect.Value` and is silently skipped; a known field is
`Set`, which panics if the dynamic type does not match the field type. -/
def setPrim (rec : Entries) (name : List Byte) (v : NvVal) : Except DecErr Entries :=
  match lookupField rec name with
  | none => .ok rec
  | some old => if old.kindMatches v then .ok (setField rec name v) else .error .panicked

/-- The `typeBooleanArray` element loop: `n` int32 values, each 0 or 1. -/
def readBoolsP (st : RState) : Nat → PairR → Except DecErr (List Bool × PairR)
  | 0, r => .ok ([], r)
  | n + 1, r => do
    let (p, r) ← r.readIntP st 4
    let b ←
      match p with
      | 0 => pure false
      | 1 => pure true
      | _ => throw .invalidData
    let (bs, r) ← readBoolsP st n r
    .ok (b :: bs, r)

/-- The `typeStringArray` element loop: `n` null-terminated strings, the
terminator stripped. -/
def readStrsP (st : RState) : Nat → PairR → Except DecErr (List (List Byte) × PairR)
  | 0, r => .ok ([], r)
  | n + 1, r => do
    let (bs, r) ← r.readBytesDelim st 0
    let (ss, r) ← readStrsP st n r
    .ok (bs.dropLast :: ss, r)

/-- Split the flat byte block of `binary.Read` into a slice of `n` integer
patterns of `w` bytes each. -/
def chunkVals (bigE : Bool) (w : Nat) : Nat → List Byte → List Nat
  | 0, _ => []
  | n + 1, bs => intVal bigE (bs.take w) :: chunkVals bigE w n (bs.drop w)

/-- Width and signedness of the scalar integer tags
(int16 3, uint16 4, int32 5, uint32 6, int64 7, uint64 8,
int8 22, uint8 23). -/
def intTagWidth : Nat → Option (Nat × Bool)
  | 3 => some (2, true)
  | 4 => some (2, false)
  | 5 => some (4, true)
  | 6 => some (4, false)
  | 7 => some (8, true)
  | 8 => some (8, false)
  | 22 => some (1, true)
  | 23 => some (1, false)
  | _ => none

/-- Width and signedness of the integer array tags
(int16 11, uint16 12, int32 13, uint32 14, int64 15, uint64 16,
int8 25, uint8 26). -/
def intArrTagWidth : Nat → Option (Nat × Bool)
  | 11 => some (2, true)
  | 12 => some (2, false)
  | 13 => some (4, true)
  | 14 => some (4, false)
  | 15 => some (8, true)
  | 16 => some (8, false)
  | 25 => some (1, true)
  | 26 => some (1, false)
  | _ => none

/-- The tag dispatch of part_008 `readPairs` (the `switch nvtype(...)`,
lines 300-470), parameterized over the nested-nvlist continuation `rp` so that
the dispatch itself is non-recursive.  Faithful details:

* `typeNvlist` into a known struct-kind field recurses on the **outer**
  reader; into a non-record field it is `ErrInvalidData` (the nested
  `readPairs` rejects such targets); for an unknown name the recursion is
  skipped entirely (`CanSet` is false) and the stream is left where it was;
* `typeNvlistArray` into a struct target panics (source line 458);
* tags with no `case` — notably `typeHrtime` (18) and `typeDouble` (27) —
  fall through the `switch` silently and the pair is skipped. -/
def decodeS (rp : RState → Entries → Except DecErr (RState × Entries))
    (tagP : Nat) (r : PairR) (st : RState) (veP : Nat)
    (rec : Entries) (name : List Byte) : Except DecErr (Entries × RState) :=
  match tagP with
  | 0 => throw .invalidData                  -- typeUnknown
  | 1 => do                                  -- typeBoolean
    let rec ← setPrim rec name (.vBool true)
    pure (rec, st)
  | 2 => do                                  -- typeByte
    let (b, _) ← r.readByteP st
    let rec ← setPrim rec name (.vInt 1 false b.val)
    pure (rec, st)
  | 9 => do                                  -- typeString
    let (bs, _) ← r.readBytesDelim st 0
    let rec ← setPrim rec name (.vStr bs.dropLast)
    pure (rec, st)
  | 21 => do                                 -- typeBooleanValue
    let (p, _) ← r.readIntP st 4
    let b ←
      match p with
      | 0 => pure false
      | 1 => pure true
      | _ => throw .invalidData
    let rec ← setPrim rec name (.vBool b)
    pure (rec, st)
  | 10 => do                                 -- typeByteArray
    let (bs, _) ← r.readN st veP
    let rec ← setPrim rec name (.vIntArr 1 false (bs.map Fin.val))
    pure (rec, st)
  | 17 => do                                 -- typeStringArray
    let r := { r with cur := r.cur + 8 * veP }  -- skip pointers
    let (ss, _) ← readStrsP st veP r
    let rec ← setPrim rec name (.vStrArr ss)
    pure (rec, st)
  | 24 => do                                 -- typeBooleanArray
    let (bs, _) ← readBoolsP st veP r
    let rec ← setPrim rec name (.vBoolArr bs)
    pure (rec, st)
  | 19 =>                                    -- typeNvlist
    match lookupField rec name with
    | none => pure (rec, st)                 -- CanSet false: skipped
    | some (NvVal.vList fs) => do
      let (st, fs) ← rp st fs
      pure (setField rec name (.vList fs), st)
    | some _ => throw .invalidData           -- nested target not struct/map
  | 20 => throw .panicked                    -- NVList arrays into structs
  | t =>
    match intTagWidth t with
    | some (w, sgn) => do                    -- scalar integer tags
      let (p, _) ← r.readIntP st w
      let rec ← setPrim rec name (.vInt w sgn p)
      pure (rec, st)
    | none =>
      match intArrTagWidth t with
      | some (w, sgn) => do                  -- integer array tags
        let (bs, _) ← r.readFullP st (veP * w)
        let rec ← setPrim rec name (.vIntArr w sgn (chunkVals st.bigE w veP bs))
        pure (rec, st)
      | none => pure (rec, st)               -- no case: pair skipped

/-- part_008 `readPairs` (lines 227-477) for a struct target.  One fuel unit
is spent per decoded pair; `unmarshalS` passes enough fuel for any input.
Faithful details:

* the `Size`/`Name_sz`/`Value_elem` checks and their order;
* the outer reader is advanced to the end of the pair (`skipN(Size-4)`)
  *before* the pair body is parsed from the bounded pair reader (the pair
  reads depend on `st` only through `data`/`bigE`/`xdr`, which never change,
  so the skipped state is threaded separately as `stNext`). -/
def readPairsS (fuel : Nat) (st : RState) (rec : Entries) :
    Except DecErr (RState × Entries) :=
  match fuel with
  | 0 => .error .outOfFuel
  | fuel + 1 => do
    let start := st.pos
    let (szP, st) ← st.readIntO 4
    if 2147483648 ≤ szP then throw .invalidData        -- nvp.Size < 0
    else if szP = 0 then pure (st, rec)                -- end indicated by zero size
    else if st.data.length < szP + st.pos then throw .invalidData
    else do
      let r : PairR := { startByte := start, sizeBytes := szP, cur := start + 4 }
      let stNext := { st with pos := start + szP + if st.xdr then 4 else 0 }
      let (nszP, r) ← r.readIntP st 2
      if nszP = 0 ∨ 32768 ≤ nszP then throw .invalidData  -- Name_sz <= 0
      else do
        let (_, r) ← r.readIntP st 2                   -- Reserve
        let (veP, r) ← r.readIntP st 4
        if 2147483648 ≤ veP then throw .invalidData    -- Value_elem < 0
        else if 65535 < veP then throw .invalidData    -- Value_elem > 65535
        else do
          let (tagP, r) ← r.readIntP st 4
          let (nameRaw, r) ← r.readN st nszP
          let name := nameRaw.dropLast
          let r := r.skipToAlignP st
          let step ← decodeS (fun st fs => readPairsS fuel st fs)
            tagP r stNext veP rec name
          let (rec, stNext) := step
          readPairsS fuel stNext rec

/-- part_008 `Unmarshal` into a statically typed record target. -/
def unmarshalS (data : List Byte) (rec : Entries) : Except DecErr Entries := do
  let st ← readNvHeader data
  let (_, rec) ← readPairsS (data.length + 1) st rec
  .ok rec

/-! ## Derived closed forms of the encoder output (for the round-trip claims)

`encPair`/`encStream` give the byte string `writeNvPairs` produces for a
well-formed record, as proved by `writeNvPairs_shape` below; they are proof
artefacts, not a second encoder. -/

/-- The value payload of a pair, as laid down by the writer. -/
def encPayload : NvVal → List Byte
  | .vBool _ => []
  | .vInt w _ p => leN w p
  | .vDouble bits => leN 8 bits
  | .vStr s => s ++ [0]
  | .vIntArr w _ ps => (ps.map (leN w)).flatten
  | .vBoolArr bs => (bs.map (fun b => leN 4 (if b then 1 else 0))).flatten
  | .vStrArr ss => zeros (8 * ss.length) ++ (ss.map (fun s => s ++ [0])).flatten
  | .vList _ => leN 4 0 ++ leN 4 1 ++ leN 8 0 ++ leN 4 0 ++ leN 4 0
  | .vListArr _ => []
  | .vOther => []

/-- The type tag the writer assigns to a value. -/
def tagOf : NvVal → Nat
  | .vBool _ => typeBoolean
  | .vInt w s _ => intTag w s
  | .vDouble _ => typeDouble
  | .vStr _ => typeString
  | .vIntArr w s _ => intArrTag w s
  | .vBoolArr _ => typeBooleanArray
  | .vStrArr _ => typeStringArray
  | .vList _ => typeNvlist
  | .vListArr _ => typeNvlistArray
  | .vOther => 0

/-- The element count the writer records. -/
def elemOf : NvVal → Nat
  | .vBool _ => 0
  | .vInt _ _ _ => 1
  | .vDouble _ => 1
  | .vStr _ => 1
  | .vIntArr _ _ ps => ps.length
  | .vBoolArr bs => bs.length
  | .vStrArr ss => ss.length
  | .vList _ => 1
  | .vListArr ls => ls.length
  | .vOther => 0

/-- Total 8-aligned size of one encoded pair with payload `pay`. -/
def pairSizeG (name pay : List Byte) : Nat :=
  17 + name.length + padLen (17 + name.length) + pay.length +
    padLen (17 + name.length + padLen (17 + name.length) + pay.length)

/-- One encoded pair: header, name with terminator, alignment, payload,
alignment. -/
def encPairG (name pay : List Byte) (elem tag : Nat) : List Byte :=
  pairHeader (pairSizeG name pay) (name.length + 1) elem tag ++
    (name ++ [0] ++ zeros (padLen (17 + name.length)) ++ pay ++
      zeros (padLen (17 + name.length + padLen (17 + name.length) + pay.length)))

/-- The encoded pair of a record field. -/
def encPair (name : List Byte) (v : NvVal) : List Byte :=
  encPairG name (encPayload v) (elemOf v) (tagOf v)

/-- The full encoded pair sequence: skipped false booleans, nested pair
sequences directly after their nvlist pair, and the 4-byte zero trailer. -/
def encStream : Entries → List Byte
  | .nil => zeros 4
  | .cons name v rest =>
    match v with
    | .vBool false => encStream rest
    | .vList fs => encPair name (.vList fs) ++ (encStream fs ++ encStream rest)
    | _ => encPair name v ++ encStream rest

mutual

/-- Values the encoder and the part_008 decoder round-trip: every kind both
sides support (`double` is dropped silently by the decoder, nvlist arrays
panic into a struct target), machine-width integers in range, null-free
strings, and element counts within the decoder's 65535 bound (with a total
size that keeps the pair size within int32). -/
def valWF : NvVal → Bool
  | .vBool _ => true
  | .vInt w _ p =>
    (decide (w = 1) || decide (w = 2) || decide (w = 4) || decide (w = 8)) &&
      decide (p < 2 ^ (8 * w))
  | .vStr s => s.all (fun c => decide (c ≠ 0)) && decide (s.length ≤ 65535)
  | .vIntArr w _ ps =>
    (decide (w = 1) || decide (w = 2) || decide (w = 4) || decide (w = 8)) &&
      decide (ps.length ≤ 65535) && ps.all (fun p => decide (p < 2 ^ (8 * w)))
  | .vBoolArr bs => decide (bs.length ≤ 65535)
  | .vStrArr ss =>
    decide (ss.length ≤ 65535) &&
      decide (((ss.map (fun s => s ++ [0])).flatten).length ≤ 16777216) &&
      ss.all (fun s => s.all (fun c => decide (c ≠ 0)) && decide (s.length ≤ 65535))
  | .vList fs => entriesWF fs
  | .vDouble _ => false
  | .vListArr _ => false
  | .vOther => false

/-- Well-formed records: bounded null-free names, distinct on-wire names,
and well-formed values. -/
def entriesWF : Entries → Bool
  | .nil => true
  | .cons name v rest =>
    decide (name.length + 1 < 32767) && name.all (fun c => decide (c ≠ 0)) &&
      (lookupField rest name).isNone && valWF v && entriesWF rest

end

mutual

/-- Whether a target field can receive a decoded value without a
`reflect.Set` panic, recursively for nested records. -/
def valCompat : NvVal → NvVal → Bool
  | .vList fs₀, .vList fs => entriesCompat fs₀ fs
  | old, v => old.kindMatches v

/-- Whether the target record `rec` can receive every field of `es`. -/
def entriesCompat (rec : Entries) : Entries → Bool
  | .nil => true
  | .cons name v rest =>
    (match lookupField rec name with
     | none => false
     | some old => valCompat old v) && entriesCompat rec rest

end

/-- The record the decoder produces from target `rec` and pair sequence `es`:
each non-skipped pair overwrites its field, nested records recursively. -/
def applyEntries : Entries → Entries → Entries
  | rec, .nil => rec
  | rec, .cons name v rest =>
    match v with
    | .vBool false => applyEntries rec rest
    | .vList fs =>
      (match lookupField rec name with
       | some (.vList fs₀) =>
         applyEntries (setField rec name (.vList (applyEntries fs₀ fs))) rest
       | _ => applyEntries (setField rec name (.vList fs)) rest)
    | _ => applyEntries (setField rec name v) rest

/-! ## Encoder closed form -/

theorem writeString_ok : ∀ (s buf : List Byte), (∀ c ∈ s, c ≠ 0) →
    writeString buf s = (buf ++ (s ++ [0]), none)
  | [], buf, _ => by simp [writeString]
  | c :: cs, buf, h => by
    rw [writeString, if_neg (h c (by simp))]
    rw [writeString_ok cs (buf ++ [c]) (fun x hx => h x (by simp [hx]))]
    simp

theorem pairHeader_length (a b c d : Nat) : (pairHeader a b c d).length = 16 := by
  simp [pairHeader, leN_length]

theorem skipToAlign_shape (buf ext : List Byte) :
    skipToAlign (buf ++ ext) buf.length = buf ++ (ext ++ zeros (padLen ext.length)) := by
  unfold skipToAlign
  rw [show (buf ++ ext).length - buf.length = ext.length by simp]
  rw [List.append_assoc]

theorem backfill_shape (buf tail hdr : List Byte) (hlen : hdr.length = 16) :
    backfill (buf ++ (zeros 16 ++ tail)) buf.length hdr = buf ++ (hdr ++ tail) := by
  unfold backfill
  rw [hlen, List.take_left]
  have hdrop : (buf ++ (zeros 16 ++ tail)).drop (buf.length + 16) = tail := by
    rw [List.drop_append_eq_append_drop, List.drop_of_length_le (by omega),
      List.nil_append, show buf.length + 16 - buf.length = 16 by omega,
      List.drop_append_eq_append_drop, List.drop_of_length_le (by simp [zeros]),
      List.nil_append, show 16 - (zeros 16).length = 0 by (simp [zeros]),
      List.drop_zero]
  rw [hdrop, List.append_assoc]

theorem endNvPair_shape (buf body : List Byte) (nsz elem tag : Nat)
    (htag : ¬ tag = 0) :
    endNvPair (buf ++ (zeros 16 ++ body)) buf.length nsz elem tag =
      (buf ++ (pairHeader (16 + body.length + padLen (16 + body.length)) nsz elem tag
        ++ (body ++ zeros (padLen (16 + body.length)))), none) := by
  unfold endNvPair
  rw [if_neg htag]
  rw [skipToAlign_shape buf (zeros 16 ++ body)]
  rw [show (zeros 16 ++ body).length = 16 + body.length by (simp [zeros]; omega)]
  rw [show buf ++ ((zeros 16 ++ body) ++ zeros (padLen (16 + body.length))) =
    buf ++ (zeros 16 ++ (body ++ zeros (padLen (16 + body.length)))) by simp]
  dsimp only
  rw [backfill_shape _ _ _ (pairHeader_length _ _ _ _)]
  rw [show (buf ++ (zeros 16 ++ (body ++ zeros (padLen (16 + body.length))))).length
      - buf.length = 16 + body.length + padLen (16 + body.length) by
    (simp [zeros]; omega)]

theorem encPair_assembled (buf name pay : List Byte) (elem tag : Nat)
    (htag : ¬ tag = 0) (hname : ∀ c ∈ name, c ≠ 0) :
    endNvPair (skipToAlign ((writeString (buf ++ zeros 16) name).1) buf.length ++ pay)
      buf.length (name.length + 1) elem tag =
      (buf ++ encPairG name pay elem tag, none) := by
  rw [writeString_ok name (buf ++ zeros 16) hname]
  rw [show (buf ++ zeros 16) ++ (name ++ [0]) = buf ++ (zeros 16 ++ (name ++ [0]))
    by simp]
  rw [skipToAlign_shape buf (zeros 16 ++ (name ++ [0]))]
  have e1 : (zeros 16 ++ (name ++ [0])).length = 17 + name.length := by
    simp [zeros]; omega
  rw [e1]
  have e2 : buf ++ ((zeros 16 ++ (name ++ [0])) ++ zeros (padLen (17 + name.length)))
      ++ pay =
      buf ++ (zeros 16 ++ ((name ++ [0] ++ zeros (padLen (17 + name.length))) ++ pay)) := by
    simp
  rw [e2]
  rw [endNvPair_shape buf _ _ elem tag htag]
  have e3 : ((name ++ [0] ++ zeros (padLen (17 + name.length))) ++ pay).length =
      1 + name.length + padLen (17 + name.length) + pay.length := by
    simp [zeros]; omega
  rw [e3]
  unfold encPairG pairSizeG
  have e4 : 16 + (1 + name.length + padLen (17 + name.length) + pay.length) =
      17 + name.length + padLen (17 + name.length) + pay.length := by omega
  rw [e4]

theorem encPair_assembled_nopay (buf name : List Byte) (elem tag : Nat)
    (htag : ¬ tag = 0) (hname : ∀ c ∈ name, c ≠ 0) :
    endNvPair (skipToAlign ((writeString (buf ++ zeros 16) name).1) buf.length)
      buf.length (name.length + 1) elem tag =
      (buf ++ encPairG name [] elem tag, none) := by
  have h := encPair_assembled buf name [] elem tag htag hname
  simpa using h

/-- Structural induction over a record that also descends into nested
`vList` values. -/
theorem entriesInd (motive : Entries → Prop) (hnil : motive Entries.nil)
    (hcons : ∀ name v rest, (∀ fs, v = NvVal.vList fs → motive fs) →
      motive rest → motive (Entries.cons name v rest)) :
    ∀ es, motive es
  | Entries.nil => hnil
  | Entries.cons name v rest =>
    hcons name v rest
      (fun fs h => entriesInd motive hnil hcons fs)
      (entriesInd motive hnil hcons rest)
termination_by es => sizeOf es
decreasing_by
  all_goals try subst h
  all_goals simp
  all_goals try omega

theorem entriesWF_cons {name : List Byte} {v : NvVal} {rest : Entries}
    (h : entriesWF (.cons name v rest) = true) :
    name.length + 1 < 32767 ∧ (∀ c ∈ name, c ≠ 0) ∧
    lookupField rest name = none ∧ valWF v = true ∧ entriesWF rest = true := by
  simp only [entriesWF, Bool.and_eq_true, decide_eq_true_eq, List.all_eq_true,
    Option.isNone_iff_eq_none] at h
  exact ⟨h.1.1.1.1, fun c hc => by simpa using h.1.1.1.2 c hc,
    h.1.1.2, h.1.2, h.2⟩

theorem intTag_ne0 {w : Nat} (sgn : Bool)
    (hw : w = 1 ∨ w = 2 ∨ w = 4 ∨ w = 8) : ¬ intTag w sgn = 0 := by
  rcases hw with rfl | rfl | rfl | rfl <;> cases sgn <;> decide

theorem intArrTag_ne0 {w : Nat} (sgn : Bool)
    (hw : w = 1 ∨ w = 2 ∨ w = 4 ∨ w = 8) : ¬ intArrTag w sgn = 0 := by
  rcases hw with rfl | rfl | rfl | rfl <;> cases sgn <;> decide

theorem foldl_writeString : ∀ (ss : List (List Byte)),
    (∀ s ∈ ss, ∀ c ∈ s, c ≠ 0) → ∀ buf : List Byte,
    ss.foldl (fun b s => (writeString b s).1) buf =
      buf ++ (ss.map (fun s => s ++ [0])).flatten
  | [], _, buf => by simp
  | s :: ss, h, buf => by
    simp only [List.foldl_cons]
    rw [writeString_ok s buf (h s (by simp))]
    rw [foldl_writeString ss (fun t ht c hc => h t (by simp [ht]) c hc) _]
    simp

/-- The encoder's output on a well-formed record is exactly `encStream`,
with no error. -/
theorem writeNvPairs_shape : ∀ es : Entries, entriesWF es = true →
    ∀ buf : List Byte, writeNvPairs buf es = (buf ++ encStream es, none) := by
  intro es
  induction es using entriesInd with
  | hnil =>
    intro _ buf
    simp [writeNvPairs, encStream]
  | hcons name v rest ihf ihr =>
    intro hwf buf
    obtain ⟨hlen, hname, hfresh, hvwf, hrwf⟩ := entriesWF_cons hwf
    rw [writeNvPairs.eq_def]
    dsimp only
    rw [if_neg (by omega)]
    rcases v with b | ⟨w, sgn, p⟩ | bits | s | ⟨w, sgn, ps⟩ | bs | ss | fs | ls | _
    · rcases b with _ | _
      · dsimp only
        rw [ihr hrwf buf]
        simp [encStream]
      · dsimp only [startNvPair]
        rw [encPair_assembled_nopay buf name 0 typeBoolean (by decide) hname]
        simp only [andThen]
        rw [ihr hrwf _]
        simp [encStream, encPair, encPayload, elemOf, tagOf, List.append_assoc]
    · have hw : w = 1 ∨ w = 2 ∨ w = 4 ∨ w = 8 := by
        simp only [valWF, Bool.and_eq_true, Bool.or_eq_true, decide_eq_true_eq] at hvwf
        tauto
      dsimp only [startNvPair]
      rw [encPair_assembled buf name (leN w p) 1 (intTag w sgn) (intTag_ne0 sgn hw) hname]
      simp only [andThen]
      rw [ihr hrwf _]
      simp [encStream, encPair, encPayload, elemOf, tagOf, List.append_assoc]
    · simp [valWF] at hvwf
    · have hs : ∀ c ∈ s, c ≠ 0 := by
        simp only [valWF, Bool.and_eq_true, List.all_eq_true, decide_eq_true_eq] at hvwf
        exact fun c hc => by simpa using hvwf.1 c hc
      dsimp only [startNvPair]
      rw [writeString_ok s _ hs]
      rw [encPair_assembled buf name (s ++ [0]) 1 typeString (by decide) hname]
      simp only [andThen]
      rw [ihr hrwf _]
      simp [encStream, encPair, encPayload, elemOf, tagOf, List.append_assoc]
    · have hw : w = 1 ∨ w = 2 ∨ w = 4 ∨ w = 8 := by
        simp only [valWF, Bool.and_eq_true, Bool.or_eq_true, decide_eq_true_eq] at hvwf
        tauto
      have hps : ps.length ≤ 65535 := by
        simp only [valWF, Bool.and_eq_true, decide_eq_true_eq] at hvwf
        exact hvwf.1.2
      dsimp only [startNvPair]
      rw [if_neg (by omega)]
      rw [encPair_assembled buf name ((ps.map (leN w)).flatten) ps.length
        (intArrTag w sgn) (intArrTag_ne0 sgn hw) hname]
      simp only [andThen]
      rw [ihr hrwf _]
      simp [encStream, encPair, encPayload, elemOf, tagOf, List.append_assoc]
    · have hbs : bs.length ≤ 65535 := by
        simp only [valWF, decide_eq_true_eq] at hvwf
        exact hvwf
      dsimp only [startNvPair]
      rw [if_neg (by omega)]
      rw [encPair_assembled buf name
        ((bs.map (fun b => leN 4 (if b then 1 else 0))).flatten) bs.length
        typeBooleanArray (by decide) hname]
      simp only [andThen]
      rw [ihr hrwf _]
      simp [encStream, encPair, encPayload, elemOf, tagOf, List.append_assoc]
    · have hss : ss.length ≤ 65535 := by
        simp only [valWF, Bool.and_eq_true, decide_eq_true_eq] at hvwf
        exact hvwf.1.1
      have hall : ∀ s ∈ ss, ∀ c ∈ s, c ≠ 0 := by
        simp only [valWF, Bool.and_eq_true, List.all_eq_true, decide_eq_true_eq] at hvwf
        intro s hs c hc
        simpa using (hvwf.2 s hs).1 c hc
      dsimp only [startNvPair]
      rw [if_neg (by omega)]
      rw [foldl_writeString ss hall _]
      have hre : skipToAlign ((writeString (buf ++ zeros 16) name).1) buf.length ++
          zeros (8 * ss.length) ++ (ss.map (fun s => s ++ [0])).flatten =
          skipToAlign ((writeString (buf ++ zeros 16) name).1) buf.length ++
            (zeros (8 * ss.length) ++ (ss.map (fun s => s ++ [0])).flatten) := by
        simp
      rw [hre]
      rw [encPair_assembled buf name
        (zeros (8 * ss.length) ++ (ss.map (fun s => s ++ [0])).flatten) ss.length
        typeStringArray (by decide) hname]
      simp only [andThen]
      rw [ihr hrwf _]
      simp [encStream, encPair, encPayload, elemOf, tagOf, List.append_assoc]
    · dsimp only [startNvPair]
      have hnested : entriesWF fs = true := by
        simpa [valWF] using hvwf
      rw [show writeNvlistHeader (skipToAlign ((writeString (buf ++ zeros 16) name).1)
          buf.length) =
        skipToAlign ((writeString (buf ++ zeros 16) name).1) buf.length ++
          (leN 4 0 ++ leN 4 1 ++ leN 8 0 ++ leN 4 0 ++ leN 4 0) from by
        simp [writeNvlistHeader]]
      rw [encPair_assembled buf name (leN 4 0 ++ leN 4 1 ++ leN 8 0 ++ leN 4 0 ++ leN 4 0)
        1 typeNvlist (by decide) hname]
      simp only [andThen]
      rw [ihf fs rfl hnested _]
      dsimp only
      rw [ihr hrwf _]
      simp [encStream, encPair, encPayload, elemOf, tagOf, List.append_assoc]
    · simp [valWF] at hvwf
    · simp [valWF] at hvwf

/-! ## Sizes and bounds of the encoded forms -/

theorem padLen_lt (n : Nat) : padLen n < 8 := by
  unfold padLen
  split <;> omega

theorem encPairG_length (name pay : List Byte) (elem tag : Nat) :
    (encPairG name pay elem tag).length = pairSizeG name pay := by
  simp [encPairG, pairSizeG, pairHeader_length, zeros, leN_length]
  omega

theorem flatten_map_leN_length (w : Nat) : ∀ ps : List Nat,
    ((ps.map (leN w)).flatten).length = w * ps.length
  | [] => by simp
  | p :: ps => by
    simp [flatten_map_leN_length w ps, leN_length]
    ring

theorem flatten_map_bool_length : ∀ bs : List Bool,
    ((bs.map (fun b => leN 4 (if b then 1 else 0))).flatten).length = 4 * bs.length
  | [] => by simp
  | b :: bs => by
    simp [flatten_map_bool_length bs, leN_length]
    ring

theorem encPayload_bound {v : NvVal} (h : valWF v = true) :
    (encPayload v).length ≤ 33554432 := by
  rcases v with b | ⟨w, sgn, p⟩ | bits | s | ⟨w, sgn, ps⟩ | bs | ss | fs | ls | _
  case vBool => simp [encPayload]
  case vInt =>
    simp only [valWF, Bool.and_eq_true, Bool.or_eq_true, decide_eq_true_eq] at h
    simp only [encPayload, leN_length]
    rcases h.1 with ((rfl | rfl) | rfl) | rfl <;> omega
  case vDouble => simp [valWF] at h
  case vStr =>
    simp only [valWF, Bool.and_eq_true, decide_eq_true_eq] at h
    simp only [encPayload, List.length_append, List.length_cons, List.length_nil]
    omega
  case vIntArr =>
    simp only [valWF, Bool.and_eq_true, Bool.or_eq_true, decide_eq_true_eq] at h
    simp only [encPayload]
    rw [flatten_map_leN_length]
    have h2 := h.1.2
    rcases h.1.1 with ((rfl | rfl) | rfl) | rfl <;> omega
  case vBoolArr =>
    simp only [valWF, decide_eq_true_eq] at h
    simp only [encPayload]
    rw [flatten_map_bool_length]
    omega
  case vStrArr =>
    simp only [valWF, Bool.and_eq_true, decide_eq_true_eq, List.all_eq_true] at h
    simp only [encPayload, List.length_append, zeros_length]
    have h1 := h.1.1
    have h2 := h.1.2
    omega
  case vList => simp [encPayload, leN_length]
  case vListArr => simp [valWF] at h
  case vOther => simp [valWF] at h

theorem elemOf_bound {v : NvVal} (h : valWF v = true) : elemOf v ≤ 65535 := by
  rcases v with b | ⟨w, sgn, p⟩ | bits | s | ⟨w, sgn, ps⟩ | bs | ss | fs | ls | _
  case vBool => simp [elemOf]
  case vInt => simp [elemOf]
  case vDouble => simp [valWF] at h
  case vStr => simp [elemOf]
  case vIntArr =>
    simp only [valWF, Bool.and_eq_true, decide_eq_true_eq] at h
    simpa [elemOf] using h.1.2
  case vBoolArr =>
    simp only [valWF, decide_eq_true_eq] at h
    simpa [elemOf] using h
  case vStrArr =>
    simp only [valWF, Bool.and_eq_true, decide_eq_true_eq] at h
    simpa [elemOf] using h.1.1
  case vList => simp [elemOf]
  case vListArr => simp [valWF] at h
  case vOther => simp [valWF] at h

theorem tagOf_le {v : NvVal} (h : valWF v = true) : tagOf v ≤ 27 := by
  rcases v with b | ⟨w, sgn, p⟩ | bits | s | ⟨w, sgn, ps⟩ | bs | ss | fs | ls | _
  case vBool => simp [tagOf, typeBoolean]
  case vInt =>
    simp only [valWF, Bool.and_eq_true, Bool.or_eq_true, decide_eq_true_eq] at h
    rcases h.1 with ((rfl | rfl) | rfl) | rfl <;> cases sgn <;>
      simp [tagOf, intTag, typeByte]
  case vDouble => simp [valWF] at h
  case vStr => simp [tagOf, typeString]
  case vIntArr =>
    simp only [valWF, Bool.and_eq_true, Bool.or_eq_true, decide_eq_true_eq] at h
    rcases h.1.1 with ((rfl | rfl) | rfl) | rfl <;> cases sgn <;>
      simp [tagOf, intArrTag, typeByteArray]
  case vBoolArr => simp [tagOf, typeBooleanArray]
  case vStrArr => simp [tagOf, typeStringArray]
  case vList => simp [tagOf, typeNvlist]
  case vListArr => simp [valWF] at h
  case vOther => simp [valWF] at h

theorem pairSizeG_pos (name pay : List Byte) : 17 ≤ pairSizeG name pay := by
  unfold pairSizeG
  omega

theorem pairSizeG_bound {name pay : List Byte} (hn : name.length + 1 < 32767)
    (hp : pay.length ≤ 33554432) : pairSizeG name pay < 2147483648 := by
  unfold pairSizeG
  have := padLen_lt (17 + name.length)
  have := padLen_lt (17 + name.length + padLen (17 + name.length) + pay.length)
  omega

theorem encPair_len_ge (name : List Byte) (v : NvVal) :
    17 ≤ (encPair name v).length := by
  rw [encPair, encPairG_length]
  exact pairSizeG_pos _ _

theorem encStream_ge4 : ∀ es : Entries, 4 ≤ (encStream es).length := by
  intro es
  induction es using entriesInd with
  | hnil => simp [encStream, zeros]
  | hcons name v rest ihf ihr =>
    rcases v with b | ⟨w, sgn, p⟩ | bits | s | ⟨w, sgn, ps⟩ | bs | ss | fs | ls | _
    case vBool =>
      rcases b with _ | _
      · simpa [encStream] using ihr
      · have h17 := encPair_len_ge name (NvVal.vBool true)
        simp only [encStream, List.length_append]
        omega
    case vInt =>
      have h17 := encPair_len_ge name (NvVal.vInt w sgn p)
      simp only [encStream, List.length_append]
      omega
    case vDouble =>
      have h17 := encPair_len_ge name (NvVal.vDouble bits)
      simp only [encStream, List.length_append]
      omega
    case vStr =>
      have h17 := encPair_len_ge name (NvVal.vStr s)
      simp only [encStream, List.length_append]
      omega
    case vIntArr =>
      have h17 := encPair_len_ge name (NvVal.vIntArr w sgn ps)
      simp only [encStream, List.length_append]
      omega
    case vBoolArr =>
      have h17 := encPair_len_ge name (NvVal.vBoolArr bs)
      simp only [encStream, List.length_append]
      omega
    case vStrArr =>
      have h17 := encPair_len_ge name (NvVal.vStrArr ss)
      simp only [encStream, List.length_append]
      omega
    case vList =>
      have h17 := encPair_len_ge name (NvVal.vList fs)
      simp only [encStream, List.length_append]
      omega
    case vListArr =>
      have h17 := encPair_len_ge name (NvVal.vListArr ls)
      simp only [encStream, List.length_append]
      omega
    case vOther =>
      have h17 := encPair_len_ge name NvVal.vOther
      simp only [encStream, List.length_append]
      omega

/-! ## Primitive reader step lemmas -/

theorem readIntO_ok (st : RState) (k : Nat) (h : st.pos + k ≤ st.data.length) :
    st.readIntO k =
      .ok (intVal st.bigE ((st.data.drop st.pos).take k), { st with pos := st.pos + k }) := by
  simp [RState.readIntO, h]

theorem readIntP_ok (st : RState) (r : PairR) (k : Nat)
    (h1 : r.cur + k ≤ r.startByte + r.sizeBytes) (h2 : r.cur + k ≤ st.data.length) :
    r.readIntP st k =
      .ok (intVal st.bigE ((st.data.drop r.cur).take k), { r with cur := r.cur + k }) := by
  simp only [PairR.readIntP, PairR.readFullP, if_pos h1, if_pos h2]
  rfl

theorem readN_ok (st : RState) (r : PairR) (n : Nat)
    (h1 : r.cur + n ≤ r.startByte + r.sizeBytes) (h2 : r.cur + n ≤ st.data.length) :
    r.readN st n =
      .ok ((st.data.drop r.cur).take n, { r with cur := r.cur + n }) := by
  simp only [PairR.readN, if_pos h1, if_pos h2]

/-- `readIntP_ok` with the new offset passed explicitly, so that rewriting
keeps offsets in normal form. -/
theorem readIntP_okc (st : RState) (r : PairR) (k c : Nat) (hc : r.cur + k = c)
    (h1 : r.cur + k ≤ r.startByte + r.sizeBytes) (h2 : r.cur + k ≤ st.data.length) :
    r.readIntP st k =
      .ok (intVal st.bigE ((st.data.drop r.cur).take k), { r with cur := c }) := by
  rw [readIntP_ok st r k h1 h2, hc]

/-- `readN_ok` with the new offset passed explicitly. -/
theorem readN_okc (st : RState) (r : PairR) (n c : Nat) (hc : r.cur + n = c)
    (h1 : r.cur + n ≤ r.startByte + r.sizeBytes) (h2 : r.cur + n ≤ st.data.length) :
    r.readN st n =
      .ok ((st.data.drop r.cur).take n, { r with cur := c }) := by
  rw [readN_ok st r n h1 h2, hc]


/-! ## Reading back the encoded fields -/

/-- Reading `k` bytes at offset `off` inside the middle segment of a
three-part buffer. -/
theorem extract_take (pre mid suf : List Byte) (off k : Nat)
    (h : off + k ≤ mid.length) :
    ((pre ++ (mid ++ suf)).drop (pre.length + off)).take k = (mid.drop off).take k := by
  rw [List.drop_append_eq_append_drop, List.drop_of_length_le (by omega),
    List.nil_append, show pre.length + off - pre.length = off by omega,
    List.drop_append_eq_append_drop, List.take_append_eq_append_take]
  rw [show k - (List.drop off mid).length = 0 by (simp; omega), List.take_zero,
    List.append_nil]

theorem take_pref {a : List Byte} (b : List Byte) {n : Nat} (h : a.length = n) :
    (a ++ b).take n = a := by
  subst h
  exact List.take_left a b

theorem drop_pref {a : List Byte} (b : List Byte) {n : Nat} (h : a.length = n) :
    (a ++ b).drop n = b := by
  subst h
  exact List.drop_left a b

theorem encPairG_field_size (name pay : List Byte) (elem tag : Nat) :
    (encPairG name pay elem tag).take 4 = leN 4 (pairSizeG name pay) := by
  simp only [encPairG, pairHeader, List.append_assoc]
  rw [take_pref _ (leN_length 4 _)]

theorem encPairG_field_nsz (name pay : List Byte) (elem tag : Nat) :
    ((encPairG name pay elem tag).drop 4).take 2 = leN 2 (name.length + 1) := by
  simp only [encPairG, pairHeader, List.append_assoc]
  rw [drop_pref _ (leN_length 4 _), take_pref _ (leN_length 2 _)]

theorem encPairG_field_elem (name pay : List Byte) (elem tag : Nat) :
    ((encPairG name pay elem tag).drop 8).take 4 = leN 4 elem := by
  simp only [encPairG, pairHeader, List.append_assoc]
  rw [show (8 : Nat) = 4 + (2 + 2) by omega]
  rw [← List.drop_drop, ← List.drop_drop]
  rw [drop_pref _ (leN_length 4 _), drop_pref _ (leN_length 2 _),
    drop_pref _ (leN_length 2 _), take_pref _ (leN_length 4 _)]

theorem encPairG_field_tag (name pay : List Byte) (elem tag : Nat) :
    ((encPairG name pay elem tag).drop 12).take 4 = leN 4 tag := by
  simp only [encPairG, pairHeader, List.append_assoc]
  rw [show (12 : Nat) = 4 + (2 + (2 + 4)) by omega]
  rw [← List.drop_drop, ← List.drop_drop, ← List.drop_drop]
  rw [drop_pref _ (leN_length 4 _), drop_pref _ (leN_length 2 _),
    drop_pref _ (leN_length 2 _), drop_pref _ (leN_length 4 _),
    take_pref _ (leN_length 4 _)]

theorem encPairG_field_name (name pay : List Byte) (elem tag : Nat) :
    ((encPairG name pay elem tag).drop 16).take (name.length + 1) =
      name ++ [0] := by
  simp only [encPairG, List.append_assoc]
  rw [drop_pref _ (pairHeader_length _ _ _ _)]
  rw [show ∀ z : List Byte, name ++ ([0] ++ z) = (name ++ [0]) ++ z from
    fun z => by simp]
  rw [take_pref _ (by simp)]

theorem encPairG_field_payload (name pay : List Byte) (elem tag : Nat) :
    ((encPairG name pay elem tag).drop
        (17 + name.length + padLen (17 + name.length))).take pay.length = pay := by
  simp only [encPairG, List.append_assoc]
  rw [show (17 + name.length + padLen (17 + name.length) : Nat) =
    16 + ((name.length + 1) + padLen (17 + name.length)) by omega]
  rw [← List.drop_drop, ← List.drop_drop]
  rw [drop_pref _ (pairHeader_length _ _ _ _)]
  rw [show ∀ z : List Byte, name ++ ([0] ++ z) = (name ++ [0]) ++ z from
    fun z => by simp]
  rw [drop_pref _ (by simp), drop_pref _ (zeros_length _), take_pref _ rfl]

theorem extract_take0 (pre mid suf : List Byte) (k : Nat) (h : k ≤ mid.length) :
    ((pre ++ (mid ++ suf)).drop pre.length).take k = mid.take k := by
  rw [drop_pref _ rfl, List.take_append_eq_append_take,
    show k - mid.length = 0 by omega, List.take_zero, List.append_nil]

theorem skipToAlignP_eval (st' : RState) (r : PairR) (hx : st'.xdr = false) :
    r.skipToAlignP st' = { r with cur := r.cur + padLen (r.cur - r.startByte) } := by
  cases r with
  | mk sb sz cur =>
    simp only [PairR.skipToAlignP, hx, Bool.false_eq_true, if_false, padLen]
    split_ifs with h
    · simp
    · rfl

/-- Parsing the header of one encoded pair: the outer reader skips to the end
of the pair, and the payload dispatch receives the written tag, element count
and name, with the pair cursor 8-aligned at the payload. -/
theorem pairHeaderParse (fuel : Nat) (st : RState) (rec : Entries)
    (name : List Byte) (v : NvVal) (pre suf : List Byte)
    (hdata : st.data = pre ++ (encPair name v ++ suf))
    (hpos : st.pos = pre.length)
    (hbigE : st.bigE = false) (hxdr : st.xdr = false)
    (hsuf : 4 ≤ suf.length)
    (hnlen : name.length + 1 < 32767)
    (hv : valWF v = true) :
    readPairsS (fuel + 1) st rec =
      (do
        let step ← decodeS (fun st fs => readPairsS fuel st fs) (tagOf v)
          { startByte := pre.length, sizeBytes := pairSizeG name (encPayload v),
            cur := pre.length + (17 + name.length) + padLen (17 + name.length) }
          { st with pos := pre.length + pairSizeG name (encPayload v) }
          (elemOf v) rec name
        let (rec, stNext) := step
        readPairsS fuel stNext rec) := by
  have hb32 : pairSizeG name (encPayload v) < 2147483648 :=
    pairSizeG_bound hnlen (encPayload_bound hv)
  have hps17 : 17 + name.length ≤ pairSizeG name (encPayload v) := by
    simp [pairSizeG]
    omega
  obtain ⟨d, p, bE, x⟩ := st
  simp only at hdata hpos hbigE hxdr
  subst hdata hpos hbigE hxdr
  have hlen : (pre ++ (encPair name v ++ suf)).length =
      pre.length + pairSizeG name (encPayload v) + suf.length := by
    simp [encPair, encPairG_length]
    omega
  have hsz : intVal false (((pre ++ (encPair name v ++ suf)).drop pre.length).take 4) =
      pairSizeG name (encPayload v) := by
    rw [extract_take0 _ _ _ 4 (by rw [encPair, encPairG_length]; omega)]
    rw [encPair, encPairG_field_size]
    simp only [intVal, if_neg (by simp : ¬ (false : Bool) = true)]
    exact leVal_leN_of_lt (by norm_num; omega)
  have hnsz : intVal false
      (((pre ++ (encPair name v ++ suf)).drop (pre.length + 4)).take 2) =
      name.length + 1 := by
    rw [extract_take (h := by rw [encPair, encPairG_length]; omega)]
    rw [encPair, encPairG_field_nsz]
    simp only [intVal, if_neg (by simp : ¬ (false : Bool) = true)]
    exact leVal_leN_of_lt (by norm_num; omega)
  have helem : intVal false
      (((pre ++ (encPair name v ++ suf)).drop (pre.length + 8)).take 4) =
      elemOf v := by
    rw [extract_take (h := by rw [encPair, encPairG_length]; omega)]
    rw [encPair, encPairG_field_elem]
    simp only [intVal, if_neg (by simp : ¬ (false : Bool) = true)]
    have := elemOf_bound hv
    exact leVal_leN_of_lt (by norm_num; omega)
  have htagv : intVal false
      (((pre ++ (encPair name v ++ suf)).drop (pre.length + 12)).take 4) =
      tagOf v := by
    rw [extract_take (h := by rw [encPair, encPairG_length]; omega)]
    rw [encPair, encPairG_field_tag]
    simp only [intVal, if_neg (by simp : ¬ (false : Bool) = true)]
    have := tagOf_le hv
    exact leVal_leN_of_lt (by norm_num; omega)
  have hnameb : ((pre ++ (encPair name v ++ suf)).drop (pre.length + 16)).take
      (name.length + 1) = name ++ [0] := by
    rw [extract_take (h := by rw [encPair, encPairG_length]; omega)]
    rw [encPair, encPairG_field_name]
  rw [readPairsS]
  rw [readIntO_ok _ 4 (by (try dsimp only) <;> omega)]
  simp only [Except.bind, bind]
  rw [hsz]
  rw [if_neg (by omega), if_neg (by omega), if_neg (by (try dsimp only) <;> omega)]
  rw [readIntP_okc _ _ 2 (pre.length + 6) (by (try dsimp only) <;> omega)
    (by (try dsimp only) <;> omega) (by (try dsimp only) <;> omega)]
  simp only [Except.bind, bind]
  rw [hnsz]
  rw [if_neg (by omega)]
  rw [readIntP_okc _ _ 2 (pre.length + 8) (by (try dsimp only) <;> omega)
    (by (try dsimp only) <;> omega) (by (try dsimp only) <;> omega)]
  simp only [Except.bind, bind]
  rw [readIntP_okc _ _ 4 (pre.length + 12) (by (try dsimp only) <;> omega)
    (by (try dsimp only) <;> omega) (by (try dsimp only) <;> omega)]
  simp only [Except.bind, bind]
  rw [helem]
  have helb := elemOf_bound hv
  rw [if_neg (by omega), if_neg (by omega)]
  rw [readIntP_okc _ _ 4 (pre.length + 16) (by (try dsimp only) <;> omega)
    (by (try dsimp only) <;> omega) (by (try dsimp only) <;> omega)]
  simp only [Except.bind, bind]
  rw [htagv]
  rw [readN_okc _ _ (name.length + 1) (pre.length + (17 + name.length))
    (by (try dsimp only) <;> omega) (by (try dsimp only) <;> omega) (by (try dsimp only) <;> omega)]
  simp only [Except.bind, bind]
  rw [hnameb]
  rw [skipToAlignP_eval _ _ rfl]
  rw [List.dropLast_concat]
  rw [show pre.length + (17 + name.length) - pre.length = 17 + name.length by omega]
  rfl

/-! ## Reading back the payloads -/

theorem get_of_take1 {data : List Byte} {C : Nat} {b : Byte}
    (h : (data.drop C).take 1 = [b]) (hC : C < data.length) :
    data.get ⟨C, hC⟩ = b := by
  have h0 : (data.drop C)[0]? = some b := by
    rcases hd : data.drop C with _ | ⟨x, xs⟩
    · rw [hd] at h
      simp at h
    · rw [hd] at h
      simp only [List.take_succ_cons, List.take_zero] at h
      simp only [List.getElem?_cons_zero]
      injection h with h1 _
      exact congrArg some h1
  rw [List.getElem?_drop] at h0
  simp only [Nat.add_zero] at h0
  have h1 : data[C]? = some data[C] := List.getElem?_eq_getElem hC
  simpa [List.get_eq_getElem] using Option.some.inj (h1.symm.trans h0)

theorem decompose_at (data : List Byte) (C k : Nat) (seg : List Byte)
    (hseg : (data.drop C).take k = seg) (hC : C + k ≤ data.length) :
    data = data.take C ++ (seg ++ data.drop (C + k)) := by
  conv_lhs => rw [← List.take_append_drop C data]
  congr 1
  rw [← hseg]
  have hx : (data.drop C).drop k = data.drop (C + k) := by
    rw [List.drop_drop, Nat.add_comm]
  rw [← hx, List.take_append_drop]

theorem scanDelim_finds : ∀ (s A B : List Byte) (bound : Nat),
    (∀ c ∈ s, c ≠ 0) → A.length + s.length ≤ bound →
    bound < (A ++ (s ++ 0 :: B)).length →
    scanDelim (A ++ (s ++ 0 :: B)) bound 0 A.length = .ok (A.length + s.length)
  | [], A, B, bound, hnz, hb, hlt => by
    have hget : ∀ hh, (A ++ ([] ++ 0 :: B)).get ⟨A.length, hh⟩ = 0 := by
      intro hh
      simp only [List.nil_append, List.get_eq_getElem]
      rw [List.getElem_append_right (by omega)]
      simp
    rw [scanDelim, if_pos (by omega),
      dif_pos (by simp only [List.length_append, List.nil_append,
        List.length_cons]; omega), hget, if_pos rfl]
    simp
  | c :: s, A, B, bound, hnz, hb, hlt => by
    have hget : ∀ hh, (A ++ ((c :: s) ++ 0 :: B)).get ⟨A.length, hh⟩ = c := by
      intro hh
      simp only [List.get_eq_getElem]
      rw [List.getElem_append_right (by omega)]
      simp
    rw [scanDelim, if_pos (by omega),
      dif_pos (by simp only [List.length_append, List.length_cons]; omega), hget,
      if_neg (hnz c (by simp))]
    have hre : A ++ ((c :: s) ++ 0 :: B) = (A ++ [c]) ++ (s ++ 0 :: B) := by simp
    rw [hre]
    rw [show A.length + 1 = (A ++ [c]).length by simp]
    rw [scanDelim_finds s (A ++ [c]) B bound
      (fun x hx => hnz x (by simp [hx]))
      (by simp only [List.length_append, List.length_cons, List.length_nil] at hb ⊢
          omega)
      (by simp only [List.length_append, List.length_cons,
            List.length_nil] at hlt ⊢
          omega)]
    congr 1
    simp only [List.length_append, List.length_cons, List.length_nil]
    omega

theorem chunkVals_flatten (w : Nat) (hw : 1 ≤ w) : ∀ (ps : List Nat) (extra : List Byte),
    (∀ p ∈ ps, p < 2 ^ (8 * w)) →
    chunkVals false w ps.length ((ps.map (leN w)).flatten ++ extra) = ps
  | [], _, _ => by simp [chunkVals]
  | p :: ps, extra, h => by
    simp only [List.map_cons, List.flatten_cons, List.length_cons, chunkVals,
      List.append_assoc]
    congr 1
    · rw [List.take_append_eq_append_take, List.take_of_length_le (by rw [leN_length]),
        show w - (leN w p).length = 0 by (rw [leN_length]; omega), List.take_zero,
        List.append_nil]
      simp only [intVal, if_neg (by simp : ¬ (false : Bool) = true)]
      exact leVal_leN_of_lt (h p (by simp))
    · rw [List.drop_append_eq_append_drop, List.drop_of_length_le (by rw [leN_length]),
        List.nil_append, show w - (leN w p).length = 0 by (rw [leN_length]; omega),
        List.drop_zero]
      exact chunkVals_flatten w hw ps extra (fun q hq => h q (by simp [hq]))

theorem readBytesDelim_parses (st : RState) (r : PairR) (s A B : List Byte)
    (hdata : st.data = A ++ (s ++ (0 :: B)))
    (hcur : r.cur = A.length)
    (hnz : ∀ c ∈ s, c ≠ 0)
    (hb : A.length + s.length ≤ r.startByte + r.sizeBytes)
    (hlt : r.startByte + r.sizeBytes < st.data.length) :
    r.readBytesDelim st 0 = .ok (s ++ [0], { r with cur := A.length + s.length + 1 }) := by
  simp only [PairR.readBytesDelim]
  rw [hdata, hcur]
  rw [scanDelim_finds s A B _ hnz hb (by rw [hdata] at hlt; omega)]
  simp only [bind, Except.bind]
  rw [drop_pref _ rfl]
  rw [show A.length + s.length + 1 - A.length = s.length + 1 by omega]
  rw [List.take_append_eq_append_take, List.take_of_length_le (by omega),
    show s.length + 1 - s.length = 1 by omega]
  simp

theorem readStrsP_parses (st : RState) : ∀ (ss : List (List Byte)) (r : PairR)
    (A B : List Byte) (c : Nat),
    (∀ s ∈ ss, ∀ x ∈ s, x ≠ 0) →
    st.data = A ++ ((ss.map (fun s => s ++ [0])).flatten ++ B) →
    r.cur = A.length →
    c = r.cur + ((ss.map (fun s => s ++ [0])).flatten).length →
    A.length + ((ss.map (fun s => s ++ [0])).flatten).length ≤
      r.startByte + r.sizeBytes →
    r.startByte + r.sizeBytes < st.data.length →
    readStrsP st ss.length r = .ok (ss, { r with cur := c })
  | [], r, A, B, c, hnz, hdata, hcur, hc, hb, hlt => by
    simp only [List.map_nil, List.flatten_nil, List.length_nil, Nat.add_zero] at hc
    subst hc
    rfl
  | s :: ss, r, A, B, c, hnz, hdata, hcur, hc, hb, hlt => by
    simp only [List.map_cons, List.flatten_cons, List.length_append,
      List.length_cons, List.length_nil, List.append_assoc] at hc hb hdata
    simp only [readStrsP, List.length_cons]
    rw [readBytesDelim_parses st r s A
      ((ss.map (fun t => t ++ [0])).flatten ++ B)
      (by rw [hdata]; simp)
      hcur (hnz s (by simp))
      (by omega) hlt]
    simp only [bind, Except.bind]
    rw [readStrsP_parses st ss { r with cur := A.length + s.length + 1 }
      (A ++ (s ++ [0])) B c
      (fun t ht x hx => hnz t (by simp [ht]) x hx)
      (by rw [hdata]; simp)
      (by simp only [List.length_append, List.length_cons, List.length_nil]
          omega)
      (by simp only [List.length_append, List.length_cons, List.length_nil]
          omega)
      (by simp only [List.length_append, List.length_cons, List.length_nil]
          omega)
      (by exact hlt)]
    simp

theorem readBoolsP_parses (st : RState) (hbig : st.bigE = false) :
    ∀ (bs : List Bool) (r : PairR) (c : Nat),
    (st.data.drop r.cur).take (4 * bs.length) =
      (bs.map (fun b => leN 4 (if b then 1 else 0))).flatten →
    c = r.cur + 4 * bs.length →
    r.cur + 4 * bs.length ≤ r.startByte + r.sizeBytes →
    r.cur + 4 * bs.length ≤ st.data.length →
    readBoolsP st bs.length r = .ok (bs, { r with cur := c })
  | [], r, c, hflat, hc, h1, h2 => by
    simp only [List.length_nil, Nat.mul_zero, Nat.add_zero] at hc
    subst hc
    rfl
  | b :: bs, r, c, hflat, hc, h1, h2 => by
    simp only [List.length_cons] at hc h1 h2 hflat
    simp only [readBoolsP, List.length_cons]
    have hv4 : (st.data.drop r.cur).take 4 = leN 4 (if b then 1 else 0) := by
      have h4 := congrArg (List.take 4) hflat
      rw [List.take_take] at h4
      rw [show (4 : Nat) ⊓ (4 * (bs.length + 1)) = 4 by omega] at h4
      rw [h4]
      simp only [List.map_cons, List.flatten_cons]
      rw [take_pref _ (leN_length 4 _)]
    rw [readIntP_okc st r 4 (r.cur + 4) rfl (by omega) (by omega)]
    simp only [Except.bind, bind]
    rw [hv4, hbig]
    have hrest : (st.data.drop (r.cur + 4)).take (4 * bs.length) =
        (bs.map (fun b => leN 4 (if b then 1 else 0))).flatten := by
      have h5 := congrArg (List.drop 4) hflat
      rw [List.drop_take, List.drop_drop] at h5
      rw [show 4 * (bs.length + 1) - 4 = 4 * bs.length by omega] at h5
      rw [h5]
      simp only [List.map_cons, List.flatten_cons]
      rw [drop_pref _ (leN_length 4 _)]
    have hrec := readBoolsP_parses st hbig bs { r with cur := r.cur + 4 } c
      (by dsimp only; exact hrest) (by dsimp only; omega)
      (by dsimp only; omega) (by dsimp only; omega)
    rcases b with _ | _
    · rw [show intVal false (leN 4 (if false = true then 1 else 0)) = 0 from rfl]
      simp only [pure, Except.pure, bind, Except.bind]
      rw [hrec]
    · rw [show intVal false (leN 4 (if true = true then 1 else 0)) = 1 from rfl]
      simp only [pure, Except.pure, bind, Except.bind]
      rw [hrec]

mutual

/-- The zero value of a field (what Go leaves in a freshly allocated struct). -/
def zeroOf : NvVal → NvVal
  | .vBool _ => .vBool false
  | .vInt w s _ => .vInt w s 0
  | .vDouble _ => .vDouble 0
  | .vStr _ => .vStr []
  | .vIntArr w s _ => .vIntArr w s []
  | .vBoolArr _ => .vBoolArr []
  | .vStrArr _ => .vStrArr []
  | .vList fs => .vList (zeroRec fs)
  | .vListArr _ => .vListArr .nil
  | .vOther => .vOther

/-- The zero record of a schema: every field at its zero value. -/
def zeroRec : Entries → Entries
  | .nil => .nil
  | .cons n v rest => .cons n (zeroOf v) (zeroRec rest)

end

/-! ## Target-record bookkeeping -/

theorem setPrim_ok {rec : Entries} {name : List Byte} {old v : NvVal}
    (hl : lookupField rec name = some old) (hk : old.kindMatches v = true) :
    setPrim rec name v = .ok (setField rec name v) := by
  simp [setPrim, hl, hk]

theorem valCompat_kind {old v : NvVal} (h : valCompat old v = true) :
    old.kindMatches v = true := by
  cases old <;> cases v <;> simp_all [valCompat, NvVal.kindMatches]

theorem entriesCompat_cons {rec : Entries} {name : List Byte} {v : NvVal}
    {rest : Entries} (h : entriesCompat rec (.cons name v rest) = true) :
    (∃ old, lookupField rec name = some old ∧ valCompat old v = true) ∧
    entriesCompat rec rest = true := by
  simp only [entriesCompat, Bool.and_eq_true] at h
  rcases h with ⟨h1, h2⟩
  refine ⟨?_, h2⟩
  rcases hl : lookupField rec name with _ | old
  · rw [hl] at h1
    simp at h1
  · rw [hl] at h1
    exact ⟨old, rfl, h1⟩

theorem lookupField_cons_ne (n name : List Byte) (v : NvVal) (R : Entries)
    (h : ¬ n = name) :
    lookupField (.cons n v R) name = lookupField R name := by
  simp only [lookupField]
  rw [if_neg h]

theorem setField_cons_ne (n name : List Byte) (v u : NvVal) (R : Entries)
    (h : ¬ n = name) :
    setField (.cons n v R) name u = .cons n v (setField R name u) := by
  simp only [setField]
  rw [if_neg h]

theorem lookupField_none_parts {m : List Byte} {w : NvVal} {rest : Entries}
    {name : List Byte} (h : lookupField (.cons m w rest) name = none) :
    ¬ m = name ∧ lookupField rest name = none := by
  simp only [lookupField] at h
  by_cases hx : m = name
  · rw [if_pos hx] at h
    exact absurd h (by simp)
  · rw [if_neg hx] at h
    exact ⟨hx, h⟩

theorem lookupField_setField_ne : ∀ (rec : Entries) (name m : List Byte) (v : NvVal),
    ¬ m = name → lookupField (setField rec name v) m = lookupField rec m
  | .nil, _, _, _, _ => rfl
  | .cons n w rest, name, m, v, h => by
    simp only [setField]
    by_cases hn : n = name
    · rw [if_pos hn]
      simp only [lookupField]
      rw [if_neg (by rw [hn]; exact fun hh => h hh.symm),
        if_neg (by rw [hn]; exact fun hh => h hh.symm)]
    · rw [if_neg hn]
      simp only [lookupField]
      by_cases hm : n = m
      · rw [if_pos hm, if_pos hm]
      · rw [if_neg hm, if_neg hm]
        exact lookupField_setField_ne rest name m v h

theorem entriesCompat_setField : ∀ (es rec : Entries) (name : List Byte) (u : NvVal),
    lookupField es name = none →
    entriesCompat (setField rec name u) es = entriesCompat rec es
  | .nil, _, _, _, _ => rfl
  | .cons m v rest, rec, name, u, h => by
    obtain ⟨hmn, hrest⟩ := lookupField_none_parts h
    simp only [entriesCompat]
    rw [lookupField_setField_ne rec name m u hmn]
    rw [entriesCompat_setField rest rec name u hrest]

theorem entriesCompat_consTarget : ∀ (es rec : Entries) (n : List Byte) (u : NvVal),
    lookupField es n = none →
    entriesCompat (.cons n u rec) es = entriesCompat rec es
  | .nil, _, _, _, _ => rfl
  | .cons m w rest, rec, n, u, h => by
    obtain ⟨hmn, hrest⟩ := lookupField_none_parts h
    simp only [entriesCompat]
    rw [lookupField_cons_ne n m u rec (fun hh => hmn hh.symm)]
    rw [entriesCompat_consTarget rest rec n u hrest]

/-- The per-pair value the decoder stores: nested records merge into the
current field value, everything else overwrites. -/
def applyStepVal (rec : Entries) (name : List Byte) (v : NvVal) : NvVal :=
  match v, lookupField rec name with
  | .vList fs, some (.vList fs₀) => .vList (applyEntries fs₀ fs)
  | _, _ => v

theorem applyEntries_cons (rec : Entries) (name : List Byte) (v : NvVal)
    (rest : Entries) :
    applyEntries rec (.cons name v rest) =
      match v with
      | .vBool false => applyEntries rec rest
      | _ => applyEntries (setField rec name (applyStepVal rec name v)) rest := by
  cases v
  case vBool b => cases b <;> rfl
  case vList fs =>
    simp only [applyEntries, applyStepVal]
    rcases hl : lookupField rec name with _ | old
    · rfl
    · cases old <;> rfl
  all_goals rfl

theorem applyEntries_cons_fresh : ∀ (es : Entries) (name : List Byte) (v : NvVal)
    (R : Entries), lookupField es name = none →
    applyEntries (.cons name v R) es = .cons name v (applyEntries R es)
  | .nil, _, _, _, _ => rfl
  | .cons m w rest, name, v, R, h => by
    obtain ⟨hmn, hrest⟩ := lookupField_none_parts h
    have hname_ne : ¬ name = m := fun hh => hmn hh.symm
    rw [applyEntries_cons, applyEntries_cons]
    cases w
    case vBool b =>
      cases b
      · exact applyEntries_cons_fresh rest name v R hrest
      · dsimp only
        rw [setField_cons_ne name m v _ _ hname_ne]
        exact applyEntries_cons_fresh rest name v _ hrest
    case vList fs =>
      dsimp only
      rw [show applyStepVal (Entries.cons name v R) m (NvVal.vList fs) =
          applyStepVal R m (NvVal.vList fs) from by
        simp only [applyStepVal]
        rw [lookupField_cons_ne name m v R hname_ne]]
      rw [setField_cons_ne name m v _ _ hname_ne]
      exact applyEntries_cons_fresh rest name v _ hrest
    all_goals
      dsimp only
      rw [setField_cons_ne name m v _ _ hname_ne]
      exact applyEntries_cons_fresh rest name v _ hrest

theorem zeroOf_kindMatches {v : NvVal} (h : valWF v = true) :
    (zeroOf v).kindMatches v = true := by
  cases v
  case vDouble => simp [valWF] at h
  case vListArr => simp [valWF] at h
  case vOther => simp [valWF] at h
  all_goals simp [zeroOf, NvVal.kindMatches]

theorem entriesCompat_zeroRec : ∀ es : Entries, entriesWF es = true →
    entriesCompat (zeroRec es) es = true := by
  intro es
  induction es using entriesInd with
  | hnil => intro _; rfl
  | hcons name v rest ihf ihr =>
    intro hwf
    obtain ⟨hlen, hname, hfresh, hvwf, hrwf⟩ := entriesWF_cons hwf
    simp only [zeroRec, entriesCompat, Bool.and_eq_true]
    constructor
    · rw [show lookupField (Entries.cons name (zeroOf v) (zeroRec rest)) name =
          some (zeroOf v) from by simp [lookupField]]
      cases v
      case vList fs =>
        exact ihf fs rfl (by simpa [valWF] using hvwf)
      case vDouble => simp [valWF] at hvwf
      case vListArr => simp [valWF] at hvwf
      case vOther => simp [valWF] at hvwf
      all_goals simp [zeroOf, valCompat, NvVal.kindMatches]
    · rw [entriesCompat_consTarget rest (zeroRec rest) name (zeroOf v) hfresh]
      exact ihr hrwf

theorem lookupField_cons_eq (name : List Byte) (z : NvVal) (R : Entries) :
    lookupField (.cons name z R) name = some z := by
  simp [lookupField]

theorem setField_cons_eq (name : List Byte) (z u : NvVal) (R : Entries) :
    setField (.cons name z R) name u = .cons name u R := by
  simp [setField]

theorem applyStepVal_nonlist (R : Entries) (name : List Byte) (v : NvVal)
    (h : ∀ fs, v ≠ NvVal.vList fs) : applyStepVal R name v = v := by
  cases v
  case vList fs => exact absurd rfl (h fs)
  all_goals rfl

/-- Decoding the encoding of a well-formed record into its zero record
recovers the record. -/
theorem applyEntries_self : ∀ es : Entries, entriesWF es = true →
    applyEntries (zeroRec es) es = es := by
  intro es
  induction es using entriesInd with
  | hnil => intro _; rfl
  | hcons name v rest ihf ihr =>
    intro hwf
    obtain ⟨hlen, hname, hfresh, hvwf, hrwf⟩ := entriesWF_cons hwf
    simp only [zeroRec]
    rw [applyEntries_cons]
    cases v
    case vBool b =>
      cases b
      · dsimp only
        rw [applyEntries_cons_fresh rest name _ (zeroRec rest) hfresh, ihr hrwf]
        simp [zeroOf]
      · dsimp only
        rw [applyStepVal_nonlist _ _ _ (fun fs h => NvVal.noConfusion h)]
        rw [setField_cons_eq]
        rw [applyEntries_cons_fresh rest name _ (zeroRec rest) hfresh, ihr hrwf]
    case vList fs =>
      dsimp only
      rw [show applyStepVal
          (Entries.cons name (zeroOf (NvVal.vList fs)) (zeroRec rest)) name
          (NvVal.vList fs) = NvVal.vList (applyEntries (zeroRec fs) fs) from by
        simp only [applyStepVal, zeroOf, lookupField_cons_eq]]
      rw [ihf fs rfl (by simpa [valWF] using hvwf)]
      rw [setField_cons_eq]
      rw [applyEntries_cons_fresh rest name _ (zeroRec rest) hfresh, ihr hrwf]
    case vDouble => simp [valWF] at hvwf
    case vListArr => simp [valWF] at hvwf
    case vOther => simp [valWF] at hvwf
    all_goals
      dsimp only
      rw [applyStepVal_nonlist _ _ _ (fun fs h => NvVal.noConfusion h)]
      rw [setField_cons_eq]
      rw [applyEntries_cons_fresh rest name _ (zeroRec rest) hfresh, ihr hrwf]

theorem map_val_flatten_leN1 : ∀ ps : List Nat, (∀ p ∈ ps, p < 256) →
    ((ps.map (leN 1)).flatten).map Fin.val = ps
  | [], _ => by simp
  | p :: ps, h => by
    have hp : p < 256 := h p (by simp)
    simp only [List.map_cons, List.flatten_cons, List.map_append]
    rw [map_val_flatten_leN1 ps (fun q hq => h q (by simp [hq]))]
    simp [leN, Nat.mod_eq_of_lt hp]

/-! ## Evaluating the part_008 dispatch on the writer's tags

The writer's tag for each value kind is a concrete literal, so each dispatch
branch of `decodeS` is a definitional equation. -/

theorem decodeS_branch_bool (rp : RState → Entries → Except DecErr (RState × Entries))
    (b : Bool) (r : PairR) (st : RState) (ve : Nat) (rec : Entries)
    (name : List Byte) :
    decodeS rp (tagOf (NvVal.vBool b)) r st ve rec name =
      (do
        let rec ← setPrim rec name (.vBool true)
        pure (rec, st)) := rfl

theorem decodeS_branch_byte (rp : RState → Entries → Except DecErr (RState × Entries))
    (p : Nat) (r : PairR) (st : RState) (ve : Nat) (rec : Entries)
    (name : List Byte) :
    decodeS rp (tagOf (NvVal.vInt 1 false p)) r st ve rec name =
      (do
        let (b, _) ← r.readByteP st
        let rec ← setPrim rec name (.vInt 1 false b.val)
        pure (rec, st)) := rfl

theorem decodeS_branch_int (rp : RState → Entries → Except DecErr (RState × Entries))
    (w : Nat) (sgn : Bool) (p : Nat) (r : PairR) (st : RState) (ve : Nat)
    (rec : Entries) (name : List Byte)
    (hw : (w = 1 ∧ sgn = true) ∨ w = 2 ∨ w = 4 ∨ w = 8) :
    decodeS rp (tagOf (NvVal.vInt w sgn p)) r st ve rec name =
      (do
        let (q, _) ← r.readIntP st w
        let rec ← setPrim rec name (.vInt w sgn q)
        pure (rec, st)) := by
  rcases hw with ⟨rfl, rfl⟩ | rfl | rfl | rfl
  · rfl
  all_goals cases sgn <;> rfl

theorem decodeS_branch_str (rp : RState → Entries → Except DecErr (RState × Entries))
    (s : List Byte) (r : PairR) (st : RState) (ve : Nat) (rec : Entries)
    (name : List Byte) :
    decodeS rp (tagOf (NvVal.vStr s)) r st ve rec name =
      (do
        let (bs, _) ← r.readBytesDelim st 0
        let rec ← setPrim rec name (.vStr bs.dropLast)
        pure (rec, st)) := rfl

theorem decodeS_branch_byteArr (rp : RState → Entries → Except DecErr (RState × Entries))
    (ps : List Nat) (r : PairR) (st : RState) (ve : Nat) (rec : Entries)
    (name : List Byte) :
    decodeS rp (tagOf (NvVal.vIntArr 1 false ps)) r st ve rec name =
      (do
        let (bs, _) ← r.readN st ve
        let rec ← setPrim rec name (.vIntArr 1 false (bs.map Fin.val))
        pure (rec, st)) := rfl

theorem decodeS_branch_intArr (rp : RState → Entries → Except DecErr (RState × Entries))
    (w : Nat) (sgn : Bool) (ps : List Nat) (r : PairR) (st : RState) (ve : Nat)
    (rec : Entries) (name : List Byte)
    (hw : (w = 1 ∧ sgn = true) ∨ w = 2 ∨ w = 4 ∨ w = 8) :
    decodeS rp (tagOf (NvVal.vIntArr w sgn ps)) r st ve rec name =
      (do
        let (bs, _) ← r.readFullP st (ve * w)
        let rec ← setPrim rec name (.vIntArr w sgn (chunkVals st.bigE w ve bs))
        pure (rec, st)) := by
  rcases hw with ⟨rfl, rfl⟩ | rfl | rfl | rfl
  · rfl
  all_goals cases sgn <;> rfl

theorem decodeS_branch_strArr (rp : RState → Entries → Except DecErr (RState × Entries))
    (ss : List (List Byte)) (r : PairR) (st : RState) (ve : Nat) (rec : Entries)
    (name : List Byte) :
    decodeS rp (tagOf (NvVal.vStrArr ss)) r st ve rec name =
      (do
        let (ss2, _) ← readStrsP st ve { r with cur := r.cur + 8 * ve }
        let rec ← setPrim rec name (.vStrArr ss2)
        pure (rec, st)) := rfl

theorem decodeS_branch_boolArr (rp : RState → Entries → Except DecErr (RState × Entries))
    (bs : List Bool) (r : PairR) (st : RState) (ve : Nat) (rec : Entries)
    (name : List Byte) :
    decodeS rp (tagOf (NvVal.vBoolArr bs)) r st ve rec name =
      (do
        let (bs2, _) ← readBoolsP st ve r
        let rec ← setPrim rec name (.vBoolArr bs2)
        pure (rec, st)) := rfl

theorem decodeS_branch_list (rp : RState → Entries → Except DecErr (RState × Entries))
    (fs fs₀ : Entries) (r : PairR) (st : RState) (ve : Nat) (rec : Entries)
    (name : List Byte)
    (hl : lookupField rec name = some (NvVal.vList fs₀)) :
    decodeS rp (tagOf (NvVal.vList fs)) r st ve rec name =
      (do
        let (st2, fs2) ← rp st fs₀
        pure (setField rec name (.vList fs2), st2)) := by
  have e : decodeS rp (tagOf (NvVal.vList fs)) r st ve rec name =
      (match lookupField rec name with
       | none => pure (rec, st)
       | some (NvVal.vList fs0) => do
         let (st2, fs2) ← rp st fs0
         pure (setField rec name (.vList fs2), st2)
       | some _ => throw DecErr.invalidData) := rfl
  rw [e, hl]

/-! ## Forward evaluation of the remaining reader primitives -/

theorem readFullP_ok (st : RState) (r : PairR) (k : Nat)
    (h1 : r.cur + k ≤ r.startByte + r.sizeBytes) (h2 : r.cur + k ≤ st.data.length) :
    r.readFullP st k =
      .ok ((st.data.drop r.cur).take k, { r with cur := r.cur + k }) := by
  simp only [PairR.readFullP, if_pos h1, if_pos h2]

theorem readFullP_okc (st : RState) (r : PairR) (k c : Nat) (hc : r.cur + k = c)
    (h1 : r.cur + k ≤ r.startByte + r.sizeBytes) (h2 : r.cur + k ≤ st.data.length) :
    r.readFullP st k =
      .ok ((st.data.drop r.cur).take k, { r with cur := c }) := by
  rw [readFullP_ok st r k h1 h2, hc]

theorem readByteP_ok (st : RState) (r : PairR)
    (h1 : r.cur ≤ r.startByte + r.sizeBytes) (h2 : r.cur < st.data.length) :
    r.readByteP st =
      .ok (st.data.get ⟨r.cur, h2⟩, { r with cur := r.cur + 1 }) := by
  unfold PairR.readByteP
  rw [if_pos h1, dif_pos h2]

theorem readByteO_ok_at (st : RState) (b : Byte) (pre post : List Byte)
    (hdata : st.data = pre ++ (b :: post)) (hpos : st.pos = pre.length) :
    st.readByteO = .ok (b, { st with pos := st.pos + 1 }) := by
  obtain ⟨d, p, bE, x⟩ := st
  simp only at hdata hpos
  subst hdata hpos
  unfold RState.readByteO
  have hpf : pre.length < (pre ++ (b :: post)).length := by
    simp only [List.length_append, List.length_cons]
    omega
  rw [dif_pos hpf]
  have hg : (pre ++ (b :: post)).get ⟨pre.length, hpf⟩ = b := by
    simp only [List.get_eq_getElem]
    rw [List.getElem_append_right (Nat.le_refl pre.length)]
    simp
  rw [hg]

/-! ## Locating the payload of an encoded pair -/

theorem pairSizeG_eq (name pay : List Byte) :
    pairSizeG name pay =
      17 + name.length + padLen (17 + name.length) + pay.length +
        padLen (17 + name.length + padLen (17 + name.length) + pay.length) := rfl

theorem payload_at (st : RState) (pre suf2 name : List Byte) (v : NvVal) (k : Nat)
    (hdata : st.data = pre ++ (encPair name v ++ suf2))
    (hk : k = (encPayload v).length) :
    (st.data.drop
        (pre.length + (17 + name.length) + padLen (17 + name.length))).take k =
      encPayload v := by
  subst hk
  rw [hdata]
  rw [show pre.length + (17 + name.length) + padLen (17 + name.length) =
    pre.length + (17 + name.length + padLen (17 + name.length)) from by omega]
  rw [extract_take pre (encPair name v) suf2
    (17 + name.length + padLen (17 + name.length)) (encPayload v).length
    (by rw [show encPair name v =
          encPairG name (encPayload v) (elemOf v) (tagOf v) from rfl,
        encPairG_length]
        unfold pairSizeG
        omega)]
  rw [show encPair name v =
    encPairG name (encPayload v) (elemOf v) (tagOf v) from rfl]
  exact encPairG_field_payload name (encPayload v) (elemOf v) (tagOf v)

theorem data_len_at (st : RState) (pre suf2 name : List Byte) (v : NvVal)
    (hdata : st.data = pre ++ (encPair name v ++ suf2)) :
    st.data.length = pre.length + pairSizeG name (encPayload v) + suf2.length := by
  rw [hdata]
  simp only [List.length_append]
  rw [show encPair name v =
    encPairG name (encPayload v) (elemOf v) (tagOf v) from rfl, encPairG_length]
  omega

theorem valCompat_list {old : NvVal} {fs : Entries}
    (h : valCompat old (NvVal.vList fs) = true) :
    ∃ fs₀, old = NvVal.vList fs₀ ∧ entriesCompat fs₀ fs = true := by
  cases old
  case vList fs₀ => exact ⟨fs₀, rfl, by simpa [valCompat] using h⟩
  all_goals simp [valCompat, NvVal.kindMatches] at h

/-! ## Decoding one encoded pair, per value kind

Each lemma evaluates the dispatch on the pair reader and skipped outer state
that `readPairsS` hands to it (`pairHeaderParse`), for a pair the writer
produced. -/

theorem decode_pair_bool (rp : RState → Entries → Except DecErr (RState × Entries))
    (st : RState) (pre name : List Byte) (rec : Entries) (old : NvVal)
    (hl : lookupField rec name = some old)
    (hk : old.kindMatches (NvVal.vBool true) = true) :
    decodeS rp (tagOf (NvVal.vBool true))
      { startByte := pre.length,
        sizeBytes := pairSizeG name (encPayload (NvVal.vBool true)),
        cur := pre.length + (17 + name.length) + padLen (17 + name.length) }
      { st with pos := pre.length + pairSizeG name (encPayload (NvVal.vBool true)) }
      (elemOf (NvVal.vBool true)) rec name =
      .ok (setField rec name (NvVal.vBool true),
        { st with pos := pre.length + pairSizeG name (encPayload (NvVal.vBool true)) }) := by
  rw [decodeS_branch_bool rp true _ _ _ rec name]
  rw [setPrim_ok hl hk]
  rfl

theorem decode_pair_int (rp : RState → Entries → Except DecErr (RState × Entries))
    (st : RState) (pre suf2 name : List Byte) (rec : Entries) (old : NvVal)
    (w : Nat) (sgn : Bool) (p : Nat)
    (hw : (w = 1 ∧ sgn = true) ∨ w = 2 ∨ w = 4 ∨ w = 8)
    (hdata : st.data = pre ++ (encPair name (NvVal.vInt w sgn p) ++ suf2))
    (hbigE : st.bigE = false)
    (hp : p < 2 ^ (8 * w))
    (hl : lookupField rec name = some old)
    (hk : old.kindMatches (NvVal.vInt w sgn p) = true) :
    decodeS rp (tagOf (NvVal.vInt w sgn p))
      { startByte := pre.length,
        sizeBytes := pairSizeG name (encPayload (NvVal.vInt w sgn p)),
        cur := pre.length + (17 + name.length) + padLen (17 + name.length) }
      { st with pos := pre.length + pairSizeG name (encPayload (NvVal.vInt w sgn p)) }
      (elemOf (NvVal.vInt w sgn p)) rec name =
      .ok (setField rec name (NvVal.vInt w sgn p),
        { st with pos := pre.length + pairSizeG name (encPayload (NvVal.vInt w sgn p)) }) := by
  have hpayl : (encPayload (NvVal.vInt w sgn p)).length = w := by
    rw [show encPayload (NvVal.vInt w sgn p) = leN w p from rfl, leN_length]
  have hdlen := data_len_at st pre suf2 name (NvVal.vInt w sgn p) hdata
  have hpay := payload_at st pre suf2 name (NvVal.vInt w sgn p) w hdata hpayl.symm
  have hb1 : pre.length + (17 + name.length) + padLen (17 + name.length) + w ≤
      pre.length + pairSizeG name (encPayload (NvVal.vInt w sgn p)) := by
    rw [pairSizeG_eq, hpayl]
    omega
  have hb2 : pre.length + (17 + name.length) + padLen (17 + name.length) + w ≤
      st.data.length := by
    rw [hdlen, pairSizeG_eq, hpayl]
    omega
  rw [decodeS_branch_int rp w sgn p _ _ _ rec name hw]
  rw [readIntP_okc
    { st with pos := pre.length + pairSizeG name (encPayload (NvVal.vInt w sgn p)) }
    { startByte := pre.length,
      sizeBytes := pairSizeG name (encPayload (NvVal.vInt w sgn p)),
      cur := pre.length + (17 + name.length) + padLen (17 + name.length) } w
    (pre.length + (17 + name.length) + padLen (17 + name.length) + w) rfl hb1 hb2]
  simp only [Except.bind, bind]
  have hval : intVal st.bigE
      ((st.data.drop
          (pre.length + (17 + name.length) + padLen (17 + name.length))).take w) = p := by
    rw [hbigE, hpay]
    rw [show encPayload (NvVal.vInt w sgn p) = leN w p from rfl]
    rw [show intVal false (leN w p) = leVal (leN w p) from rfl]
    exact leVal_leN_of_lt hp
  rw [hval]
  rw [setPrim_ok hl hk]
  rfl

theorem decode_pair_byte (rp : RState → Entries → Except DecErr (RState × Entries))
    (st : RState) (pre suf2 name : List Byte) (rec : Entries) (old : NvVal)
    (p : Nat)
    (hdata : st.data = pre ++ (encPair name (NvVal.vInt 1 false p) ++ suf2))
    (hp : p < 256)
    (hl : lookupField rec name = some old)
    (hk : old.kindMatches (NvVal.vInt 1 false p) = true) :
    decodeS rp (tagOf (NvVal.vInt 1 false p))
      { startByte := pre.length,
        sizeBytes := pairSizeG name (encPayload (NvVal.vInt 1 false p)),
        cur := pre.length + (17 + name.length) + padLen (17 + name.length) }
      { st with pos := pre.length + pairSizeG name (encPayload (NvVal.vInt 1 false p)) }
      (elemOf (NvVal.vInt 1 false p)) rec name =
      .ok (setField rec name (NvVal.vInt 1 false p),
        { st with pos := pre.length + pairSizeG name (encPayload (NvVal.vInt 1 false p)) }) := by
  have hpayl : (encPayload (NvVal.vInt 1 false p)).length = 1 := by
    rw [show encPayload (NvVal.vInt 1 false p) = leN 1 p from rfl, leN_length]
  have hdlen := data_len_at st pre suf2 name (NvVal.vInt 1 false p) hdata
  have hpay := payload_at st pre suf2 name (NvVal.vInt 1 false p) 1 hdata hpayl.symm
  have hb1 : pre.length + (17 + name.length) + padLen (17 + name.length) ≤
      pre.length + pairSizeG name (encPayload (NvVal.vInt 1 false p)) := by
    rw [pairSizeG_eq, hpayl]
    omega
  have hb2 : pre.length + (17 + name.length) + padLen (17 + name.length) <
      st.data.length := by
    rw [hdlen, pairSizeG_eq, hpayl]
    omega
  rw [decodeS_branch_byte rp p _ _ _ rec name]
  rw [readByteP_ok
    { st with pos := pre.length + pairSizeG name (encPayload (NvVal.vInt 1 false p)) }
    { startByte := pre.length,
      sizeBytes := pairSizeG name (encPayload (NvVal.vInt 1 false p)),
      cur := pre.length + (17 + name.length) + padLen (17 + name.length) } hb1 hb2]
  simp only [Except.bind, bind]
  have htake1 : (st.data.drop
      (pre.length + (17 + name.length) + padLen (17 + name.length))).take 1 =
      [(⟨p % 256, by omega⟩ : Byte)] := by
    rw [hpay]
    rfl
  have hget := get_of_take1 htake1 hb2
  rw [hget]
  dsimp only
  rw [Nat.mod_eq_of_lt hp]
  rw [setPrim_ok hl hk]
  rfl

theorem decode_pair_str (rp : RState → Entries → Except DecErr (RState × Entries))
    (st : RState) (pre suf2 name s : List Byte) (rec : Entries) (old : NvVal)
    (hdata : st.data = pre ++ (encPair name (NvVal.vStr s) ++ suf2))
    (hsuf2 : 1 ≤ suf2.length)
    (hnz : ∀ c ∈ s, c ≠ 0)
    (hl : lookupField rec name = some old)
    (hk : old.kindMatches (NvVal.vStr s) = true) :
    decodeS rp (tagOf (NvVal.vStr s))
      { startByte := pre.length,
        sizeBytes := pairSizeG name (encPayload (NvVal.vStr s)),
        cur := pre.length + (17 + name.length) + padLen (17 + name.length) }
      { st with pos := pre.length + pairSizeG name (encPayload (NvVal.vStr s)) }
      (elemOf (NvVal.vStr s)) rec name =
      .ok (setField rec name (NvVal.vStr s),
        { st with pos := pre.length + pairSizeG name (encPayload (NvVal.vStr s)) }) := by
  have hpayl : (encPayload (NvVal.vStr s)).length = s.length + 1 := by
    rw [show encPayload (NvVal.vStr s) = s ++ [0] from rfl]
    simp
  have hdlen := data_len_at st pre suf2 name (NvVal.vStr s) hdata
  have hpay := payload_at st pre suf2 name (NvVal.vStr s) (s.length + 1) hdata hpayl.symm
  have hCle : pre.length + (17 + name.length) + padLen (17 + name.length) +
      (s.length + 1) ≤ st.data.length := by
    rw [hdlen, pairSizeG_eq, hpayl]
    omega
  have hdec := decompose_at st.data
    (pre.length + (17 + name.length) + padLen (17 + name.length)) (s.length + 1)
    (s ++ [0]) (by rw [hpay]; rfl) hCle
  have hAlen :
      (st.data.take (pre.length + (17 + name.length) + padLen (17 + name.length))).length =
      pre.length + (17 + name.length) + padLen (17 + name.length) := by
    rw [List.length_take]
    omega
  have hdata3 : st.data =
      st.data.take (pre.length + (17 + name.length) + padLen (17 + name.length)) ++
        (s ++ (0 :: st.data.drop
          (pre.length + (17 + name.length) + padLen (17 + name.length) + (s.length + 1)))) := by
    conv_lhs => rw [hdec]
    simp [List.append_assoc]
  have hbb : (st.data.take
      (pre.length + (17 + name.length) + padLen (17 + name.length))).length + s.length ≤
      pre.length + pairSizeG name (encPayload (NvVal.vStr s)) := by
    rw [hAlen, pairSizeG_eq, hpayl]
    omega
  have hlt2 : pre.length + pairSizeG name (encPayload (NvVal.vStr s)) <
      st.data.length := by
    rw [hdlen]
    omega
  rw [decodeS_branch_str rp s _ _ _ rec name]
  rw [readBytesDelim_parses
    { st with pos := pre.length + pairSizeG name (encPayload (NvVal.vStr s)) }
    { startByte := pre.length,
      sizeBytes := pairSizeG name (encPayload (NvVal.vStr s)),
      cur := pre.length + (17 + name.length) + padLen (17 + name.length) } s
    (st.data.take (pre.length + (17 + name.length) + padLen (17 + name.length)))
    (st.data.drop
      (pre.length + (17 + name.length) + padLen (17 + name.length) + (s.length + 1)))
    hdata3 hAlen.symm hnz hbb hlt2]
  simp only [Except.bind, bind]
  rw [List.dropLast_concat]
  rw [setPrim_ok hl hk]
  rfl

theorem decode_pair_byteArr (rp : RState → Entries → Except DecErr (RState × Entries))
    (st : RState) (pre suf2 name : List Byte) (rec : Entries) (old : NvVal)
    (ps : List Nat)
    (hdata : st.data = pre ++ (encPair name (NvVal.vIntArr 1 false ps) ++ suf2))
    (hps : ∀ q ∈ ps, q < 256)
    (hl : lookupField rec name = some old)
    (hk : old.kindMatches (NvVal.vIntArr 1 false ps) = true) :
    decodeS rp (tagOf (NvVal.vIntArr 1 false ps))
      { startByte := pre.length,
        sizeBytes := pairSizeG name (encPayload (NvVal.vIntArr 1 false ps)),
        cur := pre.length + (17 + name.length) + padLen (17 + name.length) }
      { st with pos := pre.length + pairSizeG name (encPayload (NvVal.vIntArr 1 false ps)) }
      (elemOf (NvVal.vIntArr 1 false ps)) rec name =
      .ok (setField rec name (NvVal.vIntArr 1 false ps),
        { st with pos := pre.length + pairSizeG name (encPayload (NvVal.vIntArr 1 false ps)) }) := by
  have hpayl : (encPayload (NvVal.vIntArr 1 false ps)).length = ps.length := by
    rw [show encPayload (NvVal.vIntArr 1 false ps) = (ps.map (leN 1)).flatten from rfl,
      flatten_map_leN_length]
    omega
  have hdlen := data_len_at st pre suf2 name (NvVal.vIntArr 1 false ps) hdata
  have hpay := payload_at st pre suf2 name (NvVal.vIntArr 1 false ps) ps.length
    hdata hpayl.symm
  have hb1 : pre.length + (17 + name.length) + padLen (17 + name.length) + ps.length ≤
      pre.length + pairSizeG name (encPayload (NvVal.vIntArr 1 false ps)) := by
    rw [pairSizeG_eq, hpayl]
    omega
  have hb2 : pre.length + (17 + name.length) + padLen (17 + name.length) + ps.length ≤
      st.data.length := by
    rw [hdlen, pairSizeG_eq, hpayl]
    omega
  rw [decodeS_branch_byteArr rp ps _ _ _ rec name]
  rw [show elemOf (NvVal.vIntArr 1 false ps) = ps.length from rfl]
  rw [readN_okc
    { st with pos := pre.length + pairSizeG name (encPayload (NvVal.vIntArr 1 false ps)) }
    { startByte := pre.length,
      sizeBytes := pairSizeG name (encPayload (NvVal.vIntArr 1 false ps)),
      cur := pre.length + (17 + name.length) + padLen (17 + name.length) } ps.length
    (pre.length + (17 + name.length) + padLen (17 + name.length) + ps.length)
    rfl hb1 hb2]
  simp only [Except.bind, bind]
  have hpay2 : (st.data.drop
      (pre.length + (17 + name.length) + padLen (17 + name.length))).take ps.length =
      (ps.map (leN 1)).flatten := hpay
  rw [hpay2]
  rw [map_val_flatten_leN1 ps hps]
  rw [setPrim_ok hl hk]
  rfl

theorem decode_pair_intArr (rp : RState → Entries → Except DecErr (RState × Entries))
    (st : RState) (pre suf2 name : List Byte) (rec : Entries) (old : NvVal)
    (w : Nat) (sgn : Bool) (ps : List Nat)
    (hw : (w = 1 ∧ sgn = true) ∨ w = 2 ∨ w = 4 ∨ w = 8)
    (hdata : st.data = pre ++ (encPair name (NvVal.vIntArr w sgn ps) ++ suf2))
    (hbigE : st.bigE = false)
    (hps : ∀ q ∈ ps, q < 2 ^ (8 * w))
    (hl : lookupField rec name = some old)
    (hk : old.kindMatches (NvVal.vIntArr w sgn ps) = true) :
    decodeS rp (tagOf (NvVal.vIntArr w sgn ps))
      { startByte := pre.length,
        sizeBytes := pairSizeG name (encPayload (NvVal.vIntArr w sgn ps)),
        cur := pre.length + (17 + name.length) + padLen (17 + name.length) }
      { st with pos := pre.length + pairSizeG name (encPayload (NvVal.vIntArr w sgn ps)) }
      (elemOf (NvVal.vIntArr w sgn ps)) rec name =
      .ok (setField rec name (NvVal.vIntArr w sgn ps),
        { st with pos := pre.length + pairSizeG name (encPayload (NvVal.vIntArr w sgn ps)) }) := by
  have hw1 : 1 ≤ w := by
    rcases hw with ⟨rfl, _⟩ | rfl | rfl | rfl <;> omega
  have hpayl : (encPayload (NvVal.vIntArr w sgn ps)).length = ps.length * w := by
    rw [show encPayload (NvVal.vIntArr w sgn ps) = (ps.map (leN w)).flatten from rfl,
      flatten_map_leN_length]
    exact Nat.mul_comm w ps.length
  have hdlen := data_len_at st pre suf2 name (NvVal.vIntArr w sgn ps) hdata
  have hpay := payload_at st pre suf2 name (NvVal.vIntArr w sgn ps) (ps.length * w)
    hdata hpayl.symm
  have hb1 : pre.length + (17 + name.length) + padLen (17 + name.length) +
      ps.length * w ≤
      pre.length + pairSizeG name (encPayload (NvVal.vIntArr w sgn ps)) := by
    rw [pairSizeG_eq, hpayl]
    omega
  have hb2 : pre.length + (17 + name.length) + padLen (17 + name.length) +
      ps.length * w ≤ st.data.length := by
    rw [hdlen, pairSizeG_eq, hpayl]
    omega
  rw [decodeS_branch_intArr rp w sgn ps _ _ _ rec name hw]
  rw [show elemOf (NvVal.vIntArr w sgn ps) = ps.length from rfl]
  rw [readFullP_okc
    { st with pos := pre.length + pairSizeG name (encPayload (NvVal.vIntArr w sgn ps)) }
    { startByte := pre.length,
      sizeBytes := pairSizeG name (encPayload (NvVal.vIntArr w sgn ps)),
      cur := pre.length + (17 + name.length) + padLen (17 + name.length) }
    (ps.length * w)
    (pre.length + (17 + name.length) + padLen (17 + name.length) + ps.length * w)
    rfl hb1 hb2]
  simp only [Except.bind, bind]
  have hpay2 : (st.data.drop
      (pre.length + (17 + name.length) + padLen (17 + name.length))).take
      (ps.length * w) = (ps.map (leN w)).flatten := hpay
  rw [hpay2]
  rw [hbigE]
  have hchunk := chunkVals_flatten w hw1 ps [] hps
  rw [List.append_nil] at hchunk
  rw [hchunk]
  rw [setPrim_ok hl hk]
  rfl

theorem decode_pair_boolArr (rp : RState → Entries → Except DecErr (RState × Entries))
    (st : RState) (pre suf2 name : List Byte) (rec : Entries) (old : NvVal)
    (bs : List Bool)
    (hdata : st.data = pre ++ (encPair name (NvVal.vBoolArr bs) ++ suf2))
    (hbigE : st.bigE = false)
    (hl : lookupField rec name = some old)
    (hk : old.kindMatches (NvVal.vBoolArr bs) = true) :
    decodeS rp (tagOf (NvVal.vBoolArr bs))
      { startByte := pre.length,
        sizeBytes := pairSizeG name (encPayload (NvVal.vBoolArr bs)),
        cur := pre.length + (17 + name.length) + padLen (17 + name.length) }
      { st with pos := pre.length + pairSizeG name (encPayload (NvVal.vBoolArr bs)) }
      (elemOf (NvVal.vBoolArr bs)) rec name =
      .ok (setField rec name (NvVal.vBoolArr bs),
        { st with pos := pre.length + pairSizeG name (encPayload (NvVal.vBoolArr bs)) }) := by
  have hpayl : (encPayload (NvVal.vBoolArr bs)).length = 4 * bs.length := by
    rw [show encPayload (NvVal.vBoolArr bs) =
      (bs.map (fun b => leN 4 (if b then 1 else 0))).flatten from rfl,
      flatten_map_bool_length]
  have hdlen := data_len_at st pre suf2 name (NvVal.vBoolArr bs) hdata
  have hpay := payload_at st pre suf2 name (NvVal.vBoolArr bs) (4 * bs.length)
    hdata hpayl.symm
  have hb1 : pre.length + (17 + name.length) + padLen (17 + name.length) +
      4 * bs.length ≤
      pre.length + pairSizeG name (encPayload (NvVal.vBoolArr bs)) := by
    rw [pairSizeG_eq, hpayl]
    omega
  have hb2 : pre.length + (17 + name.length) + padLen (17 + name.length) +
      4 * bs.length ≤ st.data.length := by
    rw [hdlen, pairSizeG_eq, hpayl]
    omega
  rw [decodeS_branch_boolArr rp bs _ _ _ rec name]
  rw [show elemOf (NvVal.vBoolArr bs) = bs.length from rfl]
  rw [readBoolsP_parses
    { st with pos := pre.length + pairSizeG name (encPayload (NvVal.vBoolArr bs)) }
    hbigE bs
    { startByte := pre.length,
      sizeBytes := pairSizeG name (encPayload (NvVal.vBoolArr bs)),
      cur := pre.length + (17 + name.length) + padLen (17 + name.length) }
    (pre.length + (17 + name.length) + padLen (17 + name.length) + 4 * bs.length)
    hpay rfl hb1 hb2]
  simp only [Except.bind, bind]
  rw [setPrim_ok hl hk]
  rfl

theorem decode_pair_strArr (rp : RState → Entries → Except DecErr (RState × Entries))
    (st : RState) (pre suf2 name : List Byte) (rec : Entries) (old : NvVal)
    (ss : List (List Byte))
    (hdata : st.data = pre ++ (encPair name (NvVal.vStrArr ss) ++ suf2))
    (hsuf2 : 1 ≤ suf2.length)
    (hnz : ∀ s ∈ ss, ∀ c ∈ s, c ≠ 0)
    (hl : lookupField rec name = some old)
    (hk : old.kindMatches (NvVal.vStrArr ss) = true) :
    decodeS rp (tagOf (NvVal.vStrArr ss))
      { startByte := pre.length,
        sizeBytes := pairSizeG name (encPayload (NvVal.vStrArr ss)),
        cur := pre.length + (17 + name.length) + padLen (17 + name.length) }
      { st with pos := pre.length + pairSizeG name (encPayload (NvVal.vStrArr ss)) }
      (elemOf (NvVal.vStrArr ss)) rec name =
      .ok (setField rec name (NvVal.vStrArr ss),
        { st with pos := pre.length + pairSizeG name (encPayload (NvVal.vStrArr ss)) }) := by
  have hpayl : (encPayload (NvVal.vStrArr ss)).length =
      8 * ss.length + ((ss.map (fun s => s ++ [0])).flatten).length := by
    rw [show encPayload (NvVal.vStrArr ss) =
      zeros (8 * ss.length) ++ (ss.map (fun s => s ++ [0])).flatten from rfl]
    simp only [List.length_append, zeros_length]
  have hdlen := data_len_at st pre suf2 name (NvVal.vStrArr ss) hdata
  have hpay := payload_at st pre suf2 name (NvVal.vStrArr ss)
    (8 * ss.length + ((ss.map (fun s => s ++ [0])).flatten).length) hdata hpayl.symm
  have hseg : (st.data.drop
      (pre.length + (17 + name.length) + padLen (17 + name.length) + 8 * ss.length)).take
      ((ss.map (fun s => s ++ [0])).flatten).length =
      (ss.map (fun s => s ++ [0])).flatten := by
    have h1 := congrArg (List.drop (8 * ss.length)) hpay
    rw [List.drop_take, List.drop_drop] at h1
    rw [show 8 * ss.length + ((ss.map (fun s => s ++ [0])).flatten).length -
      8 * ss.length = ((ss.map (fun s => s ++ [0])).flatten).length
      from by omega] at h1
    rw [show encPayload (NvVal.vStrArr ss) =
      zeros (8 * ss.length) ++ (ss.map (fun s => s ++ [0])).flatten from rfl] at h1
    rw [drop_pref _ (zeros_length _)] at h1
    exact h1
  have hCle : pre.length + (17 + name.length) + padLen (17 + name.length) +
      8 * ss.length + ((ss.map (fun s => s ++ [0])).flatten).length ≤
      st.data.length := by
    rw [hdlen, pairSizeG_eq, hpayl]
    omega
  have hdec := decompose_at st.data
    (pre.length + (17 + name.length) + padLen (17 + name.length) + 8 * ss.length)
    ((ss.map (fun s => s ++ [0])).flatten).length
    ((ss.map (fun s => s ++ [0])).flatten) hseg hCle
  have hAlen : (st.data.take
      (pre.length + (17 + name.length) + padLen (17 + name.length) +
        8 * ss.length)).length =
      pre.length + (17 + name.length) + padLen (17 + name.length) + 8 * ss.length := by
    rw [List.length_take]
    omega
  have hbb : (st.data.take
      (pre.length + (17 + name.length) + padLen (17 + name.length) +
        8 * ss.length)).length +
      ((ss.map (fun s => s ++ [0])).flatten).length ≤
      pre.length + pairSizeG name (encPayload (NvVal.vStrArr ss)) := by
    rw [hAlen, pairSizeG_eq, hpayl]
    omega
  have hlt2 : pre.length + pairSizeG name (encPayload (NvVal.vStrArr ss)) <
      st.data.length := by
    rw [hdlen]
    omega
  rw [decodeS_branch_strArr rp ss _ _ _ rec name]
  rw [show elemOf (NvVal.vStrArr ss) = ss.length from rfl]
  dsimp only
  rw [readStrsP_parses
    { st with pos := pre.length + pairSizeG name (encPayload (NvVal.vStrArr ss)) }
    ss
    { startByte := pre.length,
      sizeBytes := pairSizeG name (encPayload (NvVal.vStrArr ss)),
      cur := pre.length + (17 + name.length) + padLen (17 + name.length) +
        8 * ss.length }
    (st.data.take
      (pre.length + (17 + name.length) + padLen (17 + name.length) + 8 * ss.length))
    (st.data.drop
      (pre.length + (17 + name.length) + padLen (17 + name.length) + 8 * ss.length +
        ((ss.map (fun s => s ++ [0])).flatten).length))
    (pre.length + (17 + name.length) + padLen (17 + name.length) + 8 * ss.length +
      ((ss.map (fun s => s ++ [0])).flatten).length)
    hnz hdec hAlen.symm rfl hbb hlt2]
  simp only [Except.bind, bind]
  rw [setPrim_ok hl hk]
  rfl

/-- Main decode theorem for the round-trip: on the byte stream the writer
produced for a well-formed record `es`, `readPairsS` consumes exactly
`encStream es` (trailer included), succeeds, and turns a compatible target
`rec` into `applyEntries rec es`. -/
theorem decode_enc (es : Entries) : ∀ (fuel : Nat) (rec : Entries) (st : RState)
    (pre suf : List Byte) (posF : Nat),
    entriesWF es = true →
    entriesCompat rec es = true →
    st.data = pre ++ (encStream es ++ suf) →
    st.pos = pre.length →
    st.bigE = false → st.xdr = false →
    (encStream es).length ≤ fuel →
    posF = pre.length + (encStream es).length →
    readPairsS fuel st rec = .ok ({ st with pos := posF }, applyEntries rec es) := by
  induction es using entriesInd with
  | hnil =>
    intro fuel rec st pre suf posF hwf hcompat hdata hpos hbigE hxdr hfuel hposF
    rcases fuel with _ | f
    · exact absurd hfuel (by have h4 := encStream_ge4 Entries.nil; omega)
    rw [readPairsS]
    rw [readIntO_ok st 4 (by
      rw [hpos, hdata]
      simp only [List.length_append, encStream, zeros_length]
      omega)]
    simp only [Except.bind, bind]
    have hz : intVal st.bigE ((st.data.drop st.pos).take 4) = 0 := by
      rw [hbigE, hdata, hpos]
      rw [extract_take0 pre (encStream Entries.nil) suf 4
        (by simp only [encStream, zeros_length]; omega)]
      decide
    rw [hz]
    rw [if_neg (by omega)]
    rw [if_pos rfl]
    have hp4 : st.pos + 4 = posF := by
      rw [hpos, hposF]
      simp only [encStream, zeros_length]
    rw [hp4]
    rfl
  | hcons name v rest ihf ihr =>
    intro fuel rec st pre suf posF hwf hcompat hdata hpos hbigE hxdr hfuel hposF
    obtain ⟨hnlen, hname, hfresh, hvwf, hrwf⟩ := entriesWF_cons hwf
    obtain ⟨⟨old, hlook, hvc⟩, hcompatR⟩ := entriesCompat_cons hcompat
    rcases fuel with _ | f
    · exact absurd hfuel
        (by have h4 := encStream_ge4 (Entries.cons name v rest); omega)
    rcases v with b | ⟨w, sgn, p⟩ | bits | s | ⟨w, sgn, ps⟩ | bs | ss | fs | ls | _
    case vBool =>
      rcases b with _ | _
      · -- false: the writer skips the pair entirely
        have hstream : encStream (Entries.cons name (NvVal.vBool false) rest) =
            encStream rest := by
          simp [encStream]
        rw [applyEntries_cons]
        dsimp only
        rw [hstream] at hdata hfuel hposF
        exact ihr (f + 1) rec st pre suf posF hrwf hcompatR hdata hpos hbigE hxdr
          hfuel hposF
      · have hplen : (encPair name (NvVal.vBool true)).length =
            pairSizeG name (encPayload (NvVal.vBool true)) := by
          rw [show encPair name (NvVal.vBool true) = encPairG name
            (encPayload (NvVal.vBool true)) (elemOf (NvVal.vBool true))
            (tagOf (NvVal.vBool true)) from rfl, encPairG_length]
        have hstreamlen : (encStream (Entries.cons name (NvVal.vBool true) rest)).length =
            (encPair name (NvVal.vBool true)).length + (encStream rest).length := by
          simp [encStream]
        have hdata2 : st.data = pre ++ (encPair name (NvVal.vBool true) ++
            (encStream rest ++ suf)) := by
          rw [hdata]
          simp [encStream]
        have hdataC : st.data = (pre ++ encPair name (NvVal.vBool true)) ++
            (encStream rest ++ suf) := by
          rw [hdata2]
          simp [List.append_assoc]
        have hposC : pre.length + pairSizeG name (encPayload (NvVal.vBool true)) =
            (pre ++ encPair name (NvVal.vBool true)).length := by
          simp only [List.length_append]
          rw [hplen]
        rw [applyEntries_cons]
        dsimp only
        rw [applyStepVal_nonlist rec name (NvVal.vBool true)
          (fun fs h => NvVal.noConfusion h)]
        rw [pairHeaderParse f st rec name (NvVal.vBool true) pre
          (encStream rest ++ suf) hdata2 hpos hbigE hxdr
          (by have h4 := encStream_ge4 rest; simp only [List.length_append]; omega)
          hnlen hvwf]
        rw [decode_pair_bool (fun st fs => readPairsS f st fs) st pre name rec old
          hlook (valCompat_kind hvc)]
        simp only [Except.bind, bind]
        rw [ihr f (setField rec name (NvVal.vBool true))
          { st with pos := pre.length + pairSizeG name (encPayload (NvVal.vBool true)) }
          (pre ++ encPair name (NvVal.vBool true)) suf posF hrwf
          (by rw [entriesCompat_setField rest rec name (NvVal.vBool true) hfresh]
              exact hcompatR)
          hdataC hposC hbigE hxdr
          (by rw [hstreamlen] at hfuel
              have h17 := encPair_len_ge name (NvVal.vBool true)
              omega)
          (by rw [hposF, hstreamlen]
              simp only [List.length_append]
              omega)]
    case vInt =>
      have hint : (w = 1 ∨ w = 2 ∨ w = 4 ∨ w = 8) ∧ p < 2 ^ (8 * w) := by
        simp only [valWF, Bool.and_eq_true, Bool.or_eq_true, decide_eq_true_eq] at hvwf
        tauto
      have hplen : (encPair name (NvVal.vInt w sgn p)).length =
          pairSizeG name (encPayload (NvVal.vInt w sgn p)) := by
        rw [show encPair name (NvVal.vInt w sgn p) = encPairG name
          (encPayload (NvVal.vInt w sgn p)) (elemOf (NvVal.vInt w sgn p))
          (tagOf (NvVal.vInt w sgn p)) from rfl, encPairG_length]
      have hstreamlen : (encStream (Entries.cons name (NvVal.vInt w sgn p) rest)).length =
          (encPair name (NvVal.vInt w sgn p)).length + (encStream rest).length := by
        simp [encStream]
      have hdata2 : st.data = pre ++ (encPair name (NvVal.vInt w sgn p) ++
          (encStream rest ++ suf)) := by
        rw [hdata]
        simp [encStream]
      have hdataC : st.data = (pre ++ encPair name (NvVal.vInt w sgn p)) ++
          (encStream rest ++ suf) := by
        rw [hdata2]
        simp [List.append_assoc]
      have hposC : pre.length + pairSizeG name (encPayload (NvVal.vInt w sgn p)) =
          (pre ++ encPair name (NvVal.vInt w sgn p)).length := by
        simp only [List.length_append]
        rw [hplen]
      rw [applyEntries_cons]
      dsimp only
      rw [applyStepVal_nonlist rec name (NvVal.vInt w sgn p)
        (fun fs h => NvVal.noConfusion h)]
      rw [pairHeaderParse f st rec name (NvVal.vInt w sgn p) pre
        (encStream rest ++ suf) hdata2 hpos hbigE hxdr
        (by have h4 := encStream_ge4 rest; simp only [List.length_append]; omega)
        hnlen hvwf]
      by_cases hbf : w = 1 ∧ sgn = false
      · obtain ⟨rfl, rfl⟩ := hbf
        have hp256 : p < 256 := by
          have h := hint.2
          norm_num at h
          exact h
        rw [decode_pair_byte (fun st fs => readPairsS f st fs) st pre
          (encStream rest ++ suf) name rec old p hdata2 hp256 hlook
          (valCompat_kind hvc)]
        simp only [Except.bind, bind]
        rw [ihr f (setField rec name (NvVal.vInt 1 false p))
          { st with pos := pre.length + pairSizeG name (encPayload (NvVal.vInt 1 false p)) }
          (pre ++ encPair name (NvVal.vInt 1 false p)) suf posF hrwf
          (by rw [entriesCompat_setField rest rec name (NvVal.vInt 1 false p) hfresh]
              exact hcompatR)
          hdataC hposC hbigE hxdr
          (by rw [hstreamlen] at hfuel
              have h17 := encPair_len_ge name (NvVal.vInt 1 false p)
              omega)
          (by rw [hposF, hstreamlen]
              simp only [List.length_append]
              omega)]
      · have hw : (w = 1 ∧ sgn = true) ∨ w = 2 ∨ w = 4 ∨ w = 8 := by
          rcases hint.1 with rfl | rfl | rfl | rfl
          · cases sgn
            · exact absurd ⟨rfl, rfl⟩ hbf
            · exact Or.inl ⟨rfl, rfl⟩
          · exact Or.inr (Or.inl rfl)
          · exact Or.inr (Or.inr (Or.inl rfl))
          · exact Or.inr (Or.inr (Or.inr rfl))
        rw [decode_pair_int (fun st fs => readPairsS f st fs) st pre
          (encStream rest ++ suf) name rec old w sgn p hw hdata2 hbigE hint.2 hlook
          (valCompat_kind hvc)]
        simp only [Except.bind, bind]
        rw [ihr f (setField rec name (NvVal.vInt w sgn p))
          { st with pos := pre.length + pairSizeG name (encPayload (NvVal.vInt w sgn p)) }
          (pre ++ encPair name (NvVal.vInt w sgn p)) suf posF hrwf
          (by rw [entriesCompat_setField rest rec name (NvVal.vInt w sgn p) hfresh]
              exact hcompatR)
          hdataC hposC hbigE hxdr
          (by rw [hstreamlen] at hfuel
              have h17 := encPair_len_ge name (NvVal.vInt w sgn p)
              omega)
          (by rw [hposF, hstreamlen]
              simp only [List.length_append]
              omega)]
    case vDouble => simp [valWF] at hvwf
    case vStr =>
      have hs : ∀ c ∈ s, c ≠ 0 := by
        simp only [valWF, Bool.and_eq_true, List.all_eq_true, decide_eq_true_eq] at hvwf
        exact fun c hc => by simpa using hvwf.1 c hc
      have hplen : (encPair name (NvVal.vStr s)).length =
          pairSizeG name (encPayload (NvVal.vStr s)) := by
        rw [show encPair name (NvVal.vStr s) = encPairG name
          (encPayload (NvVal.vStr s)) (elemOf (NvVal.vStr s))
          (tagOf (NvVal.vStr s)) from rfl, encPairG_length]
      have hstreamlen : (encStream (Entries.cons name (NvVal.vStr s) rest)).length =
          (encPair name (NvVal.vStr s)).length + (encStream rest).length := by
        simp [encStream]
      have hdata2 : st.data = pre ++ (encPair name (NvVal.vStr s) ++
          (encStream rest ++ suf)) := by
        rw [hdata]
        simp [encStream]
      have hdataC : st.data = (pre ++ encPair name (NvVal.vStr s)) ++
          (encStream rest ++ suf) := by
        rw [hdata2]
        simp [List.append_assoc]
      have hposC : pre.length + pairSizeG name (encPayload (NvVal.vStr s)) =
          (pre ++ encPair name (NvVal.vStr s)).length := by
        simp only [List.length_append]
        rw [hplen]
      rw [applyEntries_cons]
      dsimp only
      rw [applyStepVal_nonlist rec name (NvVal.vStr s)
        (fun fs h => NvVal.noConfusion h)]
      rw [pairHeaderParse f st rec name (NvVal.vStr s) pre
        (encStream rest ++ suf) hdata2 hpos hbigE hxdr
        (by have h4 := encStream_ge4 rest; simp only [List.length_append]; omega)
        hnlen hvwf]
      rw [decode_pair_str (fun st fs => readPairsS f st fs) st pre
        (encStream rest ++ suf) name s rec old hdata2
        (by have h4 := encStream_ge4 rest; simp only [List.length_append]; omega)
        hs hlook (valCompat_kind hvc)]
      simp only [Except.bind, bind]
      rw [ihr f (setField rec name (NvVal.vStr s))
        { st with pos := pre.length + pairSizeG name (encPayload (NvVal.vStr s)) }
        (pre ++ encPair name (NvVal.vStr s)) suf posF hrwf
        (by rw [entriesCompat_setField rest rec name (NvVal.vStr s) hfresh]
            exact hcompatR)
        hdataC hposC hbigE hxdr
        (by rw [hstreamlen] at hfuel
            have h17 := encPair_len_ge name (NvVal.vStr s)
            omega)
        (by rw [hposF, hstreamlen]
            simp only [List.length_append]
            omega)]
    case vIntArr =>
      have hia : (w = 1 ∨ w = 2 ∨ w = 4 ∨ w = 8) ∧
          (∀ q ∈ ps, q < 2 ^ (8 * w)) := by
        simp only [valWF, Bool.and_eq_true, Bool.or_eq_true, List.all_eq_true,
          decide_eq_true_eq] at hvwf
        exact ⟨by tauto, fun q hq => by simpa using hvwf.2 q hq⟩
      have hplen : (encPair name (NvVal.vIntArr w sgn ps)).length =
          pairSizeG name (encPayload (NvVal.vIntArr w sgn ps)) := by
        rw [show encPair name (NvVal.vIntArr w sgn ps) = encPairG name
          (encPayload (NvVal.vIntArr w sgn ps)) (elemOf (NvVal.vIntArr w sgn ps))
          (tagOf (NvVal.vIntArr w sgn ps)) from rfl, encPairG_length]
      have hstreamlen : (encStream (Entries.cons name (NvVal.vIntArr w sgn ps) rest)).length =
          (encPair name (NvVal.vIntArr w sgn ps)).length + (encStream rest).length := by
        simp [encStream]
      have hdata2 : st.data = pre ++ (encPair name (NvVal.vIntArr w sgn ps) ++
          (encStream rest ++ suf)) := by
        rw [hdata]
        simp [encStream]
      have hdataC : st.data = (pre ++ encPair name (NvVal.vIntArr w sgn ps)) ++
          (encStream rest ++ suf) := by
        rw [hdata2]
        simp [List.append_assoc]
      have hposC : pre.length + pairSizeG name (encPayload (NvVal.vIntArr w sgn ps)) =
          (pre ++ encPair name (NvVal.vIntArr w sgn ps)).length := by
        simp only [List.length_append]
        rw [hplen]
      rw [applyEntries_cons]
      dsimp only
      rw [applyStepVal_nonlist rec name (NvVal.vIntArr w sgn ps)
        (fun fs h => NvVal.noConfusion h)]
      rw [pairHeaderParse f st rec name (NvVal.vIntArr w sgn ps) pre
        (encStream rest ++ suf) hdata2 hpos hbigE hxdr
        (by have h4 := encStream_ge4 rest; simp only [List.length_append]; omega)
        hnlen hvwf]
      by_cases hbf : w = 1 ∧ sgn = false
      · obtain ⟨rfl, rfl⟩ := hbf
        have hps256 : ∀ q ∈ ps, q < 256 := by
          intro q hq
          have h := hia.2 q hq
          norm_num at h
          exact h
        rw [decode_pair_byteArr (fun st fs => readPairsS f st fs) st pre
          (encStream rest ++ suf) name rec old ps hdata2 hps256 hlook
          (valCompat_kind hvc)]
        simp only [Except.bind, bind]
        rw [ihr f (setField rec name (NvVal.vIntArr 1 false ps))
          { st with pos := pre.length + pairSizeG name (encPayload (NvVal.vIntArr 1 false ps)) }
          (pre ++ encPair name (NvVal.vIntArr 1 false ps)) suf posF hrwf
          (by rw [entriesCompat_setField rest rec name (NvVal.vIntArr 1 false ps) hfresh]
              exact hcompatR)
          hdataC hposC hbigE hxdr
          (by rw [hstreamlen] at hfuel
              have h17 := encPair_len_ge name (NvVal.vIntArr 1 false ps)
              omega)
          (by rw [hposF, hstreamlen]
              simp only [List.length_append]
              omega)]
      · have hw : (w = 1 ∧ sgn = true) ∨ w = 2 ∨ w = 4 ∨ w = 8 := by
          rcases hia.1 with rfl | rfl | rfl | rfl
          · cases sgn
            · exact absurd ⟨rfl, rfl⟩ hbf
            · exact Or.inl ⟨rfl, rfl⟩
          · exact Or.inr (Or.inl rfl)
          · exact Or.inr (Or.inr (Or.inl rfl))
          · exact Or.inr (Or.inr (Or.inr rfl))
        rw [decode_pair_intArr (fun st fs => readPairsS f st fs) st pre
          (encStream rest ++ suf) name rec old w sgn ps hw hdata2 hbigE hia.2 hlook
          (valCompat_kind hvc)]
        simp only [Except.bind, bind]
        rw [ihr f (setField rec name (NvVal.vIntArr w sgn ps))
          { st with pos := pre.length + pairSizeG name (encPayload (NvVal.vIntArr w sgn ps)) }
          (pre ++ encPair name (NvVal.vIntArr w sgn ps)) suf posF hrwf
          (by rw [entriesCompat_setField rest rec name (NvVal.vIntArr w sgn ps) hfresh]
              exact hcompatR)
          hdataC hposC hbigE hxdr
          (by rw [hstreamlen] at hfuel
              have h17 := encPair_len_ge name (NvVal.vIntArr w sgn ps)
              omega)
          (by rw [hposF, hstreamlen]
              simp only [List.length_append]
              omega)]
    case vBoolArr =>
      have hplen : (encPair name (NvVal.vBoolArr bs)).length =
          pairSizeG name (encPayload (NvVal.vBoolArr bs)) := by
        rw [show encPair name (NvVal.vBoolArr bs) = encPairG name
          (encPayload (NvVal.vBoolArr bs)) (elemOf (NvVal.vBoolArr bs))
          (tagOf (NvVal.vBoolArr bs)) from rfl, encPairG_length]
      have hstreamlen : (encStream (Entries.cons name (NvVal.vBoolArr bs) rest)).length =
          (encPair name (NvVal.vBoolArr bs)).length + (encStream rest).length := by
        simp [encStream]
      have hdata2 : st.data = pre ++ (encPair name (NvVal.vBoolArr bs) ++
          (encStream rest ++ suf)) := by
        rw [hdata]
        simp [encStream]
      have hdataC : st.data = (pre ++ encPair name (NvVal.vBoolArr bs)) ++
          (encStream rest ++ suf) := by
        rw [hdata2]
        simp [List.append_assoc]
      have hposC : pre.length + pairSizeG name (encPayload (NvVal.vBoolArr bs)) =
          (pre ++ encPair name (NvVal.vBoolArr bs)).length := by
        simp only [List.length_append]
        rw [hplen]
      rw [applyEntries_cons]
      dsimp only
      rw [applyStepVal_nonlist rec name (NvVal.vBoolArr bs)
        (fun fs h => NvVal.noConfusion h)]
      rw [pairHeaderParse f st rec name (NvVal.vBoolArr bs) pre
        (encStream rest ++ suf) hdata2 hpos hbigE hxdr
        (by have h4 := encStream_ge4 rest; simp only [List.length_append]; omega)
        hnlen hvwf]
      rw [decode_pair_boolArr (fun st fs => readPairsS f st fs) st pre
        (encStream rest ++ suf) name rec old bs hdata2 hbigE hlook
        (valCompat_kind hvc)]
      simp only [Except.bind, bind]
      rw [ihr f (setField rec name (NvVal.vBoolArr bs))
        { st with pos := pre.length + pairSizeG name (encPayload (NvVal.vBoolArr bs)) }
        (pre ++ encPair name (NvVal.vBoolArr bs)) suf posF hrwf
        (by rw [entriesCompat_setField rest rec name (NvVal.vBoolArr bs) hfresh]
            exact hcompatR)
        hdataC hposC hbigE hxdr
        (by rw [hstreamlen] at hfuel
            have h17 := encPair_len_ge name (NvVal.vBoolArr bs)
            omega)
        (by rw [hposF, hstreamlen]
            simp only [List.length_append]
            omega)]
    case vStrArr =>
      have hall : ∀ s ∈ ss, ∀ c ∈ s, c ≠ 0 := by
        simp only [valWF, Bool.and_eq_true, List.all_eq_true, decide_eq_true_eq] at hvwf
        intro s hs c hc
        simpa using (hvwf.2 s hs).1 c hc
      have hplen : (encPair name (NvVal.vStrArr ss)).length =
          pairSizeG name (encPayload (NvVal.vStrArr ss)) := by
        rw [show encPair name (NvVal.vStrArr ss) = encPairG name
          (encPayload (NvVal.vStrArr ss)) (elemOf (NvVal.vStrArr ss))
          (tagOf (NvVal.vStrArr ss)) from rfl, encPairG_length]
      have hstreamlen : (encStream (Entries.cons name (NvVal.vStrArr ss) rest)).length =
          (encPair name (NvVal.vStrArr ss)).length + (encStream rest).length := by
        simp [encStream]
      have hdata2 : st.data = pre ++ (encPair name (NvVal.vStrArr ss) ++
          (encStream rest ++ suf)) := by
        rw [hdata]
        simp [encStream]
      have hdataC : st.data = (pre ++ encPair name (NvVal.vStrArr ss)) ++
          (encStream rest ++ suf) := by
        rw [hdata2]
        simp [List.append_assoc]
      have hposC : pre.length + pairSizeG name (encPayload (NvVal.vStrArr ss)) =
          (pre ++ encPair name (NvVal.vStrArr ss)).length := by
        simp only [List.length_append]
        rw [hplen]
      rw [applyEntries_cons]
      dsimp only
      rw [applyStepVal_nonlist rec name (NvVal.vStrArr ss)
        (fun fs h => NvVal.noConfusion h)]
      rw [pairHeaderParse f st rec name (NvVal.vStrArr ss) pre
        (encStream rest ++ suf) hdata2 hpos hbigE hxdr
        (by have h4 := encStream_ge4 rest; simp only [List.length_append]; omega)
        hnlen hvwf]
      rw [decode_pair_strArr (fun st fs => readPairsS f st fs) st pre
        (encStream rest ++ suf) name rec old ss hdata2
        (by have h4 := encStream_ge4 rest; simp only [List.length_append]; omega)
        hall hlook (valCompat_kind hvc)]
      simp only [Except.bind, bind]
      rw [ihr f (setField rec name (NvVal.vStrArr ss))
        { st with pos := pre.length + pairSizeG name (encPayload (NvVal.vStrArr ss)) }
        (pre ++ encPair name (NvVal.vStrArr ss)) suf posF hrwf
        (by rw [entriesCompat_setField rest rec name (NvVal.vStrArr ss) hfresh]
            exact hcompatR)
        hdataC hposC hbigE hxdr
        (by rw [hstreamlen] at hfuel
            have h17 := encPair_len_ge name (NvVal.vStrArr ss)
            omega)
        (by rw [hposF, hstreamlen]
            simp only [List.length_append]
            omega)]
    case vList =>
      obtain ⟨fs₀, hold, hfc⟩ := valCompat_list hvc
      subst hold
      have hfswf : entriesWF fs = true := by
        simpa [valWF] using hvwf
      have hplen : (encPair name (NvVal.vList fs)).length =
          pairSizeG name (encPayload (NvVal.vList fs)) := by
        rw [show encPair name (NvVal.vList fs) = encPairG name
          (encPayload (NvVal.vList fs)) (elemOf (NvVal.vList fs))
          (tagOf (NvVal.vList fs)) from rfl, encPairG_length]
      have hstreamlen : (encStream (Entries.cons name (NvVal.vList fs) rest)).length =
          (encPair name (NvVal.vList fs)).length +
            ((encStream fs).length + (encStream rest).length) := by
        simp [encStream]
      have hdata2 : st.data = pre ++ (encPair name (NvVal.vList fs) ++
          (encStream fs ++ (encStream rest ++ suf))) := by
        rw [hdata]
        simp [encStream]
      have hdataC : st.data = (pre ++ encPair name (NvVal.vList fs)) ++
          (encStream fs ++ (encStream rest ++ suf)) := by
        rw [hdata2]
        simp [List.append_assoc]
      have hdataD : st.data = ((pre ++ encPair name (NvVal.vList fs)) ++ encStream fs) ++
          (encStream rest ++ suf) := by
        rw [hdata2]
        simp [List.append_assoc]
      have hposC : pre.length + pairSizeG name (encPayload (NvVal.vList fs)) =
          (pre ++ encPair name (NvVal.vList fs)).length := by
        simp only [List.length_append]
        rw [hplen]
      have hposD : (pre ++ encPair name (NvVal.vList fs)).length + (encStream fs).length =
          ((pre ++ encPair name (NvVal.vList fs)) ++ encStream fs).length := by
        simp only [List.length_append]
      have happ : applyStepVal rec name (NvVal.vList fs) =
          NvVal.vList (applyEntries fs₀ fs) := by
        unfold applyStepVal
        rw [hlook]
      rw [applyEntries_cons]
      dsimp only
      rw [happ]
      rw [pairHeaderParse f st rec name (NvVal.vList fs) pre
        (encStream fs ++ (encStream rest ++ suf)) hdata2 hpos hbigE hxdr
        (by have h4 := encStream_ge4 fs; simp only [List.length_append]; omega)
        hnlen hvwf]
      rw [decodeS_branch_list (fun st fs => readPairsS f st fs) fs fs₀ _ _ _ rec name
        hlook]
      dsimp only
      rw [ihf fs rfl f fs₀
        { st with pos := pre.length + pairSizeG name (encPayload (NvVal.vList fs)) }
        (pre ++ encPair name (NvVal.vList fs)) (encStream rest ++ suf)
        ((pre ++ encPair name (NvVal.vList fs)).length + (encStream fs).length)
        hfswf hfc hdataC hposC hbigE hxdr
        (by rw [hstreamlen] at hfuel
            have h17 := encPair_len_ge name (NvVal.vList fs)
            omega)
        rfl]
      simp only [Except.bind, bind, pure, Except.pure]
      rw [ihr f (setField rec name (NvVal.vList (applyEntries fs₀ fs)))
        { st with
          pos := (pre ++ encPair name (NvVal.vList fs)).length + (encStream fs).length }
        ((pre ++ encPair name (NvVal.vList fs)) ++ encStream fs) suf posF hrwf
        (by rw [entriesCompat_setField rest rec name
              (NvVal.vList (applyEntries fs₀ fs)) hfresh]
            exact hcompatR)
        hdataD hposD hbigE hxdr
        (by rw [hstreamlen] at hfuel
            have h17 := encPair_len_ge name (NvVal.vList fs)
            have h4 := encStream_ge4 fs
            omega)
        (by rw [hposF, hstreamlen]
            simp only [List.length_append]
            omega)]
    case vListArr => simp [valWF] at hvwf
    case vOther => simp [valWF] at hvwf
/-- The integer-array element loop of `nvtype.decode` (consts.go reads array
elements one `readInt` at a time). -/
def readIntsP (st : RState) (w : Nat) : Nat → PairR → Except DecErr (List Nat × PairR)
  | 0, r => .ok ([], r)
  | n + 1, r => do
    let (p, r) ← r.readIntP st w
    let (ps, r) ← readIntsP st w n r
    .ok (p :: ps, r)

/-- `nvtype.decode` (nvlist/consts.go lines 41-221): the tag dispatch on a
value-receiver copy of the pair reader.  The `typeNvlist` and
`typeNvlistArray` cases call back into `readPairs` on the **outer** reader
(the pair reader's skip of the pointer/header block is dead state); those
continuations are passed as parameters `rp` / `ra` so that this dispatch
itself is non-recursive. -/
def decodeC (rp : RState → Except DecErr (RState × Entries))
    (ra : Nat → RState → Except DecErr (RState × EntriesList))
    (tagP : Nat) (r : PairR) (st : RState) (n : Nat) :
    Except DecErr (NvVal × RState) :=
  match tagP with
  | 0 => .error .invalidData                     -- typeUnknown
  | 1 => .ok (.vBool true, st)                   -- typeBoolean
  | 2 => do                                      -- typeByte
    let (b, _) ← r.readByteP st
    .ok (.vInt 1 false b.val, st)
  | 9 => do                                      -- typeString
    let (bs, _) ← r.readBytesDelim st 0
    .ok (.vStr bs.dropLast, st)
  | 10 => do                                     -- typeByteArray
    let (bs, _) ← r.readN st n
    .ok (.vIntArr 1 false (bs.map Fin.val), st)
  | 17 => do                                     -- typeStringArray
    let r := { r with cur := r.cur + 8 * n }     -- skip pointers
    let (ss, _) ← readStrsP st n r
    .ok (.vStrArr ss, st)
  | 18 => .error .unsupportedType                -- typeHrtime
  | 19 => do                                     -- typeNvlist
    let (st, fs) ← rp st
    .ok (.vList fs, st)
  | 20 => do                                     -- typeNvlistArray
    let (st, ls) ← ra n st
    .ok (.vListArr ls, st)
  | 21 => do                                     -- typeBooleanValue
    let (p, _) ← r.readIntP st 4
    match p with
    | 0 => .ok (.vBool false, st)
    | 1 => .ok (.vBool true, st)
    | _ => .error .invalidData
  | 24 => do                                     -- typeBooleanArray
    let (bs, _) ← readBoolsP st n r
    .ok (.vBoolArr bs, st)
  | 27 => do                                     -- typeDouble
    let (p, _) ← r.readIntP st 8
    .ok (.vDouble p, st)
  | t =>
    match intTagWidth t with
    | some (w, sgn) => do                        -- scalar integer tags
      let (p, _) ← r.readIntP st w
      .ok (.vInt w sgn p, st)
    | none =>
      match intArrTagWidth t with
      | some (w, sgn) => do                      -- integer array tags
        let (ps, _) ← readIntsP st w n r
        .ok (.vIntArr w sgn ps, st)
      | none => .error .invalidData              -- default: unknown tag

mutual

/-- `nvlistReader.readPairs` (nvlist/nvlist.go lines 188-284) for a generic
map target.  One fuel unit is spent per pair; `unmarshalC` passes enough fuel
for any input (each pair advances the outer reader by at least 4 bytes). -/
def readPairsC (fuel : Nat) (st : RState) : Except DecErr (RState × Entries) :=
  match fuel with
  | 0 => .error .outOfFuel
  | fuel + 1 => do
    let start := st.pos
    let (szP, st) ← st.readIntO 4
    if 2147483648 ≤ szP then throw .invalidData        -- nvp.Size < 0
    else if szP = 0 then pure (st, .nil)               -- end indicated by zero size
    else if st.data.length < szP + st.pos then throw .invalidData
    else do
      let r : PairR := { startByte := start, sizeBytes := szP, cur := start + 4 }
      -- skipN(Size - 4), plus 4 alignment bytes in XDR mode; the pair reads
      -- below go through `st` only for `data`/`bigE`/`xdr`, which never
      -- change, so the skipped state is threaded separately as `stNext`.
      let stNext := { st with pos := start + szP + if st.xdr then 4 else 0 }
      let (nszP, r) ← r.readIntP st 2
      if nszP = 0 ∨ 32768 ≤ nszP then throw .invalidData  -- Name_sz <= 0
      else do
        let (_, r) ← r.readIntP st 2                   -- Reserve
        let (veP, r) ← r.readIntP st 4
        if 2147483648 ≤ veP then throw .invalidData    -- Value_elem < 0
        else if 65535 < veP then throw .invalidData    -- Value_elem > 65535
        else do
          let (tagP, r) ← r.readIntP st 4
          let (nameRaw, r) ← r.readN st nszP
          let name := nameRaw.dropLast
          let r := r.skipToAlignP st
          let (val, stNext) ← decodeC (fun st => readPairsC fuel st)
            (fun n st => readListArrC fuel n st) tagP r stNext veP
          let (stNext, rest) ← readPairsC fuel stNext
          pure (stNext, .cons name val rest)
termination_by (fuel, 0, 0)

/-- The `typeNvlistArray` element loop: `n` nested pair sequences read from
the outer reader. -/
def readListArrC (fuel : Nat) : Nat → RState → Except DecErr (RState × EntriesList)
  | 0, st => .ok (st, .nil)
  | n + 1, st => do
    let (st, fs) ← readPairsC fuel st
    let (st, ls) ← readListArrC fuel n st
    .ok (st, .cons fs ls)
termination_by n _ => (fuel, 1, n)

end

/-- `Unmarshal` (part_008 lines 35-43 as shipped with nvlist.go) on a generic
map target: stream header, then the pair sequence. -/
def unmarshalC (data : List Byte) : Except DecErr (RState × Entries) := do
  let st ← readNvHeader data
  readPairsC (data.length + 1) st

/-! ## decodeC shape lemmas -/

theorem decodeC_tag0 (rp : RState → Except DecErr (RState × Entries))
    (ra : Nat → RState → Except DecErr (RState × EntriesList))
    (r : PairR) (st : RState) (n : Nat) :
    decodeC rp ra 0 r st n = .error .invalidData := rfl

theorem decodeC_tag18 (rp : RState → Except DecErr (RState × Entries))
    (ra : Nat → RState → Except DecErr (RState × EntriesList))
    (r : PairR) (st : RState) (n : Nat) :
    decodeC rp ra 18 r st n = .error .unsupportedType := rfl

theorem decodeC_ge28 (rp : RState → Except DecErr (RState × Entries))
    (ra : Nat → RState → Except DecErr (RState × EntriesList))
    (k : Nat) (r : PairR) (st : RState) (n : Nat) :
    decodeC rp ra (k + 28) r st n = .error .invalidData := rfl

/-! ## C2: the decoder's rejection conditions (nvlist.go + consts.go) -/

/-- C2: decoding a pair rejects, with the designated error kind, a negative
4-byte size, a name length ≤ 0, an element count that is negative or exceeds
65535, an unknown type tag, and the hrtime tag.  Each conjunct assumes just
enough readability for the parse to reach the corresponding check (the checks
happen in the source's order: size, name size, element count, then the tag
dispatch after the name). -/
theorem claim_C2_rejection (fuel : Nat) (st : RState)
    (hsz : st.pos + 4 ≤ st.data.length) :
    (2147483648 ≤ intVal st.bigE ((st.data.drop st.pos).take 4) →
      readPairsC (fuel + 1) st = .error .invalidData) ∧
    (∀ szP, szP = intVal st.bigE ((st.data.drop st.pos).take 4) →
      szP < 2147483648 → 6 ≤ szP → szP + st.pos + 4 ≤ st.data.length →
      (intVal st.bigE ((st.data.drop (st.pos + 4)).take 2) = 0 ∨
        32768 ≤ intVal st.bigE ((st.data.drop (st.pos + 4)).take 2)) →
      readPairsC (fuel + 1) st = .error .invalidData) ∧
    (∀ szP, szP = intVal st.bigE ((st.data.drop st.pos).take 4) →
      szP < 2147483648 → 12 ≤ szP → szP + st.pos + 4 ≤ st.data.length →
      0 < intVal st.bigE ((st.data.drop (st.pos + 4)).take 2) →
      intVal st.bigE ((st.data.drop (st.pos + 4)).take 2) < 32768 →
      65535 < intVal st.bigE ((st.data.drop (st.pos + 8)).take 4) →
      readPairsC (fuel + 1) st = .error .invalidData) ∧
    (∀ szP nszP, szP = intVal st.bigE ((st.data.drop st.pos).take 4) →
      nszP = intVal st.bigE ((st.data.drop (st.pos + 4)).take 2) →
      szP < 2147483648 → szP + st.pos + 4 ≤ st.data.length →
      0 < nszP → nszP < 32768 → 16 + nszP ≤ szP →
      intVal st.bigE ((st.data.drop (st.pos + 8)).take 4) ≤ 65535 →
      intVal st.bigE ((st.data.drop (st.pos + 12)).take 4) = 18 →
      readPairsC (fuel + 1) st = .error .unsupportedType) ∧
    (∀ szP nszP tagP, szP = intVal st.bigE ((st.data.drop st.pos).take 4) →
      nszP = intVal st.bigE ((st.data.drop (st.pos + 4)).take 2) →
      tagP = intVal st.bigE ((st.data.drop (st.pos + 12)).take 4) →
      szP < 2147483648 → szP + st.pos + 4 ≤ st.data.length →
      0 < nszP → nszP < 32768 → 16 + nszP ≤ szP →
      intVal st.bigE ((st.data.drop (st.pos + 8)).take 4) ≤ 65535 →
      (tagP = 0 ∨ 28 ≤ tagP) →
      readPairsC (fuel + 1) st = .error .invalidData) := by
  refine ⟨?_, ?_, ?_, ?_, ?_⟩
  · intro hneg
    rw [readPairsC, readIntO_ok st 4 hsz]
    simp only [Except.bind, bind]
    rw [if_pos hneg]; rfl
  · intro szP hdef hlt h6 hbound hnsz
    rw [readPairsC, readIntO_ok st 4 hsz]
    simp only [Except.bind, bind]
    rw [← hdef]
    rw [if_neg (by omega), if_neg (by omega), if_neg (by (try dsimp only) <;> omega)]
    rw [readIntP_okc { st with pos := st.pos + 4 }
      { startByte := st.pos, sizeBytes := szP, cur := st.pos + 4 } 2 (st.pos + 6)
      (by (try dsimp only) <;> omega) (by (try dsimp only) <;> omega) (by (try dsimp only) <;> omega)]
    simp only [Except.bind, bind]
    rw [if_pos hnsz]; rfl
  · intro szP hdef hlt h12 hbound hn0 hn1 hve
    rw [readPairsC, readIntO_ok st 4 hsz]
    simp only [Except.bind, bind]
    rw [← hdef]
    rw [if_neg (by omega), if_neg (by omega), if_neg (by (try dsimp only) <;> omega)]
    rw [readIntP_okc { st with pos := st.pos + 4 }
      { startByte := st.pos, sizeBytes := szP, cur := st.pos + 4 } 2 (st.pos + 6)
      (by (try dsimp only) <;> omega) (by (try dsimp only) <;> omega) (by (try dsimp only) <;> omega)]
    simp only [Except.bind, bind]
    rw [if_neg (by omega)]
    rw [readIntP_okc { st with pos := st.pos + 4 }
      { startByte := st.pos, sizeBytes := szP, cur := st.pos + 6 } 2 (st.pos + 8)
      (by (try dsimp only) <;> omega) (by (try dsimp only) <;> omega) (by (try dsimp only) <;> omega)]
    simp only [Except.bind, bind]
    rw [readIntP_okc { st with pos := st.pos + 4 }
      { startByte := st.pos, sizeBytes := szP, cur := st.pos + 8 } 4 (st.pos + 12)
      (by (try dsimp only) <;> omega) (by (try dsimp only) <;> omega) (by (try dsimp only) <;> omega)]
    simp only [Except.bind, bind]
    by_cases hbig : 2147483648 ≤ intVal st.bigE ((st.data.drop (st.pos + 8)).take 4)
    · rw [if_pos hbig]; rfl
    · rw [if_neg hbig, if_pos hve]; rfl
  · intro szP nszP hdefsz hdefnsz hlt hbound hn0 hn1 h16 hve htag
    rw [readPairsC, readIntO_ok st 4 hsz]
    simp only [Except.bind, bind]
    rw [← hdefsz]
    rw [if_neg (by omega), if_neg (by omega), if_neg (by (try dsimp only) <;> omega)]
    rw [readIntP_okc { st with pos := st.pos + 4 }
      { startByte := st.pos, sizeBytes := szP, cur := st.pos + 4 } 2 (st.pos + 6)
      (by (try dsimp only) <;> omega) (by (try dsimp only) <;> omega) (by (try dsimp only) <;> omega)]
    simp only [Except.bind, bind]
    rw [← hdefnsz]
    rw [if_neg (by omega)]
    rw [readIntP_okc { st with pos := st.pos + 4 }
      { startByte := st.pos, sizeBytes := szP, cur := st.pos + 6 } 2 (st.pos + 8)
      (by (try dsimp only) <;> omega) (by (try dsimp only) <;> omega) (by (try dsimp only) <;> omega)]
    simp only [Except.bind, bind]
    rw [readIntP_okc { st with pos := st.pos + 4 }
      { startByte := st.pos, sizeBytes := szP, cur := st.pos + 8 } 4 (st.pos + 12)
      (by (try dsimp only) <;> omega) (by (try dsimp only) <;> omega) (by (try dsimp only) <;> omega)]
    simp only [Except.bind, bind]
    rw [if_neg (by omega), if_neg (by omega)]
    rw [readIntP_okc { st with pos := st.pos + 4 }
      { startByte := st.pos, sizeBytes := szP, cur := st.pos + 12 } 4 (st.pos + 16)
      (by (try dsimp only) <;> omega) (by (try dsimp only) <;> omega) (by (try dsimp only) <;> omega)]
    simp only [Except.bind, bind]
    rw [htag]
    rw [readN_okc { st with pos := st.pos + 4 }
      { startByte := st.pos, sizeBytes := szP, cur := st.pos + 16 } nszP
      (st.pos + 16 + nszP)
      (by (try dsimp only) <;> omega) (by (try dsimp only) <;> omega) (by (try dsimp only) <;> omega)]
    simp only [Except.bind, bind]
    rw [decodeC_tag18]
  · intro szP nszP tagP hdefsz hdefnsz hdeftag hlt hbound hn0 hn1 h16 hve htag
    rw [readPairsC, readIntO_ok st 4 hsz]
    simp only [Except.bind, bind]
    rw [← hdefsz]
    rw [if_neg (by omega), if_neg (by omega), if_neg (by (try dsimp only) <;> omega)]
    rw [readIntP_okc { st with pos := st.pos + 4 }
      { startByte := st.pos, sizeBytes := szP, cur := st.pos + 4 } 2 (st.pos + 6)
      (by (try dsimp only) <;> omega) (by (try dsimp only) <;> omega) (by (try dsimp only) <;> omega)]
    simp only [Except.bind, bind]
    rw [← hdefnsz]
    rw [if_neg (by omega)]
    rw [readIntP_okc { st with pos := st.pos + 4 }
      { startByte := st.pos, sizeBytes := szP, cur := st.pos + 6 } 2 (st.pos + 8)
      (by (try dsimp only) <;> omega) (by (try dsimp only) <;> omega) (by (try dsimp only) <;> omega)]
    simp only [Except.bind, bind]
    rw [readIntP_okc { st with pos := st.pos + 4 }
      { startByte := st.pos, sizeBytes := szP, cur := st.pos + 8 } 4 (st.pos + 12)
      (by (try dsimp only) <;> omega) (by (try dsimp only) <;> omega) (by (try dsimp only) <;> omega)]
    simp only [Except.bind, bind]
    rw [if_neg (by omega), if_neg (by omega)]
    rw [readIntP_okc { st with pos := st.pos + 4 }
      { startByte := st.pos, sizeBytes := szP, cur := st.pos + 12 } 4 (st.pos + 16)
      (by (try dsimp only) <;> omega) (by (try dsimp only) <;> omega) (by (try dsimp only) <;> omega)]
    simp only [Except.bind, bind]
    rw [← hdeftag]
    rw [readN_okc { st with pos := st.pos + 4 }
      { startByte := st.pos, sizeBytes := szP, cur := st.pos + 16 } nszP
      (st.pos + 16 + nszP)
      (by (try dsimp only) <;> omega) (by (try dsimp only) <;> omega) (by (try dsimp only) <;> omega)]
    simp only [Except.bind, bind]
    rcases htag with h0 | h28
    · rw [h0, decodeC_tag0]
    · obtain ⟨k, hk⟩ : ∃ k, tagP = k + 28 := ⟨tagP - 28, by omega⟩
      rw [hk, decodeC_ge28]

/-- A concrete native little-endian pair: size 24, name size 2, element count
1, tag 18 (`typeHrtime`), name `"a\0"`, padding to 24 bytes, zero trailer. -/
def c2buf : List Byte :=
  [24, 0, 0, 0, 2, 0, 0, 0, 1, 0, 0, 0, 18, 0, 0, 0,
   97, 0, 0, 0, 0, 0, 0, 0, 0, 0, 0, 0]

theorem claim_C2_rejection_witness :
    readPairsC 2 { data := c2buf, pos := 0 } = Except.error DecErr.unsupportedType :=
  (claim_C2_rejection 1 { data := c2buf, pos := 0 } (by decide)).2.2.2.1
    24 2 (by decide) (by decide) (by decide) (by decide) (by decide)
    (by decide) (by decide) (by decide) (by decide)

/-! ## C10: safety of the generic decoder

The out-of-bounds accesses of the Go code are modelled as the `panicked`
error, and the fuel bookkeeping of the embedding as `outOfFuel`; the decoder
is safe when neither can be produced.  `SafeS`/`SafeV` additionally record
that a successful computation leaves the outer reader on the same buffer,
moved forward, and in bounds. -/

def SafeS {α : Type} (st : RState) (x : Except DecErr (RState × α)) : Prop :=
  x ≠ .error .panicked ∧ x ≠ .error .outOfFuel ∧
  ∀ p, x = .ok p → (Prod.fst p).data = st.data ∧ st.pos ≤ (Prod.fst p).pos ∧
    (Prod.fst p).pos ≤ st.data.length

def SafeV {α : Type} (st : RState) (x : Except DecErr (α × RState)) : Prop :=
  x ≠ .error .panicked ∧ x ≠ .error .outOfFuel ∧
  ∀ p, x = .ok p → (Prod.snd p).data = st.data ∧ st.pos ≤ (Prod.snd p).pos ∧
    (Prod.snd p).pos ≤ st.data.length

theorem SafeS_err {α : Type} (st : RState) (e : DecErr)
    (h1 : e ≠ DecErr.panicked) (h2 : e ≠ DecErr.outOfFuel) :
    SafeS (α := α) st (.error e) :=
  ⟨fun h => h1 (Except.error.inj h), fun h => h2 (Except.error.inj h),
   fun _ hp => Except.noConfusion hp⟩

theorem SafeV_err {α : Type} (st : RState) (e : DecErr)
    (h1 : e ≠ DecErr.panicked) (h2 : e ≠ DecErr.outOfFuel) :
    SafeV (α := α) st (.error e) :=
  ⟨fun h => h1 (Except.error.inj h), fun h => h2 (Except.error.inj h),
   fun _ hp => Except.noConfusion hp⟩

theorem SafeS_ok {α : Type} (st st' : RState) (a : α)
    (h1 : st'.data = st.data) (h2 : st.pos ≤ st'.pos)
    (h3 : st'.pos ≤ st.data.length) : SafeS st (.ok (st', a)) :=
  ⟨fun h => Except.noConfusion h, fun h => Except.noConfusion h,
   fun p hp => by cases hp; exact ⟨h1, h2, h3⟩⟩

theorem SafeV_ok {α : Type} (st st' : RState) (a : α)
    (h1 : st'.data = st.data) (h2 : st.pos ≤ st'.pos)
    (h3 : st'.pos ≤ st.data.length) : SafeV st (.ok (a, st')) :=
  ⟨fun h => Except.noConfusion h, fun h => Except.noConfusion h,
   fun p hp => by cases hp; exact ⟨h1, h2, h3⟩⟩

theorem SafeS_bind_any {α β : Type} (st : RState) (x : Except DecErr α)
    (k : α → Except DecErr (RState × β))
    (hx : ∀ e, x = .error e → e ≠ DecErr.panicked ∧ e ≠ DecErr.outOfFuel)
    (hk : ∀ a, x = .ok a → SafeS st (k a)) :
    SafeS st (bind x k) := by
  rcases x with e | a
  · simp only [bind, Except.bind]
    obtain ⟨h1, h2⟩ := hx e rfl
    exact SafeS_err st e h1 h2
  · simp only [bind, Except.bind]
    exact hk a rfl

theorem SafeV_bind_any {α β : Type} (st : RState) (x : Except DecErr α)
    (k : α → Except DecErr (β × RState))
    (hx : ∀ e, x = .error e → e ≠ DecErr.panicked ∧ e ≠ DecErr.outOfFuel)
    (hk : ∀ a, x = .ok a → SafeV st (k a)) :
    SafeV st (bind x k) := by
  rcases x with e | a
  · simp only [bind, Except.bind]
    obtain ⟨h1, h2⟩ := hx e rfl
    exact SafeV_err st e h1 h2
  · simp only [bind, Except.bind]
    exact hk a rfl

/-- Bind through a nested-decode step whose safety is already known. -/
theorem SafeS_bind_dec {β : Type} (st stm : RState)
    (x : Except DecErr (NvVal × RState))
    (k : NvVal × RState → Except DecErr (RState × β))
    (hx : SafeV stm x)
    (hk : ∀ v st', st'.data = stm.data → stm.pos ≤ st'.pos →
      st'.pos ≤ stm.data.length → SafeS st (k (v, st'))) :
    SafeS st (bind x k) := by
  rcases x with e | ⟨v, st'⟩
  · simp only [bind, Except.bind]
    exact SafeS_err st e (fun h => hx.1 (by rw [h]))
      (fun h => hx.2.1 (by rw [h]))
  · simp only [bind, Except.bind]
    obtain ⟨h1, h2, h3⟩ := hx.2.2 (v, st') rfl
    exact hk v st' h1 h2 h3

/-- Bind through a recursive pair-sequence step whose safety is known. -/
theorem SafeS_bind_rec {α β : Type} (st stm : RState)
    (x : Except DecErr (RState × α))
    (k : RState × α → Except DecErr (RState × β))
    (hx : SafeS stm x)
    (hk : ∀ st' a, st'.data = stm.data → stm.pos ≤ st'.pos →
      st'.pos ≤ stm.data.length → SafeS st (k (st', a))) :
    SafeS st (bind x k) := by
  rcases x with e | ⟨st', a⟩
  · simp only [bind, Except.bind]
    exact SafeS_err st e (fun h => hx.1 (by rw [h]))
      (fun h => hx.2.1 (by rw [h]))
  · simp only [bind, Except.bind]
    obtain ⟨h1, h2, h3⟩ := hx.2.2 (st', a) rfl
    exact hk st' a h1 h2 h3

/-! Inversion lemmas for the reader primitives: successful reads move the
cursor as expected, and failing reads (inside a pair that lies within the
buffer, `hb`) never produce the out-of-bounds marker. -/

theorem readIntO_inv {st : RState} {k v : Nat} {st' : RState}
    (h : st.readIntO k = .ok (v, st')) :
    st' = { st with pos := st.pos + k } ∧ st.pos + k ≤ st.data.length := by
  unfold RState.readIntO at h
  split at h
  · cases h; exact ⟨rfl, by assumption⟩
  · exact Except.noConfusion h

theorem readIntO_err {st : RState} {k : Nat} {e : DecErr}
    (h : st.readIntO k = .error e) : e = DecErr.eofData := by
  unfold RState.readIntO at h
  split at h
  · exact Except.noConfusion h
  · injection h with h'; exact h'.symm

theorem readByteP_ok_inv {st : RState} {r : PairR} {b : Byte} {r' : PairR}
    (h : r.readByteP st = .ok (b, r')) : r' = { r with cur := r.cur + 1 } := by
  unfold PairR.readByteP at h
  split at h
  · split at h
    · cases h; rfl
    · exact Except.noConfusion h
  · exact Except.noConfusion h

theorem readByteP_err {st : RState} {r : PairR} {e : DecErr}
    (hb : r.startByte + r.sizeBytes < st.data.length)
    (h : r.readByteP st = .error e) : e = DecErr.invalidData := by
  unfold PairR.readByteP at h
  split at h
  · split at h
    · exact Except.noConfusion h
    · exact absurd hb (by omega)
  · injection h with h'; exact h'.symm

theorem readFullP_ok_inv {st : RState} {r : PairR} {k : Nat} {bs : List Byte}
    {r' : PairR} (h : r.readFullP st k = .ok (bs, r')) :
    r' = { r with cur := r.cur + k } := by
  simp only [PairR.readFullP] at h
  split at h
  · split at h
    · cases h; rfl
    · exact Except.noConfusion h
  · split at h <;> exact Except.noConfusion h

theorem readFullP_err {st : RState} {r : PairR} {k : Nat} {e : DecErr}
    (hb : r.startByte + r.sizeBytes < st.data.length)
    (h : r.readFullP st k = .error e) : e = DecErr.eofData := by
  simp only [PairR.readFullP] at h
  split at h
  · split at h
    · exact Except.noConfusion h
    · exact absurd hb (by omega)
  · split at h
    · exact absurd hb (by omega)
    · injection h with h'; exact h'.symm

theorem readIntP_ok_inv {st : RState} {r : PairR} {k v : Nat} {r' : PairR}
    (h : r.readIntP st k = .ok (v, r')) : r' = { r with cur := r.cur + k } := by
  unfold PairR.readIntP at h
  rcases hx : r.readFullP st k with e | ⟨bs, r1⟩ <;> rw [hx] at h <;>
    simp only [bind, Except.bind] at h
  · exact Except.noConfusion h
  · cases h; exact readFullP_ok_inv hx

theorem readIntP_err {st : RState} {r : PairR} {k : Nat} {e : DecErr}
    (hb : r.startByte + r.sizeBytes < st.data.length)
    (h : r.readIntP st k = .error e) : e = DecErr.eofData := by
  unfold PairR.readIntP at h
  rcases hx : r.readFullP st k with e' | ⟨bs, r1⟩ <;> rw [hx] at h <;>
    simp only [bind, Except.bind] at h
  · injection h with h'; exact h' ▸ readFullP_err hb hx
  · exact Except.noConfusion h

theorem readN_ok_inv {st : RState} {r : PairR} {n : Nat} {bs : List Byte}
    {r' : PairR} (h : r.readN st n = .ok (bs, r')) :
    r' = { r with cur := r.cur + n } := by
  unfold PairR.readN at h
  split at h
  · split at h
    · cases h; rfl
    · exact Except.noConfusion h
  · exact Except.noConfusion h

theorem readN_err {st : RState} {r : PairR} {n : Nat} {e : DecErr}
    (hb : r.startByte + r.sizeBytes < st.data.length)
    (h : r.readN st n = .error e) : e = DecErr.invalidData := by
  unfold PairR.readN at h
  split at h
  · split at h
    · exact Except.noConfusion h
    · exact absurd hb (by omega)
  · injection h with h'; exact h'.symm

theorem scanDelim_err (data : List Byte) (bound : Nat) (delim : Byte)
    (hb : bound < data.length) :
    ∀ (m cur : Nat) {e : DecErr}, bound + 1 - cur ≤ m →
    scanDelim data bound delim cur = .error e → e = DecErr.invalidData := by
  intro m
  induction m with
  | zero =>
    intro cur e hm h
    rw [scanDelim, if_neg (by omega)] at h
    injection h with h'; exact h'.symm
  | succ m ih =>
    intro cur e hm h
    rw [scanDelim] at h
    split at h
    · split at h
      · split at h
        · exact Except.noConfusion h
        · exact ih (cur + 1) (by omega) h
      · exact absurd hb (by omega)
    · injection h with h'; exact h'.symm

theorem readBytesDelim_ok_inv {st : RState} {r : PairR} {delim : Byte}
    {bs : List Byte} {r' : PairR}
    (h : r.readBytesDelim st delim = .ok (bs, r')) :
    ∃ c, r' = { r with cur := c } := by
  unfold PairR.readBytesDelim at h
  rcases hx : scanDelim st.data (r.startByte + r.sizeBytes) delim r.cur
    with e | i <;> rw [hx] at h <;> simp only [bind, Except.bind] at h
  · exact Except.noConfusion h
  · cases h; exact ⟨i + 1, rfl⟩

theorem readBytesDelim_err {st : RState} {r : PairR} {delim : Byte} {e : DecErr}
    (hb : r.startByte + r.sizeBytes < st.data.length)
    (h : r.readBytesDelim st delim = .error e) : e = DecErr.invalidData := by
  unfold PairR.readBytesDelim at h
  rcases hx : scanDelim st.data (r.startByte + r.sizeBytes) delim r.cur
    with e' | i <;> rw [hx] at h <;> simp only [bind, Except.bind] at h
  · injection h with h'
    exact h' ▸ scanDelim_err st.data _ delim hb (r.startByte + r.sizeBytes + 1)
      r.cur (by omega) hx
  · exact Except.noConfusion h

theorem readIntsP_err {st : RState} {w : Nat} :
    ∀ (n : Nat) (r : PairR) {e : DecErr},
    r.startByte + r.sizeBytes < st.data.length →
    readIntsP st w n r = .error e →
    e ≠ DecErr.panicked ∧ e ≠ DecErr.outOfFuel := by
  intro n
  induction n with
  | zero => intro r e hb h; exact Except.noConfusion h
  | succ n ih =>
    intro r e hb h
    simp only [readIntsP] at h
    rcases hx : r.readIntP st w with e' | ⟨v, r1⟩ <;> rw [hx] at h <;>
      simp only [bind, Except.bind] at h
    · obtain rfl := Except.error.inj h
      obtain rfl := readIntP_err hb hx
      exact ⟨by decide, by decide⟩
    · obtain rfl := readIntP_ok_inv hx
      rcases hy : readIntsP st w n { r with cur := r.cur + w } with e' | p <;>
        rw [hy] at h <;> simp only [bind, Except.bind] at h
      · obtain rfl := Except.error.inj h
        exact ih { r with cur := r.cur + w } hb hy
      · exact Except.noConfusion h

theorem readBoolsP_err {st : RState} :
    ∀ (n : Nat) (r : PairR) {e : DecErr},
    r.startByte + r.sizeBytes < st.data.length →
    readBoolsP st n r = .error e →
    e ≠ DecErr.panicked ∧ e ≠ DecErr.outOfFuel := by
  intro n
  induction n with
  | zero => intro r e hb h; exact Except.noConfusion h
  | succ n ih =>
    intro r e hb h
    simp only [readBoolsP] at h
    rcases hx : r.readIntP st 4 with e' | ⟨v, r1⟩ <;> rw [hx] at h <;>
      simp only [bind, Except.bind] at h
    · obtain rfl := Except.error.inj h
      obtain rfl := readIntP_err hb hx
      exact ⟨by decide, by decide⟩
    · obtain rfl := readIntP_ok_inv hx
      split at h
      · simp only [pure, Except.pure, bind, Except.bind] at h
        rcases hy : readBoolsP st n { r with cur := r.cur + 4 } with e' | p <;>
          rw [hy] at h <;> simp only [bind, Except.bind] at h
        · obtain rfl := Except.error.inj h
          exact ih { r with cur := r.cur + 4 } hb hy
        · exact Except.noConfusion h
      · simp only [pure, Except.pure, bind, Except.bind] at h
        rcases hy : readBoolsP st n { r with cur := r.cur + 4 } with e' | p <;>
          rw [hy] at h <;> simp only [bind, Except.bind] at h
        · obtain rfl := Except.error.inj h
          exact ih { r with cur := r.cur + 4 } hb hy
        · exact Except.noConfusion h
      · obtain rfl := Except.error.inj
          (h : Except.error DecErr.invalidData = Except.error e)
        exact ⟨by decide, by decide⟩

theorem readStrsP_err {st : RState} :
    ∀ (n : Nat) (r : PairR) {e : DecErr},
    r.startByte + r.sizeBytes < st.data.length →
    readStrsP st n r = .error e →
    e ≠ DecErr.panicked ∧ e ≠ DecErr.outOfFuel := by
  intro n
  induction n with
  | zero => intro r e hb h; exact Except.noConfusion h
  | succ n ih =>
    intro r e hb h
    simp only [readStrsP] at h
    rcases hx : r.readBytesDelim st 0 with e' | ⟨bs, r1⟩ <;> rw [hx] at h <;>
      simp only [bind, Except.bind] at h
    · obtain rfl := Except.error.inj h
      obtain rfl := readBytesDelim_err hb hx
      exact ⟨by decide, by decide⟩
    · obtain ⟨c, rfl⟩ := readBytesDelim_ok_inv hx
      rcases hy : readStrsP st n { r with cur := c } with e' | p <;>
        rw [hy] at h <;> simp only [bind, Except.bind] at h
      · obtain rfl := Except.error.inj h
        exact ih { r with cur := c } hb hy
      · exact Except.noConfusion h

/-- Safety of the tag dispatch: within an in-buffer pair, and given safe
nested-decode continuations, `nvtype.decode` cannot access out of bounds and
its successful results keep the outer reader well placed. -/
theorem decodeC_shape (rp : RState → Except DecErr (RState × Entries))
    (ra : Nat → RState → Except DecErr (RState × EntriesList))
    (tagP : Nat) (r : PairR) (st : RState) (n : Nat)
    (hb : r.startByte + r.sizeBytes < st.data.length)
    (hst : st.pos ≤ st.data.length)
    (hrp : SafeS st (rp st))
    (hra : SafeS st (ra n st)) :
    SafeV st (decodeC rp ra tagP r st n) := by
  unfold decodeC
  split
  · exact SafeV_err st _ (by decide) (by decide)
  · exact SafeV_ok st st _ rfl (le_refl _) hst
  · refine SafeV_bind_any st _ _ ?_ ?_
    · intro e he
      obtain rfl := readByteP_err hb he
      exact ⟨by decide, by decide⟩
    · rintro ⟨b, r1⟩ _
      exact SafeV_ok st st _ rfl (le_refl _) hst
  · refine SafeV_bind_any st _ _ ?_ ?_
    · intro e he
      obtain rfl := readBytesDelim_err hb he
      exact ⟨by decide, by decide⟩
    · rintro ⟨bs, r1⟩ _
      exact SafeV_ok st st _ rfl (le_refl _) hst
  · refine SafeV_bind_any st _ _ ?_ ?_
    · intro e he
      obtain rfl := readN_err hb he
      exact ⟨by decide, by decide⟩
    · rintro ⟨bs, r1⟩ _
      exact SafeV_ok st st _ rfl (le_refl _) hst
  · refine SafeV_bind_any st _ _ ?_ ?_
    · intro e he
      exact readStrsP_err n { r with cur := r.cur + 8 * n } hb he
    · rintro ⟨ss, r1⟩ _
      exact SafeV_ok st st _ rfl (le_refl _) hst
  · exact SafeV_err st _ (by decide) (by decide)
  · refine SafeV_bind_any st _ _ ?_ ?_
    · intro e he
      exact ⟨fun h => hrp.1 (by rw [he, h]), fun h => hrp.2.1 (by rw [he, h])⟩
    · rintro ⟨st', fs⟩ hp
      obtain ⟨h1, h2, h3⟩ := hrp.2.2 (st', fs) hp
      exact SafeV_ok st st' _ h1 h2 h3
  · refine SafeV_bind_any st _ _ ?_ ?_
    · intro e he
      exact ⟨fun h => hra.1 (by rw [he, h]), fun h => hra.2.1 (by rw [he, h])⟩
    · rintro ⟨st', ls⟩ hp
      obtain ⟨h1, h2, h3⟩ := hra.2.2 (st', ls) hp
      exact SafeV_ok st st' _ h1 h2 h3
  · refine SafeV_bind_any st _ _ ?_ ?_
    · intro e he
      obtain rfl := readIntP_err hb he
      exact ⟨by decide, by decide⟩
    · rintro ⟨p, r1⟩ _
      dsimp only
      split
      · exact SafeV_ok st st _ rfl (le_refl _) hst
      · exact SafeV_ok st st _ rfl (le_refl _) hst
      · exact SafeV_err st _ (by decide) (by decide)
  · refine SafeV_bind_any st _ _ ?_ ?_
    · intro e he
      exact readBoolsP_err n r hb he
    · rintro ⟨bs, r1⟩ _
      exact SafeV_ok st st _ rfl (le_refl _) hst
  · refine SafeV_bind_any st _ _ ?_ ?_
    · intro e he
      obtain rfl := readIntP_err hb he
      exact ⟨by decide, by decide⟩
    · rintro ⟨p, r1⟩ _
      exact SafeV_ok st st _ rfl (le_refl _) hst
  · split
    · refine SafeV_bind_any st _ _ ?_ ?_
      · intro e he
        obtain rfl := readIntP_err hb he
        exact ⟨by decide, by decide⟩
      · rintro ⟨p, r1⟩ _
        exact SafeV_ok st st _ rfl (le_refl _) hst
    · split
      · refine SafeV_bind_any st _ _ ?_ ?_
        · intro e he
          exact readIntsP_err n r hb he
        · rintro ⟨ps, r1⟩ _
          exact SafeV_ok st st _ rfl (le_refl _) hst
      · exact SafeV_err st _ (by decide) (by decide)

theorem skipToAlignP_fields (st : RState) (r : PairR) :
    (r.skipToAlignP st).startByte = r.startByte ∧
    (r.skipToAlignP st).sizeBytes = r.sizeBytes := by
  simp only [PairR.skipToAlignP]
  split <;> split <;> exact ⟨rfl, rfl⟩

/-- The decoder loops are safe: with enough fuel (one unit per remaining
byte suffices, as every pair advances the position), `readPairs` and the
nvlist-array loop never access out of bounds, never run out of fuel, and
leave the reader within bounds. -/
theorem decoderSafe (fuel : Nat) :
    (∀ st : RState, st.pos ≤ st.data.length →
      st.data.length + 1 ≤ fuel + st.pos → SafeS st (readPairsC fuel st)) ∧
    (∀ (n : Nat) (st : RState), st.pos ≤ st.data.length →
      st.data.length + 1 ≤ fuel + st.pos → SafeS st (readListArrC fuel n st)) := by
  induction fuel with
  | zero =>
    constructor
    · intro st hpos hfuel
      exact absurd hfuel (by omega)
    · intro n st hpos hfuel
      exact absurd hfuel (by omega)
  | succ fuel ih =>
    obtain ⟨ihp, iha⟩ := ih
    have hp : ∀ st : RState, st.pos ≤ st.data.length →
        st.data.length + 1 ≤ (fuel + 1) + st.pos →
        SafeS st (readPairsC (fuel + 1) st) := by
      intro st hpos hfuel
      rw [readPairsC]
      refine SafeS_bind_any st _ _ ?_ ?_
      · intro e he
        obtain rfl := readIntO_err he
        exact ⟨by decide, by decide⟩
      · rintro ⟨szP, st2⟩ hx
        obtain ⟨rfl, hsz4⟩ := readIntO_inv hx
        dsimp only
        split
        · exact SafeS_err st _ (by decide) (by decide)
        · split
          · exact SafeS_ok st _ _ rfl (by dsimp only; omega) (by dsimp only; omega)
          · split
            · exact SafeS_err st _ (by decide) (by decide)
            · rename_i hbig hzero hbnd
              try dsimp only at hbnd
              have hb' : st.pos + szP < st.data.length := by omega
              refine SafeS_bind_any st _ _ ?_ ?_
              · intro e he
                obtain rfl := readIntP_err (by dsimp only; omega) he
                exact ⟨by decide, by decide⟩
              · rintro ⟨nszP, r1⟩ hx1
                obtain rfl := readIntP_ok_inv hx1
                dsimp only
                split
                · exact SafeS_err st _ (by decide) (by decide)
                · refine SafeS_bind_any st _ _ ?_ ?_
                  · intro e he
                    obtain rfl := readIntP_err (by dsimp only; omega) he
                    exact ⟨by decide, by decide⟩
                  · rintro ⟨res, r2⟩ hx2
                    obtain rfl := readIntP_ok_inv hx2
                    dsimp only
                    refine SafeS_bind_any st _ _ ?_ ?_
                    · intro e he
                      obtain rfl := readIntP_err (by dsimp only; omega) he
                      exact ⟨by decide, by decide⟩
                    · rintro ⟨veP, r3⟩ hx3
                      obtain rfl := readIntP_ok_inv hx3
                      dsimp only
                      split
                      · exact SafeS_err st _ (by decide) (by decide)
                      · split
                        · exact SafeS_err st _ (by decide) (by decide)
                        · refine SafeS_bind_any st _ _ ?_ ?_
                          · intro e he
                            obtain rfl := readIntP_err (by dsimp only; omega) he
                            exact ⟨by decide, by decide⟩
                          · rintro ⟨tagP, r4⟩ hx4
                            obtain rfl := readIntP_ok_inv hx4
                            dsimp only
                            refine SafeS_bind_any st _ _ ?_ ?_
                            · intro e he
                              obtain rfl := readN_err (by dsimp only; omega) he
                              exact ⟨by decide, by decide⟩
                            · rintro ⟨nameRaw, r5⟩ hx5
                              obtain rfl := readN_ok_inv hx5
                              dsimp only
                              refine SafeS_bind_dec st _ _ _
                                (decodeC_shape _ _ _ _ _ _ ?_ ?_ ?_ ?_) ?_
                              · rw [(skipToAlignP_fields _ _).1,
                                  (skipToAlignP_fields _ _).2]
                                dsimp only
                                omega
                              · dsimp only
                                split <;> omega
                              · refine ihp _ ?_ ?_
                                · dsimp only
                                  split <;> omega
                                · dsimp only
                                  split <;> omega
                              · refine iha _ _ ?_ ?_
                                · dsimp only
                                  split <;> omega
                                · dsimp only
                                  split <;> omega
                              · intro v st' h1 h2 h3
                                dsimp only at h1 h2 h3
                                have h2' : st.pos + szP ≤ st'.pos := by
                                  split at h2 <;> omega
                                have hlen := congrArg List.length h1
                                refine SafeS_bind_rec st st' _ _ (ihp st' ?_ ?_) ?_
                                · omega
                                · omega
                                · intro st3 rest g1 g2 g3
                                  have glen := congrArg List.length g1
                                  refine SafeS_ok st st3 _ ?_ ?_ ?_
                                  · rw [g1, h1]
                                  · omega
                                  · omega
    have ha : ∀ (n : Nat) (st : RState), st.pos ≤ st.data.length →
        st.data.length + 1 ≤ (fuel + 1) + st.pos →
        SafeS st (readListArrC (fuel + 1) n st) := by
      intro n
      induction n with
      | zero =>
        intro st hpos hfuel
        rw [readListArrC]
        exact SafeS_ok st st _ rfl (le_refl _) hpos
      | succ n ihn =>
        intro st hpos hfuel
        rw [readListArrC]
        refine SafeS_bind_rec st st _ _ (hp st hpos hfuel) ?_
        intro st' fs h1 h2 h3
        have hlen := congrArg List.length h1
        refine SafeS_bind_rec st st' _ _ (ihn st' ?_ ?_) ?_
        · omega
        · omega
        · intro st3 ls g1 g2 g3
          have glen := congrArg List.length g1
          refine SafeS_ok st st3 _ ?_ ?_ ?_
          · rw [g1, h1]
          · omega
          · omega
    exact ⟨hp, ha⟩

def SafeH (data : List Byte) (x : Except DecErr RState) : Prop :=
  (∀ e, x = .error e → e ≠ DecErr.panicked ∧ e ≠ DecErr.outOfFuel) ∧
  (∀ st, x = .ok st → st.data = data ∧ st.pos ≤ data.length)

theorem SafeH_ok (data : List Byte) (st : RState) (h1 : st.data = data)
    (h2 : st.pos ≤ data.length) : SafeH data (.ok st) :=
  ⟨fun _ he => Except.noConfusion he, fun _ hs => by cases hs; exact ⟨h1, h2⟩⟩

theorem SafeH_bind (data : List Byte) {α : Type} (x : Except DecErr α)
    (k : α → Except DecErr RState)
    (hx : ∀ e, x = .error e → e ≠ DecErr.panicked ∧ e ≠ DecErr.outOfFuel)
    (hk : ∀ a, x = .ok a → SafeH data (k a)) :
    SafeH data (bind x k) := by
  rcases x with e | a
  · simp only [bind, Except.bind]
    obtain ⟨h1, h2⟩ := hx e rfl
    refine ⟨fun e' he' => ?_, fun s hs => Except.noConfusion hs⟩
    obtain rfl := Except.error.inj he'
    exact ⟨h1, h2⟩
  · simp only [bind, Except.bind]
    exact hk a rfl

theorem readByteO_ok_inv {st : RState} {b : Byte} {st' : RState}
    (h : st.readByteO = .ok (b, st')) : st' = { st with pos := st.pos + 1 } := by
  unfold RState.readByteO at h
  split at h
  · cases h; rfl
  · exact Except.noConfusion h

theorem readByteO_errInv {st : RState} {e : DecErr}
    (h : st.readByteO = .error e) : e = DecErr.invalidData := by
  unfold RState.readByteO at h
  split at h
  · exact Except.noConfusion h
  · injection h with h'; exact h'.symm

theorem SafeH_err (data : List Byte) (e : DecErr)
    (h1 : e ≠ DecErr.panicked) (h2 : e ≠ DecErr.outOfFuel) :
    SafeH data (.error e) := by
  refine ⟨fun e' he' => ?_, fun s hs => Except.noConfusion hs⟩
  obtain rfl := Except.error.inj he'
  exact ⟨h1, h2⟩

/-- The version/flags tail of `readNvHeader`, for any state on the buffer. -/
theorem readNvHeader_tail2 (data : List Byte) (st : RState) (hd : st.data = data) :
    SafeH data (do
      let (_, st) ← st.readIntO 4
      let (_, st) ← st.readIntO 4
      Except.ok st) := by
  have hlen := congrArg List.length hd
  refine SafeH_bind data _ _ ?_ ?_
  · intro e he
    obtain rfl := readIntO_err he
    exact ⟨by decide, by decide⟩
  · rintro ⟨v1, st1⟩ h1
    obtain ⟨rfl, hb1⟩ := readIntO_inv h1
    dsimp only
    refine SafeH_bind data _ _ ?_ ?_
    · intro e he
      obtain rfl := readIntO_err he
      exact ⟨by decide, by decide⟩
    · rintro ⟨v2, st2⟩ h2
      obtain ⟨rfl, hb2⟩ := readIntO_inv h2
      refine SafeH_ok data _ ?_ ?_
      · dsimp only
        exact hd
      · dsimp only at hb2 ⊢
        omega

/-- The endianness-onward tail of `readNvHeader`. -/
theorem readNvHeader_tail1 (data : List Byte) (st : RState) (hd : st.data = data) :
    SafeH data (do
      let (endi, st) ← st.readByteO
      let st ←
        match endi.val with
        | 0 => pure { st with bigE := true }
        | 1 => pure { st with bigE := false }
        | _ => throw DecErr.invalidEndianess
      let st := { st with pos := st.pos + 2 }
      let (_, st) ← st.readIntO 4
      let (_, st) ← st.readIntO 4
      Except.ok st) := by
  refine SafeH_bind data _ _ ?_ ?_
  · intro e he
    obtain rfl := readByteO_errInv he
    exact ⟨by decide, by decide⟩
  · rintro ⟨b, st1⟩ h1
    obtain rfl := readByteO_ok_inv h1
    dsimp only
    split
    · simp only [bind, Except.bind, pure, Except.pure]
      exact readNvHeader_tail2 data _ hd
    · simp only [bind, Except.bind, pure, Except.pure]
      exact readNvHeader_tail2 data _ hd
    · exact SafeH_err data _ (by decide) (by decide)

theorem readNvHeader_inv (data : List Byte) : SafeH data (readNvHeader data) := by
  unfold readNvHeader
  refine SafeH_bind data _ _ ?_ ?_
  · intro e he
    obtain rfl := readByteO_errInv he
    exact ⟨by decide, by decide⟩
  · rintro ⟨b, st1⟩ h1
    obtain rfl := readByteO_ok_inv h1
    dsimp only
    split
    · simp only [bind, Except.bind, pure, Except.pure]
      exact readNvHeader_tail1 data _ rfl
    · simp only [bind, Except.bind, pure, Except.pure]
      exact readNvHeader_tail1 data _ rfl
    · exact SafeH_err data _ (by decide) (by decide)

/-- C10: decoding is total and in bounds on arbitrary input.  `Unmarshal`
(generic target) never performs an out-of-bounds access (modelled by the
`panicked` error: every slice index of the outer reader and of the bounded
pair reader is below the buffer length) and never exhausts the embedding's
fuel, so it always returns an ordinary value or decode error. -/
theorem claim_C10_decoder_safety (data : List Byte) :
    unmarshalC data ≠ .error DecErr.panicked ∧
    unmarshalC data ≠ .error DecErr.outOfFuel := by
  unfold unmarshalC
  rcases hh : readNvHeader data with e | st <;> simp only [bind, Except.bind]
  · obtain ⟨h1, h2⟩ := (readNvHeader_inv data).1 e hh
    exact ⟨fun h => h1 (Except.error.inj h), fun h => h2 (Except.error.inj h)⟩
  · obtain ⟨hd, hpos⟩ := (readNvHeader_inv data).2 st hh
    obtain ⟨h1, h2, _⟩ := (decoderSafe (data.length + 1)).1 st
      (by rw [hd]; exact hpos) (by rw [hd]; omega)
    exact ⟨h1, h2⟩


/-! ## Control dispatcher (spec-modelled)

Every operation in the repository calls a 7-argument
`NvlistIoctl(fd, ioctl, name, cmd, request, response, config)`; its definition
is not among the sources (the `src/ioctl/ioctl.go` present is an older
5-argument version without the retry loop).  The retry loop is therefore
modelled from the specification (§4.3). -/

/-- A kernel oracle: given the output-buffer size of the attempt and the
working copy of the command record handed in, the kernel's errno and the
mutated record.  The record type is abstract. -/
structure KernelResp (σ : Type) where
  errno : Nat
  cmdOut : σ

/-- `unix.ENOMEM`. -/
def ENOMEM : Nat := 12

/-- The dispatcher's own failure, distinct from kernel errnos. -/
inductive DispatchErr where
  | bufferTooLarge
deriving DecidableEq, Repr

/-- Observable outcome of a dispatcher call: the caller's command record after
the call, the result (dispatcher error, or the kernel errno with 0 = success),
and the output-buffer sizes attempted, in order. -/
structure DispatchOut (σ : Type) where
  callerCmd : σ
  ret : Except DispatchErr Nat
  sizesTried : List Nat

/-- Modelled from the spec: the retry loop of the control dispatcher
(§4.3, steps 3-4), which is the part of `NvlistIoctl` missing from the
sources.  Each attempt takes a fresh working copy of the caller's command
record and hands it to the kernel together with the current output-buffer
size.  On *out-of-memory* the buffer is grown 8× and the call retried; past
the 16 MiB cap the call fails with *buffer-too-large* and the caller's record
is left untouched.  On any other outcome the working copy is written back to
the caller's record and the kernel errno returned ("Otherwise, write the
working command record back to the caller's record and break").  The fuel
only bounds the loop; `dispatch` passes more than the cap ever allows. -/
def dispatchLoop (σ : Type) (kernel : Nat → σ → KernelResp σ) (cmd : σ) :
    Nat → Nat → DispatchOut σ
  | 0, _ => { callerCmd := cmd, ret := .error .bufferTooLarge, sizesTried := [] }
  | fuel + 1, size =>
    let resp := kernel size cmd
    if resp.errno = ENOMEM then
      let grown := size * 8
      if 16 * 1024 * 1024 < grown then
        { callerCmd := cmd, ret := .error .bufferTooLarge, sizesTried := [size] }
      else
        let out := dispatchLoop σ kernel cmd fuel grown
        { out with sizesTried := size :: out.sizesTried }
    else
      { callerCmd := resp.cmdOut, ret := .ok resp.errno, sizesTried := [size] }

/-- Modelled from the spec: a dispatcher call, starting with an 8 KiB output
buffer (§4.3 step 3). -/
def dispatch (σ : Type) (kernel : Nat → σ → KernelResp σ) (cmd : σ) : DispatchOut σ :=
  dispatchLoop σ kernel cmd 8 8192

/-- A kernel that always reports out-of-memory, never mutating the record. -/
def enomemOracle : Nat → Nat → KernelResp Nat := fun _ c => ⟨ENOMEM, c⟩

/-- A kernel that fails with `EIO = 5` and mutates the working record. -/
def failMutOracle : Nat → Nat → KernelResp Nat := fun _ c => ⟨5, c + 1⟩

/-! ## Send stream adapter (`sendStream.Read`, part_003 lines 424-451)

The pipe is modelled in its post-`Send` state: the producer goroutine has the
write end, so a read either yields pending stream bytes or — once the stream
is exhausted and the write end closed — `io.EOF`; the one-shot error channel
carries the producer's final status (`none` = nil error).  `statusTaken`
instruments when the channel is received from. -/

/-- The error surfaced by `sendStream.Read`: end-of-stream, or the kernel's
final status in its place. -/
inductive SendErr (α : Type) where
  | eof
  | kernel (e : α)
deriving DecidableEq, Repr

/-- `sendStream`: the peek buffer, the memoized final error, the EOF latch. -/
structure SendStream (α : Type) where
  peekBuf : List Byte
  lastError : Option (SendErr α)
  isEOF : Bool

/-- The read end of the pipe plus the one-shot status channel. -/
structure SendPipe (α : Type) where
  bytesLeft : List Byte
  status : Option α
  statusTaken : Bool

/-- `sendStream.Read` with a caller buffer of capacity `cap`:

* once EOF has been latched, return the memoized error;
* otherwise replay peeked bytes first (`copy(buf, s.peekBuf)`);
* otherwise read from the pipe; at end-of-pipe (`io.EOF`) receive the final
  status from the one-shot channel, latch it (substituting `io.EOF` when it is
  nil) and return it. -/
def sendRead {α : Type} (s : SendStream α) (p : SendPipe α) (cap : Nat) :
    (List Byte × Option (SendErr α)) × SendStream α × SendPipe α :=
  if s.isEOF then (([], s.lastError), s, p)
  else if s.peekBuf ≠ [] then
    let n := min cap s.peekBuf.length
    ((s.peekBuf.take n, none), { s with peekBuf := s.peekBuf.drop n }, p)
  else if p.bytesLeft = [] then
    let e := some (match p.status with
      | some err => SendErr.kernel err
      | none => SendErr.eof)
    (([], e), { s with lastError := e, isEOF := true }, { p with statusTaken := true })
  else
    let n := min cap p.bytesLeft.length
    ((p.bytesLeft.take n, none), s, { p with bytesLeft := p.bytesLeft.drop n })

/-- Drive `Read` until it reports an error (as `io.Copy` and every consumer
of an `io.Reader` do), collecting the delivered bytes in order. -/
def sendDrain {α : Type} (fuel : Nat) (s : SendStream α) (p : SendPipe α) (cap : Nat) :
    List Byte × Option (SendErr α) × SendPipe α :=
  match fuel with
  | 0 => ([], none, p)
  | fuel + 1 =>
    match sendRead s p cap with
    | ((bs, some e), _, p') => (bs, some e, p')
    | ((bs, none), s', p') =>
      let (rest, e, p'') := sendDrain fuel s' p' cap
      (bs ++ rest, e, p'')

/-! ## Receive stream adapter (`ReceiveStream.Write`, part_003 lines 567-611)

`Receive` allocates a 312-byte begin-record buffer; `Write` fills it from the
head of the caller's stream and forwards only the remainder to the pipe,
sending the completed begin record on `beginRecordChan` exactly when its last
byte arrives.  The consumer goroutine receives from that channel before it
invokes the control call.  Pipe writes are modelled as succeeding (the EPIPE
branch is out of scope of the claim). -/

structure RecvStream where
  beginRecord : List Byte
  beginRecordPointer : Nat
  pipe : List Byte
  beginSent : Option (List Byte)
  lastError : Option Unit

/-- `ReceiveStream.Write`: returns `(n, error)` and the updated state. -/
def recvWrite (r : RecvStream) (buf : List Byte) : (Nat × Option Unit) × RecvStream :=
  if r.lastError.isSome then ((0, r.lastError), r)
  else
    let brB := r.beginRecord.length - r.beginRecordPointer
    let k := min brB buf.length
    let r :=
      if 0 < brB then
        let br := r.beginRecord.take r.beginRecordPointer ++ buf.take k ++
          r.beginRecord.drop (r.beginRecordPointer + k)
        let ptr := r.beginRecordPointer + k
        { r with
          beginRecord := br
          beginRecordPointer := ptr
          beginSent := if br.length - ptr = 0 then some br else r.beginSent }
      else r
    if buf.length - k = 0 then ((buf.length, none), r)
    else ((buf.length, none), { r with pipe := r.pipe ++ buf.drop k })

/-- The state `Receive` hands out: a zeroed 312-byte begin-record buffer. -/
def recvInit : RecvStream :=
  { beginRecord := zeros 312, beginRecordPointer := 0, pipe := [],
    beginSent := none, lastError := none }

/-- A sequence of caller writes. -/
def recvRun (r : RecvStream) : List (List Byte) → RecvStream
  | [] => r
  | c :: cs => recvRun (recvWrite r c).2 cs

/-- The consumer goroutine of `Receive` (lines 644-652) issues the control
call only after receiving a full 312-byte begin record from the channel. -/
def recvConsumerStarts (sent : Option (List Byte)) : Bool :=
  match sent with
  | some br => decide (br.length = 312)
  | none => false

/-! ## Dispatcher theorems (C3, C4) -/

/-- Full case analysis of the dispatcher: the buffer sizes grow
8192 → 65536 → 524288 → 4194304, and the growth to 33554432 exceeds the
16 MiB cap. -/
theorem dispatch_unfold (σ : Type) (kernel : Nat → σ → KernelResp σ) (cmd : σ) :
    dispatch σ kernel cmd =
      if (kernel 8192 cmd).errno = ENOMEM then
        if (kernel 65536 cmd).errno = ENOMEM then
          if (kernel 524288 cmd).errno = ENOMEM then
            if (kernel 4194304 cmd).errno = ENOMEM then
              ⟨cmd, .error .bufferTooLarge, [8192, 65536, 524288, 4194304]⟩
            else ⟨(kernel 4194304 cmd).cmdOut, .ok (kernel 4194304 cmd).errno,
              [8192, 65536, 524288, 4194304]⟩
          else ⟨(kernel 524288 cmd).cmdOut, .ok (kernel 524288 cmd).errno,
            [8192, 65536, 524288]⟩
        else ⟨(kernel 65536 cmd).cmdOut, .ok (kernel 65536 cmd).errno, [8192, 65536]⟩
      else ⟨(kernel 8192 cmd).cmdOut, .ok (kernel 8192 cmd).errno, [8192]⟩ := by
  simp only [dispatch, dispatchLoop]
  norm_num
  split_ifs <;> rfl

/-- C3: for every dispatcher call, the output buffer starts at 8 KiB; each
out-of-memory reply grows it 8× and retries; every size attempted stays at or
below the 16 MiB cap; and the call fails with *buffer-too-large* exactly when
the kernel keeps reporting out-of-memory at all four admissible sizes (the
next growth, 32 MiB, is past the cap). -/
theorem claim_C3_retry_loop (σ : Type) (kernel : Nat → σ → KernelResp σ) (cmd : σ) :
    (dispatch σ kernel cmd).sizesTried =
      [8192, 65536, 524288, 4194304].take (dispatch σ kernel cmd).sizesTried.length ∧
    1 ≤ (dispatch σ kernel cmd).sizesTried.length ∧
    (∀ s ∈ (dispatch σ kernel cmd).sizesTried, s ≤ 16 * 1024 * 1024) ∧
    ((dispatch σ kernel cmd).ret = .error .bufferTooLarge ↔
      ∀ s ∈ [8192, 65536, 524288, 4194304], (kernel s cmd).errno = ENOMEM) := by
  rw [dispatch_unfold]
  split_ifs <;> simp_all

/-- C3 witness: a kernel that always reports out-of-memory exhausts the four
admissible sizes and fails with *buffer-too-large*. -/
theorem claim_C3_retry_loop_witness :
    (dispatch Nat enomemOracle 0).sizesTried = [8192, 65536, 524288, 4194304] ∧
    (dispatch Nat enomemOracle 0).ret = .error .bufferTooLarge := by
  have h := claim_C3_retry_loop Nat enomemOracle 0
  have hb := h.2.2.2.mpr (by intro s _; rfl)
  refine ⟨?_, hb⟩
  rw [dispatch_unfold]
  rfl

/-- C4 counterexample: a call whose single attempt fails with `EIO = 5` and
mutates the working command record does leak that mutation to the caller's
record (the dispatcher writes the working copy back on every non-ENOMEM
outcome, successful or not), contradicting the claim as stated. -/
theorem claim_C4_counterexample :
    (dispatch Nat failMutOracle 0).ret = .ok 5 ∧ (5 : Nat) ≠ 0 ∧
    (dispatch Nat failMutOracle 0).callerCmd = 1 ∧ (1 : Nat) ≠ 0 := by
  refine ⟨?_, by decide, ?_, by decide⟩ <;> rfl

/-- C4 amended: kernel mutations of the command record are committed back to
the caller's record only from the **final** attempt — never from an
out-of-memory attempt that is retried, and never on the buffer-too-large
path, where the caller's record is returned untouched.  (A final attempt that
fails with a kernel errno also writes its mutations back; only the successful
attempt's mutations are committed among *successful* calls.) -/
theorem claim_C4_amended (σ : Type) (kernel : Nat → σ → KernelResp σ) (cmd : σ) :
    ((dispatch σ kernel cmd).ret = .error .bufferTooLarge →
      (dispatch σ kernel cmd).callerCmd = cmd) ∧
    (∀ e, (dispatch σ kernel cmd).ret = .ok e →
      (dispatch σ kernel cmd).callerCmd =
        (kernel ((dispatch σ kernel cmd).sizesTried.getLastD 0) cmd).cmdOut ∧
      e = (kernel ((dispatch σ kernel cmd).sizesTried.getLastD 0) cmd).errno) := by
  rw [dispatch_unfold]
  split_ifs <;> simp_all

/-- C4 amended witness: with an always-out-of-memory kernel the call fails
with *buffer-too-large* and the caller's record is unchanged. -/
theorem claim_C4_amended_witness :
    (dispatch Nat enomemOracle 7).callerCmd = 7 := by
  exact (claim_C4_amended Nat enomemOracle 7).1 (by rw [dispatch_unfold]; rfl)

/-! ## Send stream theorems (C8) -/

/-- Draining a send stream delivers the peeked bytes first, then the pipe
bytes, then the final status; afterwards the status channel has been
consumed and the pipe is empty. -/
theorem sendDrain_spec {α : Type} (cap : Nat) (hcap : 1 ≤ cap) :
    ∀ (fuel : Nat) (peek stream : List Byte) (status : Option α),
      peek.length + stream.length + 1 ≤ fuel →
      sendDrain fuel ⟨peek, none, false⟩ ⟨stream, status, false⟩ cap =
        (peek ++ stream,
         some (match status with | some e => SendErr.kernel e | none => SendErr.eof),
         ⟨[], status, true⟩) := by
  intro fuel
  induction fuel with
  | zero => intro peek stream status h; omega
  | succ fuel ih =>
    intro peek stream status h
    match hp : peek with
    | b :: bs =>
      have hne : (b :: bs : List Byte) ≠ [] := by simp
      have hmin : 1 ≤ min cap (b :: bs).length := by
        simp [Nat.le_min]; omega
      have ihs := ih ((b :: bs).drop (min cap (b :: bs).length)) stream status (by
        have := List.length_drop (min cap (b :: bs).length) (b :: bs)
        simp at h ⊢
        omega)
      simp only [sendDrain, sendRead]
      simp only [Bool.false_eq_true, if_false, ne_eq, reduceCtorEq, not_false_eq_true,
        if_true]
      simp only [ihs]
      simp [← List.append_assoc, List.take_append_drop]
    | [] =>
      match hs : stream with
      | c :: cs =>
        have hmin : 1 ≤ min cap (c :: cs).length := by
          simp [Nat.le_min]; omega
        have ihs := ih [] ((c :: cs).drop (min cap (c :: cs).length)) status (by
          have := List.length_drop (min cap (c :: cs).length) (c :: cs)
          simp at h ⊢
          omega)
        simp only [sendDrain, sendRead]
        simp only [Bool.false_eq_true, if_false, ne_eq, not_true_eq_false,
          reduceCtorEq, if_true]
        simp only [ihs]
        simp [← List.append_assoc, List.take_append_drop]
      | [] =>
        simp [sendDrain, sendRead]

/-- C8: all stream bytes — peeked bytes replayed first — are delivered to the
caller before the final status, which is surfaced in place of end-of-stream
exactly when the kernel's status is non-nil; and a `Read` consumes the
one-shot status channel only when it observes end-of-pipe (empty peek buffer
and exhausted pipe). -/
theorem claim_C8_send_stream_order {α : Type} (peek stream : List Byte)
    (status : Option α) (cap fuel : Nat) (hcap : 1 ≤ cap)
    (hfuel : peek.length + stream.length + 1 ≤ fuel) :
    (sendDrain fuel ⟨peek, none, false⟩ ⟨stream, status, false⟩ cap =
      (peek ++ stream,
       some (match status with | some e => SendErr.kernel e | none => SendErr.eof),
       ⟨[], status, true⟩)) ∧
    (∀ (s : SendStream α) (p : SendPipe α),
      (sendRead s p cap).2.2.statusTaken = true →
        p.statusTaken = true ∨ (s.isEOF = false ∧ s.peekBuf = [] ∧ p.bytesLeft = [])) := by
  constructor
  · exact sendDrain_spec cap hcap fuel peek stream status hfuel
  · intro s p
    unfold sendRead
    split_ifs <;> simp_all

/-- C8 witness: two peeked bytes, one pipe byte, a kernel error 9: the drain
yields `[1,2,3]` and then the kernel error in place of EOF. -/
theorem claim_C8_send_stream_order_witness :
    sendDrain 6 ⟨[1, 2], none, false⟩ ⟨[3], some 9, false⟩ 1 =
      ([1, 2, 3], some (SendErr.kernel (9 : Nat)), ⟨[], some 9, true⟩) := by
  exact (claim_C8_send_stream_order [1, 2] [3] (some 9) 1 6 (by decide) (by decide)).1

/-! ## Receive stream theorems (C9) -/

/-- The receive stream state after the caller has written `t` in total:
the first 312 bytes fill the begin record, the rest went to the pipe, and the
begin record was handed to the consumer exactly when complete. -/
def recvStateOf (t : List Byte) : RecvStream :=
  { beginRecord := t.take 312 ++ zeros (312 - t.length)
    beginRecordPointer := min t.length 312
    pipe := t.drop 312
    beginSent := if 312 ≤ t.length then some (t.take 312) else none
    lastError := none }

theorem recvStateOf_beginRecord_length (t : List Byte) :
    (recvStateOf t).beginRecord.length = 312 := by
  simp [recvStateOf]
  omega

/-- One `Write` step preserves the state characterization. -/
theorem recvWrite_stateOf (t c : List Byte) :
    recvWrite (recvStateOf t) c = ((c.length, none), recvStateOf (t ++ c)) := by
  by_cases ht : 312 ≤ t.length
  · -- the begin record is already full: everything is forwarded to the pipe
    have h0 : 312 - t.length = 0 := by omega
    have h00 : 312 - (t.length + c.length) = 0 := by omega
    have h2 : (t ++ c).take 312 = t.take 312 := by
      rw [List.take_append_eq_append_take, h0]; simp
    have h3 : (t ++ c).drop 312 = t.drop 312 ++ c := by
      rw [List.drop_append_eq_append_drop, h0]; simp
    have h4 : min t.length 312 = 312 := by omega
    have h8 : min (t.length + c.length) 312 = 312 := by omega
    simp only [recvWrite, recvStateOf, h0, h00, zeros, List.replicate_zero,
      List.append_nil, Option.isSome_none, Bool.false_eq_true, if_false,
      List.length_append, h2, h3, h4, h8, List.length_take]
    have h5 : min 312 t.length = 312 := by omega
    simp only [h5, Nat.sub_self, lt_irrefl, if_false, Nat.zero_min,
      Nat.sub_zero, List.drop_zero]
    rw [if_pos ht, if_pos (show 312 ≤ t.length + c.length by omega)]
    split_ifs with hc
    · have : c = [] := List.length_eq_zero.mp (by omega)
      subst this
      simp
    · rfl
  · -- the begin record is still filling
    have htt : t.take 312 = t := List.take_of_length_le (by omega)
    have htp : t.drop 312 = [] := List.drop_of_length_le (by omega)
    have hmin : min t.length 312 = t.length := by omega
    have hbr : (t ++ zeros (312 - t.length)).length = 312 := by
      simp [zeros]; omega
    have hbrB : (0 : Nat) < 312 - t.length := by omega
    have htake : (t ++ zeros (312 - t.length)).take t.length = t := List.take_left t _
    have hdrop : ∀ k, (t ++ zeros (312 - t.length)).drop (t.length + k) =
        zeros (312 - t.length - k) := by
      intro k
      rw [List.drop_append_eq_append_drop, List.drop_of_length_le (by omega),
        show t.length + k - t.length = k by omega]
      simp [zeros, List.drop_replicate]
    have htake2 : (t ++ c).take 312 = t ++ c.take (312 - t.length) := by
      rw [List.take_append_eq_append_take, List.take_of_length_le (by omega)]
    have hdrop2 : (t ++ c).drop 312 = c.drop (312 - t.length) := by
      rw [List.drop_append_eq_append_drop, List.drop_of_length_le (by omega)]
      simp
    simp only [recvWrite, recvStateOf, Option.isSome_none, Bool.false_eq_true,
      if_false, hmin, htt, htp, hbr, if_pos hbrB, htake, hdrop, htake2, hdrop2,
      List.length_append, List.length_take, zeros_length]
    by_cases hcs : c.length ≤ 312 - t.length
    · -- the whole chunk fits into the begin record
      have hkc : min (312 - t.length) c.length = c.length := by omega
      have hck : c.take c.length = c := List.take_of_length_le (le_refl _)
      have hck2 : c.take (312 - t.length) = c := List.take_of_length_le hcs
      have hpd : c.drop (312 - t.length) = [] := List.drop_of_length_le hcs
      simp only [hkc, hck, hck2, hpd]
      split_ifs <;> simp_all <;>
        first
          | omega
          | (simp [zeros]; try omega)
    · -- the chunk overflows the begin record: remainder goes to the pipe
      have hkc : min (312 - t.length) c.length = 312 - t.length := by omega
      have hz : 312 - t.length - (312 - t.length) = 0 := by omega
      have hz2 : 312 - (t.length + c.length) = 0 := by omega
      simp only [hkc, hz, hz2, zeros, List.replicate_zero, List.append_nil]
      split_ifs <;> simp_all <;> omega

/-- Folding a sequence of caller writes. -/
theorem recvRun_stateOf (chunks : List (List Byte)) :
    ∀ t, recvRun (recvStateOf t) chunks = recvStateOf (t ++ chunks.flatten) := by
  induction chunks with
  | nil => intro t; simp [recvRun]
  | cons c cs ih =>
    intro t
    simp only [recvRun, recvWrite_stateOf]
    rw [ih (t ++ c)]
    simp

/-- C9: for every sequence of writes into the receive stream, the first 312
bytes are accumulated into the begin record (zero-padded while incomplete),
only the bytes after the first 312 are forwarded to the pipe, and the
consumer issues the control call exactly when all 312 begin-record bytes have
been received. -/
theorem claim_C9_receive_begin_record (chunks : List (List Byte)) :
    (recvRun recvInit chunks).beginRecord =
      chunks.flatten.take 312 ++ zeros (312 - chunks.flatten.length) ∧
    (recvRun recvInit chunks).pipe = chunks.flatten.drop 312 ∧
    recvConsumerStarts (recvRun recvInit chunks).beginSent =
      decide (312 ≤ chunks.flatten.length) := by
  have h : recvInit = recvStateOf [] := rfl
  rw [h, recvRun_stateOf, List.nil_append]
  refine ⟨rfl, rfl, ?_⟩
  by_cases hf : 312 ≤ chunks.flatten.length
  · simp only [recvStateOf, if_pos hf, recvConsumerStarts, List.length_take]
    have hm : min 312 chunks.flatten.length = 312 := by omega
    simp [hm, hf]
  · simp only [recvStateOf, if_neg hf, recvConsumerStarts]
    rw [List.length_flatten] at hf
    simp [hf]

/-! ## Encoder error behaviour (C6, C7) -/

/-- A name of 32766 `'a'` bytes: its length including the null terminator is
32767 = `math.MaxInt16`, which *does* fit in an int16. -/
def longName : List Byte := List.replicate 32766 97

/-- C6 divergence: the encoder does **not** fail on a name containing a null
byte — `writeString`'s `ErrInvalidValue` is discarded at the call site
(part_006 line 665), so `Marshal` reports success on the name `"a\x00b"`
(first conjunct), while the claim demands *invalid-value*.  Conversely a
null-free name whose length including the terminator is exactly 32767 — which
fits in an int16 — is rejected (`nameLen >= math.MaxInt16`, line 647), while
the claim demands acceptance (remaining conjuncts). -/
theorem writeNvPairs_name_too_long (buf name : List Byte) (rest : Entries)
    (w : Nat) (sgn : Bool) (p : Nat) (h : 32767 ≤ name.length + 1) :
    writeNvPairs buf (.cons name (NvVal.vInt w sgn p) rest) =
      (buf, some EncErr.invalidValue) := by
  simp only [writeNvPairs]
  rw [if_pos h]

theorem longName_len : (List.replicate 32766 (97 : Byte)).length = 32766 :=
  List.length_replicate _ _

theorem longName_threshold : 32767 ≤ (List.replicate 32766 (97 : Byte)).length + 1 := by
  rw [longName_len]

/-- C6 divergence: the encoder does **not** fail on a name containing a null
byte — `writeString`'s `ErrInvalidValue` is discarded at the call site
(part_006 line 665), so `Marshal` reports success on the name `"a\x00b"`
(first conjunct), while the claim demands *invalid-value*.  Conversely a
null-free name of 32766 bytes — whose length including the terminator,
32767, *does* fit in an int16 — is rejected (`nameLen >= math.MaxInt16`,
line 647), while the claim demands acceptance (remaining conjuncts). -/
theorem claim_C6_name_rules_divergence :
    (Marshal (.cons [97, 0, 98] (NvVal.vInt 8 false 0) .nil)).2 = none ∧
    (Marshal (.cons (List.replicate 32766 97) (NvVal.vInt 8 false 0) .nil)).2 =
      some EncErr.invalidValue ∧
    (List.replicate 32766 (97 : Byte)).length + 1 ≤ 32767 ∧
    ∀ b ∈ List.replicate 32766 (97 : Byte), b ≠ (0 : Byte) := by
  refine ⟨by decide, ?_, by rw [longName_len], ?_⟩
  · rw [Marshal, writeNvPairs_name_too_long _ _ _ _ _ _ longName_threshold]
  · intro b hb
    have := List.eq_of_mem_replicate hb
    simp [this]

/-- A nested record whose encoding fails: its field has a Go kind outside the
writer's switch (e.g. a plain `int`), hitting the `default` case
(`return ErrInvalidValue`, line 740). -/
def nestedBad : Entries := .cons [98] NvVal.vOther .nil

/-- C7: the error of recursively encoding a nested nvlist is swallowed.
Encoding `nestedBad` alone fails with *invalid-value* (first conjunct), but a
record with a struct-valued field whose contents are `nestedBad` marshals
"successfully" — part_006 line 684 does `return nil` instead of `return err`
(second conjunct), contradicting the propagation policy. -/
theorem claim_C7_nested_error_swallowed :
    (writeNvPairs [] nestedBad).2 = some EncErr.invalidValue ∧
    (Marshal (.cons [97] (NvVal.vList nestedBad) .nil)).2 = none :=
  ⟨by decide, by decide⟩

/-! ## The round-trip claims (C1, C5) -/

/-- `readNvHeader` on a stream the writer produced: the header is the 12
concrete bytes `[0,1,0,0]` (native, little-endian, reserved), version 0 and
flags 1, so parsing reduces to a computation. -/
theorem readNvHeader_enc (rest : List Byte) :
    readNvHeader (writeNvHeader ++ rest) =
      .ok { data := writeNvHeader ++ rest, pos := 12,
            bigE := false, xdr := false } := by
  unfold readNvHeader
  simp only [writeNvHeader, zeros, leN, RState.readByteO, RState.readIntO,
    Except.bind, bind, pure, Except.pure]
  norm_num
  rw [if_pos (by omega :
    8 ≤ 2 + (rest.length + 1 + 1 + 1 + 1 + 1 + 1 + 1 + 1) + 1 + 1)]
  dsimp only
  rw [if_pos (by simp)]

/-- `Unmarshal` (part_008) of a written stream on a compatible target. -/
theorem unmarshalS_encStream (es rec : Entries) (hwf : entriesWF es = true)
    (hcompat : entriesCompat rec es = true) :
    unmarshalS (writeNvHeader ++ encStream es) rec = .ok (applyEntries rec es) := by
  unfold unmarshalS
  rw [readNvHeader_enc (encStream es)]
  simp only [Except.bind, bind]
  rw [decode_enc es ((writeNvHeader ++ encStream es).length + 1) rec
    { data := writeNvHeader ++ encStream es, pos := 12, bigE := false, xdr := false }
    writeNvHeader [] (12 + (encStream es).length) hwf hcompat
    (by simp) rfl rfl rfl
    (by simp only [List.length_append]; omega) rfl]

/-- C1 (counterexample): the round-trip claim fails as stated.  A `float64`
field is a kind both sides of the schema list (`typeDouble`), the encoder
writes it and reports success, but part_008's `readPairs` has no `case
typeDouble`, so the pair is silently skipped and the decoded record keeps the
zero value instead of the written one. -/
theorem claim_C1_counterexample :
    (Marshal (.cons [97] (.vDouble 1) .nil)).2 = none ∧
    unmarshalS (Marshal (.cons [97] (.vDouble 1) .nil)).1
        (zeroRec (.cons [97] (.vDouble 1) .nil)) =
      .ok (.cons [97] (.vDouble 0) .nil) ∧
    Entries.cons [97] (.vDouble 0) .nil ≠ Entries.cons [97] (.vDouble 1) .nil := by
  refine ⟨rfl, rfl, by decide⟩

/-- C1 (amended): for every record whose fields use only the kinds and names
both sides of the schema actually round-trip — every kind except `float64`
and nvlist arrays, with in-range widths, null-free bounded names and strings,
distinct names, and element counts within the decoder's bounds
(`entriesWF`) — `Marshal` succeeds and part_008's `Unmarshal` into the
record's zero value returns the record itself. -/
theorem claim_C1_amended (es : Entries) (h : entriesWF es = true) :
    (Marshal es).2 = none ∧
    unmarshalS (Marshal es).1 (zeroRec es) = .ok es := by
  have hM : Marshal es = (writeNvHeader ++ encStream es, none) := by
    unfold Marshal
    exact writeNvPairs_shape es h writeNvHeader
  constructor
  · rw [hM]
  · rw [hM]
    exact (unmarshalS_encStream es (zeroRec es) h (entriesCompat_zeroRec es h)).trans
      (by rw [applyEntries_self es h])

theorem claim_C1_amended_witness :
    entriesWF (.cons [97] (.vInt 8 false 5) (.cons [98] (.vBool true) .nil)) = true ∧
    ((Marshal (.cons [97] (.vInt 8 false 5) (.cons [98] (.vBool true) .nil))).2 = none ∧
     unmarshalS
        (Marshal (.cons [97] (.vInt 8 false 5) (.cons [98] (.vBool true) .nil))).1
        (zeroRec (.cons [97] (.vInt 8 false 5) (.cons [98] (.vBool true) .nil))) =
      .ok (.cons [97] (.vInt 8 false 5) (.cons [98] (.vBool true) .nil))) :=
  ⟨by decide, claim_C1_amended _ (by decide)⟩

/-- C5: the boolean presence convention and the zero default.  (1) The writer
emits no pair at all for a boolean-false field; (2) a boolean pair, when
present, carries element count 0 (and the decoder stores `true` for it);
(3) a target field whose on-wire name is absent from the decoded stream is
left at its zero value. -/
theorem claim_C5_boolean_asymmetry
    (buf name : List Byte) (rest : Entries)
    (es : Entries) (n₀ : List Byte) (v₀ : NvVal)
    (hname : name.length + 1 < 32767)
    (hwf : entriesWF es = true)
    (habsent : lookupField es n₀ = none) :
    writeNvPairs buf (.cons name (.vBool false) rest) = writeNvPairs buf rest ∧
    encStream (.cons name (.vBool true) rest) =
      encPairG name [] 0 typeBoolean ++ encStream rest ∧
    unmarshalS (Marshal es).1 (.cons n₀ (zeroOf v₀) (zeroRec es)) =
      .ok (.cons n₀ (zeroOf v₀) es) := by
  refine ⟨?_, ?_, ?_⟩
  · rw [writeNvPairs.eq_def]
    dsimp only
    rw [if_neg (by omega)]
  · rfl
  · have hM : Marshal es = (writeNvHeader ++ encStream es, none) := by
      unfold Marshal
      exact writeNvPairs_shape es hwf writeNvHeader
    rw [hM]
    have hc : entriesCompat (Entries.cons n₀ (zeroOf v₀) (zeroRec es)) es = true := by
      rw [entriesCompat_consTarget es (zeroRec es) n₀ (zeroOf v₀) habsent]
      exact entriesCompat_zeroRec es hwf
    refine (unmarshalS_encStream es _ hwf hc).trans ?_
    rw [applyEntries_cons_fresh es n₀ (zeroOf v₀) (zeroRec es) habsent,
      applyEntries_self es hwf]

theorem claim_C5_boolean_asymmetry_witness :
    ([97] : List Byte).length + 1 < 32767 ∧
    entriesWF (.cons [98] (.vBool true) .nil) = true ∧
    lookupField (.cons [98] (.vBool true) .nil) [99] = none ∧
    (writeNvPairs [] (.cons [97] (.vBool false) .nil) = writeNvPairs [] .nil ∧
     encStream (.cons [97] (.vBool true) .nil) =
       encPairG [97] [] 0 typeBoolean ++ encStream .nil ∧
     unmarshalS (Marshal (.cons [98] (.vBool true) .nil)).1
         (.cons [99] (zeroOf (.vInt 4 false 0))
           (zeroRec (.cons [98] (.vBool true) .nil))) =
       .ok (.cons [99] (zeroOf (.vInt 4 false 0))
         (.cons [98] (.vBool true) .nil))) :=
  ⟨by decide, by decide, by decide,
    claim_C5_boolean_asymmetry [] [97] .nil (.cons [98] (.vBool true) .nil) [99]
      (.vInt 4 false 0) (by decide) (by decide) (by decide)⟩

end GoZfs
